import Mathlib

/-!
# fgrzl/mux : the route registry and the router

A shallow embedding of the segment trie of `route_registry.go` (the `strings`
functions it calls, the `node` / `RouteRegistry` data model, `Register` and
`Load`) and of the router built on it (`router.go`, `route_builder.go`,
`route_context.go`, `middleware_logging.go`: `normalizeRoute`, the
registration methods, the builders, and `ServeHTTP` with its middleware
chain), followed by the properties established about them.

Modelling conventions
* a Go `string` is the list of its code units (`GoString`);
* a Go `map[string]T` is an association list read with `GoMap.get`
  (absent key = `none`) and written with `GoMap.set`;
* a `*RouteOptions` is `none` (the nil pointer) or `some a`, the address `a`
  of a record; two pointers are the same reference iff the addresses agree;
* the trie is a tree (every node is created by `newNode` and linked from one
  parent only), so in-place mutation is modelled by rebuilding the path;
* a run-time panic is the outer `none` of a result;
* the `RouteOptions` records live in a heap (a list, the address of a record
  is its position), so that a builder and the registry can share one record;
* a middleware is the sequence of steps of its `Invoke` body, calls of
  `next(c)` and effects of its own; what `ServeHTTP` does is the list of
  events it produces.
-/

namespace Mux

/-- Go `string`: the sequence of its code units. -/
abbrev GoString := List Char

/-- Go `map[string]T`, as an association list with unique keys. -/
abbrev GoMap (ν : Type) := List (GoString × ν)

namespace GoMap

/-- Map read `m[k]`, `none` when the key is absent. -/
def get {ν : Type} : GoMap ν → GoString → Option ν
  | [], _ => none
  | (k, v) :: rest, key => if k = key then some v else get rest key

/-- Map write `m[k] = v`: replaces the entry of `k`, or adds one. -/
def set {ν : Type} : GoMap ν → GoString → ν → GoMap ν
  | [], key, val => [(key, val)]
  | (k, v) :: rest, key, val =>
      if k = key then (k, val) :: rest else (k, v) :: set rest key val

end GoMap

namespace strings

/-- The function `strings.TrimLeft(s, cutset)`. -/
def TrimLeft (s cutset : GoString) : GoString :=
  s.dropWhile (fun c => cutset.elem c)

/-- The function `strings.TrimRight(s, cutset)`. -/
def TrimRight (s cutset : GoString) : GoString :=
  (s.reverse.dropWhile (fun c => cutset.elem c)).reverse

/-- The function `strings.Trim(s, cutset)`: both ends are trimmed. -/
def Trim (s cutset : GoString) : GoString :=
  TrimLeft (TrimRight s cutset) cutset

/-- The function `strings.Split(s, sep)` for a one-unit separator, the only
kind the registry uses (`"/"`): the pieces between the separators, in order;
always at least one piece. -/
def Split : GoString → Char → List GoString
  | [], _ => [[]]
  | c :: cs, sep =>
      if c = sep then [] :: Split cs sep
      else match Split cs sep with
        | [] => [[c]]
        | piece :: pieces => (c :: piece) :: pieces

/-- The function `strings.HasPrefix(s, p)`. -/
def HasPrefix (s p : GoString) : Bool := p.isPrefixOf s

/-- The function `strings.HasSuffix(s, p)`. -/
def HasSuffix (s p : GoString) : Bool := p.isSuffixOf s

end strings

/-- Go slice expression `s[i:j]` on a string; `none` is the run-time panic
for indices out of range. -/
def slice (s : GoString) (i j : Int) : Option GoString :=
  if 0 ≤ i ∧ i ≤ j ∧ j ≤ (s.length : Int) then
    some ((s.drop i.toNat).take (j - i).toNat)
  else none

/-- Address of a `RouteOptions` record; a `*RouteOptions` is an
`Option RouteOptionsRef`, `none` being nil. -/
abbrev RouteOptionsRef := Nat

/-- The struct `node`: one route segment of the trie. -/
inductive node where
  | mk (children : List (List Char × node)) (options : GoMap (Option RouteOptionsRef))
      (isParam : Bool) (paramKey : GoString) : node

namespace node

/-- Field `children`. -/
def children : node → GoMap node
  | mk c _ _ _ => c

/-- Field `options`. -/
def options : node → GoMap (Option RouteOptionsRef)
  | mk _ o _ _ => o

/-- Field `isParam`. -/
def isParam : node → Bool
  | mk _ _ b _ => b

/-- Field `paramKey`. -/
def paramKey : node → GoString
  | mk _ _ _ k => k

/-- Read of `n.children[key]`: `none` is the nil child. -/
def child (n : node) (key : GoString) : Option node := n.children.get key

/-- Read of `n.options[method]`: nil when the key is absent or holds nil. -/
def optionsAt (n : node) (method : GoString) : Option RouteOptionsRef :=
  (n.options.get method).getD none

/-- Assignment `n.children[key] = c`. -/
def setChild : node → GoString → node → node
  | mk c o b k, key, ch => mk (GoMap.set c key ch) o b k

/-- Assignment `n.options[method] = options`. -/
def setOptions : node → GoString → Option RouteOptionsRef → node
  | mk c o b k, method, opt => mk c (GoMap.set o method opt) b k

end node

/-- Constructor `newNode()`: empty maps, zero values elsewhere. -/
def newNode : node := node.mk [] [] false []

/-- The struct `RouteRegistry`. -/
structure RouteRegistry where
  root : node

/-- Constructor `NewRouteRegistry()`. -/
def NewRouteRegistry : RouteRegistry := ⟨newNode⟩

/-- The reserved child key `"*param"` of the dynamic child. -/
def paramSlot : GoString := ['*', 'p', 'a', 'r', 'a', 'm']

/-- The test `strings.HasPrefix(segment, "{") && strings.HasSuffix(segment, "}")`
of `Register`. -/
def isDynamic (segment : GoString) : Bool :=
  strings.HasPrefix segment ['{'] && strings.HasSuffix segment ['}']

/-- The `error` values `Register` returns. -/
inductive RegisterError where
  | emptyPattern : RegisterError
  | alreadyExists (method pattern : GoString) : RegisterError
  deriving DecidableEq

/-- The loop of `Register` followed by its final check, from the node
`current` on: the updated node and the returned `error` (`none` = nil).
The outer `none` is a panic of the slice expression. -/
def registerWalk (pattern method : GoString) (options : Option RouteOptionsRef) :
    List GoString → node → Option (node × Option RegisterError)
  | [], current =>
      if (current.optionsAt method).isSome then
        some (current, some (RegisterError.alreadyExists method pattern))
      else
        some (current.setOptions method options, none)
  | segment :: rest, current =>
      if isDynamic segment then
        match slice segment 1 ((segment.length : Int) - 1) with
        | none => none
        | some paramKey =>
            let next : node :=
              match current.child paramSlot with
              | none => node.mk [] [] true paramKey
              | some c => c
            match registerWalk pattern method options rest next with
            | none => none
            | some (next', err) => some (current.setChild paramSlot next', err)
      else
        let next : node :=
          match current.child segment with
          | none => newNode
          | some c => c
        match registerWalk pattern method options rest next with
        | none => none
        | some (next', err) => some (current.setChild segment next', err)

/-- Method `RouteRegistry.Register`: the registry afterwards and the returned
`error`; the outer `none` is a panic. -/
def Register (rr : RouteRegistry) (pattern method : GoString)
    (options : Option RouteOptionsRef) : Option (RouteRegistry × Option RegisterError) :=
  if pattern = [] then
    some (rr, some RegisterError.emptyPattern)
  else
    match registerWalk pattern method options
        (strings.Split (strings.Trim pattern ['/']) '/') rr.root with
    | none => none
    | some (root', err) => some (⟨root'⟩, err)

/-- Go `RouteParams`, a `map[string]string`. -/
abbrev RouteParams := GoMap GoString

/-- The loop of `Load` from the node `current` on: the node reached and the
params collected, or `none` when a segment matches no child. -/
def loadWalk : List GoString → node → RouteParams → Option (node × RouteParams)
  | [], current, params => some (current, params)
  | segment :: rest, current, params =>
      match current.child segment with
      | some c => loadWalk rest c params
      | none =>
          match current.child paramSlot with
          | some c => loadWalk rest c (GoMap.set params c.paramKey segment)
          | none => none

/-- Method `RouteRegistry.Load`: `(options, params, found)`; a nil map is
`none`. -/
def Load (rr : RouteRegistry) (path method : GoString) :
    Option RouteOptionsRef × Option RouteParams × Bool :=
  match loadWalk (strings.Split (strings.Trim path ['/']) '/') rr.root [] with
  | none => (none, none, false)
  | some (current, params) =>
      match current.optionsAt method with
      | none => (none, none, false)
      | some o => (some o, some params, true)

/-! ## Vocabulary of the statements -/

/-- The segments `Register` and `Load` walk for a pattern or path:
`strings.Split(strings.Trim(s, "/"), "/")`. -/
def segmentsOf (s : GoString) : List GoString :=
  strings.Split (strings.Trim s ['/']) '/'

/-- The child key under which `Register` files a pattern segment: the
reserved key for a `{name}` segment, the segment itself otherwise. -/
def segmentKey (segment : GoString) : GoString :=
  if isDynamic segment then paramSlot else segment

/-- The node reached from `n` by following the child keys `ks`. -/
def nodeAt : node → List GoString → Option node
  | n, [] => some n
  | n, k :: ks =>
      match n.child k with
      | none => none
      | some c => nodeAt c ks

/-- One call `Register(pattern, method, options)`. -/
structure RegisterCall where
  pattern : GoString
  method : GoString
  options : Option RouteOptionsRef

/-- A sequence of `Register` calls run in order on `rr`: the registry
afterwards and the calls that returned a nil error, in call order. The outer
`none` is a panic of one of the calls. -/
def RegisterAll : RouteRegistry → List RegisterCall →
    Option (RouteRegistry × List RegisterCall)
  | rr, [] => some (rr, [])
  | rr, c :: cs =>
      match Register rr c.pattern c.method c.options with
      | none => none
      | some (rr1, some _) => RegisterAll rr1 cs
      | some (rr1, none) =>
          match RegisterAll rr1 cs with
          | none => none
          | some (rr2, done) => some (rr2, c :: done)

/-- A registry a program can hold: `NewRouteRegistry()` followed by
`Register` calls (the fields of `RouteRegistry` are unexported). -/
def Reachable (rr : RouteRegistry) : Prop :=
  ∃ calls done, RegisterAll NewRouteRegistry calls = some (rr, done)

/-- The path segments `vs` are the pattern segments `ss` with every `{name}`
segment replaced by a non-empty segment without `/`, the others kept. -/
def instantiates : List GoString → List GoString → Bool
  | [], [] => true
  | s :: ss, v :: vs =>
      (if isDynamic s then !v.isEmpty && !v.elem '/' else v == s) && instantiates ss vs
  | _, _ => false

/-- Along the trie path of the pattern segments `ss`, starting at `n`: some
replaced segment of `vs` is the key of a child of the node it is matched at,
so that `Load` takes that child instead of the dynamic one. -/
def shadowed : node → List GoString → List GoString → Bool
  | n, s :: ss, v :: vs =>
      (isDynamic s && (n.child v).isSome) ||
        (match n.child (segmentKey s) with
          | some c => shadowed c ss vs
          | none => false)
  | _, _, _ => false

/-- The node `Register` creates for a pattern segment that has no child yet:
`newNode()`, with `isParam` and `paramKey` set for a `{name}` segment. -/
def freshChild (segment : GoString) : node :=
  if isDynamic segment then
    node.mk [] [] true ((segment.drop 1).take (segment.length - 2))
  else newNode

/-- The node `Register` steps to from `current` for a pattern segment: the
child already filed under the key of the segment, or else a fresh one. -/
def stepChild (current : node) (segment : GoString) : node :=
  match current.child (segmentKey segment) with
  | some c => c
  | none => freshChild segment

/-- No node below `n` has a child filed under a key of the form `{name}`:
`Register` files such segments under the reserved key. -/
def NoDynamicKeys (n : node) : Prop :=
  ∀ ks t k, nodeAt n ks = some t → isDynamic k = true → t.child k = none

/-- The node at which the walk of `Register` ends for the pattern segments
`segs`, started at `n`: existing children are followed, missing ones are
created. -/
def walkEnd : node → List GoString → node
  | n, [] => n
  | n, s :: ss => walkEnd (stepChild n s) ss

/-! ## router.go, route_builder.go, route_context.go, middleware_logging.go -/

namespace strings

/-- The scan of `strings.ReplaceAll` for a non-empty `old`: left to right,
every occurrence of `old` that does not overlap a replaced one is replaced by
`new`; `skip` counts the units of a matched occurrence still to pass. -/
def replaceFrom (old new : GoString) : GoString → Nat → GoString
  | [], _ => []
  | _ :: cs, skip + 1 => replaceFrom old new cs skip
  | c :: cs, 0 =>
      if old.isPrefixOf (c :: cs) then new ++ replaceFrom old new cs (old.length - 1)
      else c :: replaceFrom old new cs 0

/-- The string `s` with `new` put after each of its units. -/
def followEach (new : GoString) : GoString → GoString
  | [] => []
  | c :: cs => c :: (new ++ followEach new cs)

/-- The function `strings.ReplaceAll(s, old, new)`; an empty `old` matches
before the string and after each unit. -/
def ReplaceAll (s old new : GoString) : GoString :=
  if old = [] then new ++ followEach new s else replaceFrom old new s 0

end strings

/-- The function `normalizeRoute(route, prefix)` of router.go. -/
def normalizeRoute (route pre : GoString) : GoString :=
  let pre := strings.TrimRight pre ['/']
  let route := strings.TrimLeft route ['/']
  let route := if !strings.HasPrefix route pre then pre ++ '/' :: route else route
  let route := if !strings.HasPrefix route ['/'] then '/' :: route else route
  let route := if !strings.HasSuffix route ['/'] then route ++ ['/'] else route
  strings.ReplaceAll route ['/', '/'] ['/']

/-- A `HandlerFunc` value, named by a number: the registry and the router
only store and call it. -/
abbrev HandlerFunc := Nat

/-- The struct `RouteOptions`. -/
structure RouteOptions where
  Method : GoString
  Pattern : GoString
  Handler : HandlerFunc
  AllowAnonymous : Bool
  Roles : List GoString
  Scopes : List GoString
  Permissions : List GoString

/-- The `RouteOptions` records allocated so far; the address of a record is
its position. -/
abbrev Heap := List RouteOptions

/-- The struct `RouteBuilder`. -/
structure RouteBuilder where
  Pattern : GoString
  Options : Option RouteOptionsRef

/-- What a middleware does besides calling its continuation, as far as the
router is concerned: output it prints, a response it writes, a call of a
function configured in its options (`fn` is the name of the field, `args` the
string arguments), a `Set-Cookie` header it adds, a response header it sets,
the replacement of `c.Response` by a compressing writer, the deferred `Close`
of that writer, and a run-time panic of the body. How the program goes on
after a panic (the chain is unwound, only deferred calls run, the server
abandons the request) is not modelled: a trace is what the program does up to
its first `panics`. -/
inductive Effect where
  | print (text : GoString) : Effect
  | respond (status : Nat) : Effect
  | call (fn : GoString) (args : List GoString) : Effect
  | setCookie (value : GoString) (maxAge : Nat) : Effect
  | setHeader (name value : GoString) : Effect
  | wrapResponse (encoding : GoString) : Effect
  | closeCompressor (encoding : GoString) : Effect
  | panics : Effect

/-- One step of the body of an `Invoke`: a call `next(c)` or an effect of
its own. -/
inductive Step where
  | next : Step
  | effect (e : Effect) : Step

/-- Whether a step is the call `next(c)`. -/
def Step.isNext : Step → Bool
  | Step.next => true
  | Step.effect _ => false

/-- The fields of `http.Request` the router reads: `r.Method`, `r.URL.Path`. -/
structure Request where
  Method : GoString
  Path : GoString

/-- The struct `RouteContext` (request, resolved options and params). -/
structure RouteContext where
  Request : Request
  Options : Option RouteOptionsRef
  Params : Option RouteParams

/-- Constructor `NewRouteContext(w, r)`. -/
def NewRouteContext (r : Request) : RouteContext := ⟨r, none, none⟩

/-- Method `RouteContext.Param`. -/
def RouteContext.Param (c : RouteContext) (name : GoString) : GoString × Bool :=
  match c.Params with
  | none => ([], false)
  | some params =>
      match GoMap.get params name with
      | some val => (val, true)
      | none => ([], false)

/-- The interface `Middleware`: the body of `Invoke(ctx, next)` as the
sequence of its steps, which may depend on the context. -/
structure Middleware where
  Invoke : RouteContext → List Step

/-- The struct `Router`; `pfx` is its field `prefix`. -/
structure Router where
  pfx : GoString
  middleware : List Middleware
  registry : RouteRegistry

/-- Constructor `NewRouter(prefix)`. -/
def NewRouter (pre : GoString) : Router :=
  ⟨normalizeRoute pre ['/'], [], NewRouteRegistry⟩

/-- The statement `rtr.middleware = append(rtr.middleware, m)`, the body of
`UseLogging`, `UseAuthentication`, `UseAuthorization` and `UseCompression`. -/
def Router.use (rtr : Router) (m : Middleware) : Router :=
  ⟨rtr.pfx, rtr.middleware ++ [m], rtr.registry⟩

/-- The struct `LoggingOptions`. -/
structure LoggingOptions where

/-- The `loggingMiddleware`: prints, calls `next(c)`, prints. -/
def loggingMiddleware (_options : Option LoggingOptions) : Middleware :=
  ⟨fun c =>
    [Step.effect (Effect.print ("Request started: ".toList ++ c.Request.Method ++ " ".toList
        ++ c.Request.Path ++ "\n".toList)),
     Step.next,
     Step.effect (Effect.print ("Request ended: ".toList ++ c.Request.Method ++ " ".toList
        ++ c.Request.Path ++ "\n".toList))]⟩

/-- Method `Router.UseLogging`. -/
def Router.UseLogging (rtr : Router) (options : Option LoggingOptions) : Router :=
  rtr.use (loggingMiddleware options)

/-- What `ServeHTTP` is seen to do: enter `middleware[i].Invoke`, call the
handler `c.Options.Handler(c)`, or an effect of a middleware or of the router. -/
inductive Event where
  | invoke (i : Nat) : Event
  | handler (c : RouteContext) : Event
  | effect (e : Effect) : Event

/-- The variables the closure `next` of `ServeHTTP` shares between its calls:
the cursor `index`, and what happened so far. -/
structure ChainState where
  index : Nat
  trace : List Event

/-- The body of one `Invoke`, run step by step with the continuation `next`. -/
def runSteps (next : ChainState → Option ChainState) :
    List Step → ChainState → Option ChainState
  | [], st => some st
  | Step.next :: rest, st =>
      match next st with
      | none => none
      | some st2 => runSteps next rest st2
  | Step.effect e :: rest, st =>
      runSteps next rest ⟨st.index, st.trace ++ [Event.effect e]⟩

/-- The closure `next` of `ServeHTTP`. The first argument bounds the nesting
of calls; `none` means the bound was too small. -/
def next (middleware : List Middleware) (c : RouteContext) :
    Nat → ChainState → Option ChainState
  | 0, st =>
      match middleware[st.index]? with
      | some _ => none
      | none => some ⟨st.index, st.trace ++ [Event.handler c]⟩
  | fuel + 1, st =>
      match middleware[st.index]? with
      | some current =>
          runSteps (next middleware c fuel) (current.Invoke c)
            ⟨st.index + 1, st.trace ++ [Event.invoke st.index]⟩
      | none => some ⟨st.index, st.trace ++ [Event.handler c]⟩

/-- Method `Router.ServeHTTP`: what it does for the request `r`, in order.
`c.NotFound()` is the response with status 404. -/
def Router.ServeHTTP (rtr : Router) (r : Request) : Option (List Event) :=
  let c := NewRouteContext r
  match Load rtr.registry r.Path r.Method with
  | (options, params, ok) =>
      if !ok then
        some [Event.effect (Effect.respond 404)]
      else
        let c : RouteContext := ⟨c.Request, options, params⟩
        match next rtr.middleware c rtr.middleware.length ⟨0, []⟩ with
        | none => none
        | some st => some st.trace

/-- Method `Router.registerRoute`, on the heap of options records: the heap
and router afterwards and the returned builder. The `error` of `Register` is
dropped, as in the source; `none` is a panic. -/
def Router.registerRoute (rtr : Router) (heap : Heap) (method pattern : GoString)
    (handler : HandlerFunc) : Option (Heap × Router × RouteBuilder) :=
  let pattern := normalizeRoute pattern rtr.pfx
  let options : RouteOptionsRef := heap.length
  let heap := heap ++ [⟨method, pattern, handler, false, [], [], []⟩]
  match Register rtr.registry pattern method (some options) with
  | none => none
  | some (registry, _) => some (heap, ⟨rtr.pfx, rtr.middleware, registry⟩, ⟨[], some options⟩)

/-- Method `Router.HEAD`. -/
def Router.HEAD (rtr : Router) (heap : Heap) (pattern : GoString) (handler : HandlerFunc) :=
  rtr.registerRoute heap "HEAD".toList pattern handler

/-- Method `Router.GET`. -/
def Router.GET (rtr : Router) (heap : Heap) (pattern : GoString) (handler : HandlerFunc) :=
  rtr.registerRoute heap "GET".toList pattern handler

/-- Method `Router.POST`. -/
def Router.POST (rtr : Router) (heap : Heap) (pattern : GoString) (handler : HandlerFunc) :=
  rtr.registerRoute heap "POST".toList pattern handler

/-- Method `Router.PUT`. -/
def Router.PUT (rtr : Router) (heap : Heap) (pattern : GoString) (handler : HandlerFunc) :=
  rtr.registerRoute heap "PUT".toList pattern handler

/-- Method `Router.DELETE`. -/
def Router.DELETE (rtr : Router) (heap : Heap) (pattern : GoString) (handler : HandlerFunc) :=
  rtr.registerRoute heap "DELETE".toList pattern handler

/-- An assignment to a field of `*rb.Options`: the record is read, changed by
`f` and written back; `none` is the panic of a nil dereference. -/
def RouteBuilder.update (rb : RouteBuilder) (heap : Heap)
    (f : RouteOptions → RouteOptions) : Option Heap :=
  match rb.Options with
  | none => none
  | some a =>
      match heap[a]? with
      | none => none
      | some r => some (heap.set a (f r))

/-- Method `RouteBuilder.AllowAnonymous`. -/
def RouteBuilder.AllowAnonymous (rb : RouteBuilder) (heap : Heap) :
    Option (Heap × RouteBuilder) :=
  match rb.update heap (fun r => { r with AllowAnonymous := true }) with
  | none => none
  | some heap => some (heap, rb)

/-- A `for _, x := range xs` loop whose body assigns to `*rb.Options`. -/
def RouteBuilder.forEach (rb : RouteBuilder) (f : GoString → RouteOptions → RouteOptions) :
    List GoString → Heap → Option Heap
  | [], heap => some heap
  | x :: xs, heap =>
      match rb.update heap (f x) with
      | none => none
      | some heap => RouteBuilder.forEach rb f xs heap

/-- Method `RouteBuilder.RequirePermission`; `resource` is not used. -/
def RouteBuilder.RequirePermission (rb : RouteBuilder) (heap : Heap) (_resource : GoString)
    (permissions : List GoString) : Option (Heap × RouteBuilder) :=
  match rb.forEach (fun p r => { r with Permissions := r.Permissions ++ [p] }) permissions heap with
  | none => none
  | some heap => some (heap, rb)

/-- Method `RouteBuilder.RequireRoles`. -/
def RouteBuilder.RequireRoles (rb : RouteBuilder) (heap : Heap) (roles : List GoString) :
    Option (Heap × RouteBuilder) :=
  match rb.forEach (fun x r => { r with Roles := r.Roles ++ [x] }) roles heap with
  | none => none
  | some heap => some (heap, rb)

/-- Method `RouteBuilder.RequireScopes`. -/
def RouteBuilder.RequireScopes (rb : RouteBuilder) (heap : Heap) (scopes : List GoString) :
    Option (Heap × RouteBuilder) :=
  match rb.forEach (fun x r => { r with Scopes := r.Scopes ++ [x] }) scopes heap with
  | none => none
  | some heap => some (heap, rb)

/-- The events of a trace that are calls: middleware entered and handler
called, in order; the effects are left out. -/
def calls : List Event → List Event
  | [] => []
  | Event.effect _ :: rest => calls rest
  | e :: rest => e :: calls rest

/-! ## The index-passing chain of the specification -/

/-- The body of one `Invoke` run with a continuation `k` that has no cursor:
a call of `next(c)` does what `k` does, an effect is recorded. -/
def runStepsWith (k : List Event → List Event) : List Step → List Event → List Event
  | [], tr => tr
  | Step.next :: rest, tr => runStepsWith k rest (k tr)
  | Step.effect e :: rest, tr => runStepsWith k rest (tr ++ [Event.effect e])

/-- The index-passing chain the specification describes,
`chain(i) = if i < n then M_i.Invoke(c, chain(i+1)) else handler(c)`:
`ms` lists the middleware `M_i, ..., M_(n-1)` still ahead, the continuation
handed to `M_i` is the chain of the rest at `i + 1`, and with none left the
handler is called. -/
def chain (c : RouteContext) : List Middleware → Nat → List Event → List Event
  | [], _, tr => tr ++ [Event.handler c]
  | mw :: rest, i, tr =>
      runStepsWith (chain c rest (i + 1)) (mw.Invoke c) (tr ++ [Event.invoke i])

/-! ## Authorization middleware -/

/-- Go `strings.TrimPrefix`. -/
def strings.TrimPrefix (s p : GoString) : GoString :=
  if strings.HasPrefix s p then s.drop p.length else s

/-- What `strings.EqualFold` returns when both strings are ASCII: equality
after `A`-`Z` are mapped to `a`-`z`. The library function itself, which folds
every cased letter of Unicode by the tables of package `unicode`, is the
parameter `EqualFold` of the definitions below; this one serves in examples
over ASCII text. -/
def asciiEqualFold (s t : GoString) : Bool :=
  s.map Char.toLower == t.map Char.toLower

/-- The interface `ClaimsPrincipal`, by the values of the two methods the
middleware call, `Roles()` and `Scopes()`. A nil `c.User` is `none`. -/
structure ClaimsPrincipal where
  Roles : List GoString
  Scopes : List GoString

/-- The struct `AuthorizationOptions`; a function field that is nil is
`none`. -/
structure AuthorizationOptions where
  Roles : List GoString
  Scopes : List GoString
  Permissions : List GoString
  CheckRoles : Option (Option ClaimsPrincipal → List GoString → Bool)
  CheckScopes : Option (Option ClaimsPrincipal → List GoString → Bool)
  CheckPermissions : Option (Option ClaimsPrincipal → List GoString → Bool)

/-- The struct `authorizationMiddleware`; `options` is a pointer. -/
structure authorizationMiddleware where
  options : Option AuthorizationOptions

/-- The record `*c.Options`; `none` is the panic of a nil dereference. -/
def RouteContext.record (c : RouteContext) (heap : Heap) : Option RouteOptions :=
  match c.Options with
  | none => none
  | some a => heap[a]?

/-- Method `RouteContext.Unauthorized`: `http.Error(c.Response, "", 401)`. -/
def RouteContext.Unauthorized : Step := Step.effect (Effect.respond 401)

/-- Method `RouteContext.Forbidden`: `http.Error(c.Response, "", 403)`. -/
def RouteContext.Forbidden : Step := Step.effect (Effect.respond 403)

/-- The nested `for ... range` loops of `checkRoles` and `checkScopes`:
whether some required name equals some name of the user. -/
def anyMatch (valid user : List GoString) : Bool :=
  valid.any (fun required => user.any (fun name => required == name))

/-- Method `authorizationMiddleware.checkRoles`; `user` is `c.User`. The
result is the returned boolean with the calls made of configured functions;
`none` is a panic (nil pointer, nil function, method of a nil interface). -/
def authorizationMiddleware.checkRoles (m : authorizationMiddleware) (heap : Heap)
    (c : RouteContext) (user : Option ClaimsPrincipal) : Option (Bool × List Effect) :=
  match c.record heap with
  | none => none
  | some ro =>
    let validRoles := ro.Roles
    match m.options with
    | none => none
    | some o =>
      match o.CheckRoles with
      | some f => some (f user validRoles, [Effect.call "CheckRoles".toList validRoles])
      | none =>
        if validRoles.length = 0 then some (true, [])
        else
          match user with
          | none => none
          | some u =>
            let userRoles := u.Roles
            if userRoles.length = 0 then some (false, [])
            else some (anyMatch validRoles userRoles, [])

/-- Method `authorizationMiddleware.checkScopes`. As in the source, the test
is on `m.options.CheckScopes` and the call is of `m.options.CheckRoles`. -/
def authorizationMiddleware.checkScopes (m : authorizationMiddleware) (heap : Heap)
    (c : RouteContext) (user : Option ClaimsPrincipal) : Option (Bool × List Effect) :=
  match c.record heap with
  | none => none
  | some ro =>
    let validScopes := ro.Scopes
    match m.options with
    | none => none
    | some o =>
      match o.CheckScopes with
      | some _ =>
        match o.CheckRoles with
        | none => none
        | some f => some (f user validScopes, [Effect.call "CheckRoles".toList validScopes])
      | none =>
        if validScopes.length = 0 then some (true, [])
        else
          match user with
          | none => none
          | some u =>
            let userScopes := u.Scopes
            if userScopes.length = 0 then some (false, [])
            else some (anyMatch validScopes userScopes, [])

/-- The loop `for key, value := range replacements` of
`interpolatePermission`, the keys taken in the order of the list: the value
of the first key for which `strings.EqualFold(key, placeholder)` holds, the
placeholder itself when there is none. `EqualFold` is the library function
`strings.EqualFold`. -/
def replaced (EqualFold : GoString → GoString → Bool) (placeholder : GoString) :
    GoMap GoString → GoString
  | [] => placeholder
  | (key, value) :: rest =>
      if EqualFold key placeholder then value else replaced EqualFold placeholder rest

/-- The loop `for i, ch := range permission` of `interpolatePermission`, from
position `i` on, with the text written so far and the two loop variables. -/
def interpolateFrom (EqualFold : GoString → GoString → Bool)
    (replacements : GoMap GoString) (permission : GoString) :
    List Char → Nat → GoString → Nat → Bool → Option GoString
  | [], _, result, _, _ => some result
  | ch :: rest, i, result, placeholderStart, inPlaceholder =>
      if ch = '{' then
        interpolateFrom EqualFold replacements permission rest (i + 1) result (i + 1) true
      else if ch = '}' ∧ inPlaceholder = true then
        match slice permission placeholderStart i with
        | none => none
        | some placeholder =>
            interpolateFrom EqualFold replacements permission rest (i + 1)
              (result ++ replaced EqualFold placeholder replacements) placeholderStart false
      else if inPlaceholder = false then
        interpolateFrom EqualFold replacements permission rest (i + 1) (result ++ [ch])
          placeholderStart inPlaceholder
      else
        interpolateFrom EqualFold replacements permission rest (i + 1) result
          placeholderStart inPlaceholder

/-- Function `interpolatePermission`; `none` is the panic of the slice
expression `permission[placeholderStart:i]`. -/
def interpolatePermission (EqualFold : GoString → GoString → Bool)
    (replacements : GoMap GoString) (permission : GoString) :
    Option GoString :=
  interpolateFrom EqualFold replacements permission permission 0 [] 0 false

/-- The inner loop of `interpolatePermissions` over one slice, on the pair
`(uniqueMap, result)`. -/
def interpolateItems (EqualFold : GoString → GoString → Bool)
    (replacements : GoMap GoString) :
    List GoString → GoMap Unit × List GoString → Option (GoMap Unit × List GoString)
  | [], acc => some acc
  | item :: rest, (uniqueMap, result) =>
      match interpolatePermission EqualFold replacements item with
      | none => none
      | some val =>
          match uniqueMap.get val with
          | some _ => interpolateItems EqualFold replacements rest (uniqueMap, result)
          | none => interpolateItems EqualFold replacements rest (uniqueMap.set val (), result ++ [val])

/-- The outer loop of `interpolatePermissions` over the slices. -/
def interpolateSlices (EqualFold : GoString → GoString → Bool)
    (replacements : GoMap GoString) :
    List (List GoString) → GoMap Unit × List GoString → Option (GoMap Unit × List GoString)
  | [], acc => some acc
  | items :: rest, acc =>
      match interpolateItems EqualFold replacements items acc with
      | none => none
      | some acc => interpolateSlices EqualFold replacements rest acc

/-- Function `interpolatePermissions(replacements, permissions...)`. -/
def interpolatePermissions (EqualFold : GoString → GoString → Bool)
    (replacements : GoMap GoString)
    (permissions : List (List GoString)) : Option (List GoString) :=
  match interpolateSlices EqualFold replacements permissions ([], []) with
  | none => none
  | some (_, result) => some result

/-- Method `authorizationMiddleware.checkPermission`; a nil `c.Params` is
ranged over as the empty map. -/
def authorizationMiddleware.checkPermission (m : authorizationMiddleware)
    (EqualFold : GoString → GoString → Bool) (heap : Heap)
    (c : RouteContext) (user : Option ClaimsPrincipal) : Option (Bool × List Effect) :=
  match m.options with
  | none => none
  | some o =>
    match c.record heap with
    | none => none
    | some ro =>
      let permission := o.Permissions ++ ro.Permissions
      if permission.length = 0 then some (true, [])
      else
        match interpolatePermissions EqualFold (c.Params.getD []) [o.Permissions, ro.Permissions] with
        | none => none
        | some permissions =>
          match o.CheckPermissions with
          | none => none
          | some f =>
              some (f user permissions, [Effect.call "CheckPermissions".toList permissions])

/-- Method `authorizationMiddleware.Invoke`: the steps of its body, the calls
made by the checks included; `none` is a panic. -/
def authorizationMiddleware.Invoke (m : authorizationMiddleware)
    (EqualFold : GoString → GoString → Bool) (heap : Heap)
    (c : RouteContext) (user : Option ClaimsPrincipal) : Option (List Step) :=
  match m.checkRoles heap c user with
  | none => none
  | some (false, e1) => some (e1.map Step.effect ++ [RouteContext.Forbidden])
  | some (true, e1) =>
    match m.checkScopes heap c user with
    | none => none
    | some (false, e2) => some ((e1 ++ e2).map Step.effect ++ [RouteContext.Forbidden])
    | some (true, e2) =>
      match m.checkPermission EqualFold heap c user with
      | none => none
      | some (false, e3) =>
          some ((e1 ++ e2 ++ e3).map Step.effect ++ [RouteContext.Forbidden])
      | some (true, e3) => some ((e1 ++ e2 ++ e3).map Step.effect ++ [Step.next])

/-! ## Authentication middleware -/

/-- The struct `SessionDetails`; `CreatedAt` is an instant in nanoseconds. -/
structure SessionDetails where
  IP : GoString
  UserAgent : GoString
  CreatedAt : Int

/-- The struct `AuthenticationOptions`. A nil function is `none`; of a
returned `error` only whether it is nil is kept (`true`: an error). -/
structure AuthenticationOptions where
  Validate : Option (GoString → Bool)
  ValidateSession : Option (GoString → Bool × Bool)
  GetSessionDetails : Option (GoString → Option SessionDetails × Bool)
  GetSessionCreationTime : Option (GoString → Int)

/-- The struct `authenticationMiddleware`; `options` is a pointer. -/
structure authenticationMiddleware where
  options : Option AuthenticationOptions

/-- What the authentication middleware reads of the request:
`r.Header.Get("Authorization")`, the value of the cookie
`r.Cookie(GetAppSessionCookieName())` (`none` when `r.Cookie` returns an
error), `r.RemoteAddr` and `r.UserAgent()`. -/
structure Credentials where
  Authorization : GoString
  SessionCookie : Option GoString
  RemoteAddr : GoString
  UserAgent : GoString

/-- Method `isValidBearerToken`. -/
def authenticationMiddleware.isValidBearerToken (m : authenticationMiddleware)
    (token : GoString) : Option (Bool × List Effect) :=
  match m.options with
  | none => none
  | some o =>
    match o.Validate with
    | none => none
    | some f => some (f token, [Effect.call "Validate".toList [token]])

/-- Method `hasSessionExpired`, `now` being the clock: `time.Since(createdAt)`
is more than one hour (a `Duration` counts nanoseconds; where `time.Since`
saturates the comparison with one hour is not changed). -/
def hasSessionExpired (now createdAt : Int) : Bool :=
  decide (now - createdAt > 3600 * 1000000000)

/-- Method `extendSessionExpiration`: the cookie is read again and sent back
with `MaxAge` of one hour (`Expires`, the clock plus one hour, is not kept). -/
def extendSessionExpiration (r : Credentials) : List Effect :=
  match r.SessionCookie with
  | none => []
  | some value => [Effect.setCookie value 3600]

/-- Method `isValidSessionCookie`. -/
def authenticationMiddleware.isValidSessionCookie (m : authenticationMiddleware)
    (sessionID : GoString) (now : Int) (r : Credentials) : Option (Bool × List Effect) :=
  match m.options with
  | none => none
  | some o =>
    match o.ValidateSession with
    | none => none
    | some validate =>
      let e1 := [Effect.call "ValidateSession".toList [sessionID]]
      match validate sessionID with
      | (_, true) => some (false, e1)
      | (false, false) => some (false, e1)
      | (true, false) =>
        match o.GetSessionDetails with
        | none => none
        | some details =>
          let e2 := e1 ++ [Effect.call "GetSessionDetails".toList [sessionID]]
          match details sessionID with
          | (_, true) => some (false, e2)
          | (none, false) => some (false, e2)
          | (some sessionDetails, false) =>
            if sessionDetails.IP ≠ r.RemoteAddr ∨ sessionDetails.UserAgent ≠ r.UserAgent then
              some (false, e2)
            else if hasSessionExpired now sessionDetails.CreatedAt then some (false, e2)
            else some (true, e2 ++ extendSessionExpiration r)

/-- Method `authenticationMiddleware.Invoke`: the steps of its body; `now` is
the clock and `none` a panic. -/
def authenticationMiddleware.Invoke (m : authenticationMiddleware) (heap : Heap) (now : Int)
    (c : RouteContext) (r : Credentials) : Option (List Step) :=
  match c.record heap with
  | none => none
  | some ro =>
    if ro.AllowAnonymous = true then some [Step.next]
    else if r.Authorization ≠ [] ∧
        strings.HasPrefix r.Authorization "Bearer ".toList = true then
      let token := strings.TrimPrefix r.Authorization "Bearer ".toList
      match m.isValidBearerToken token with
      | none => none
      | some (true, es) => some (es.map Step.effect ++ [Step.next])
      | some (false, es) => some (es.map Step.effect ++ [RouteContext.Unauthorized])
    else
      match r.SessionCookie with
      | none => some [RouteContext.Unauthorized]
      | some value =>
        match m.isValidSessionCookie value now r with
        | none => none
        | some (true, es) => some (es.map Step.effect ++ [Step.next])
        | some (false, es) => some (es.map Step.effect ++ [RouteContext.Unauthorized])

/-! ## Compression middleware -/

/-- Go `strings.Contains`. -/
def strings.Contains (s substr : GoString) : Bool := decide (substr <:+: s)

/-- The struct `CompressionOptions`. -/
structure CompressionOptions where

/-- The struct `compressionMiddleware`; `options` is a pointer. -/
structure compressionMiddleware where
  options : Option CompressionOptions

/-- Method `RouteContext.ServerError`: the problem response with status 500. -/
def RouteContext.ServerError : Step := Step.effect (Effect.respond 500)

/-- Method `compressionMiddleware.Invoke`: the steps of its body.
`acceptEncoding` is `c.Request.Header.Get("Accept-Encoding")` and `flateError`
says whether `flate.NewWriter` returns an error. -/
def compressionMiddleware.Invoke (_m : compressionMiddleware) (acceptEncoding : GoString)
    (flateError : Bool) : List Step :=
  if acceptEncoding = [] then [Step.next]
  else if strings.Contains acceptEncoding "gzip".toList = true then
    [Step.effect (Effect.setHeader "Content-Encoding".toList "gzip".toList),
     Step.effect (Effect.wrapResponse "gzip".toList),
     Step.next,
     Step.effect (Effect.closeCompressor "gzip".toList)]
  else if strings.Contains acceptEncoding "deflate".toList = true then
    if flateError = true then
      [Step.effect (Effect.setHeader "Content-Encoding".toList "deflate".toList),
       RouteContext.ServerError]
    else
      [Step.effect (Effect.setHeader "Content-Encoding".toList "deflate".toList),
       Step.effect (Effect.wrapResponse "deflate".toList),
       Step.next,
       Step.effect (Effect.closeCompressor "deflate".toList)]
  else [Step.next]

/-! ## The `Use*` functions -/

/-- What the bodies of the middleware read, for the request being served,
that `RouteContext` and `Request` above do not hold: the `RouteOptions`
records, the clock, `c.User`, the credentials of the request, its
`Accept-Encoding` header, and whether `flate.NewWriter` returns an error.
`EqualFold` is the library function `strings.EqualFold`. -/
structure Env where
  EqualFold : GoString → GoString → Bool
  heap : Heap
  now : Int
  User : Option ClaimsPrincipal
  credentials : Credentials
  AcceptEncoding : GoString
  flateError : Bool

/-- The steps of a body that may panic: a panic is the single effect
`panics`, with no call of `next`. -/
def bodyOf : Option (List Step) → List Step
  | some steps => steps
  | none => [Step.effect Effect.panics]

/-- The value `&authenticationMiddleware{options: options}` as a `Middleware`. -/
def authenticationMiddleware.middleware (m : authenticationMiddleware) (env : Env) :
    Middleware :=
  ⟨fun c => bodyOf (m.Invoke env.heap env.now c env.credentials)⟩

/-- The value `&authorizationMiddleware{options: options}` as a `Middleware`. -/
def authorizationMiddleware.middleware (m : authorizationMiddleware) (env : Env) :
    Middleware :=
  ⟨fun c => bodyOf (m.Invoke env.EqualFold env.heap c env.User)⟩

/-- The value `&compressionMiddleware{options: options}` as a `Middleware`. -/
def compressionMiddleware.middleware (m : compressionMiddleware) (env : Env) : Middleware :=
  ⟨fun _ => m.Invoke env.AcceptEncoding env.flateError⟩

/-- Method `Router.UseAuthentication`. -/
def Router.UseAuthentication (r : Router) (env : Env)
    (options : Option AuthenticationOptions) : Router :=
  r.use ((⟨options⟩ : authenticationMiddleware).middleware env)

/-- Method `Router.UseAuthorization`. -/
def Router.UseAuthorization (rtr : Router) (env : Env)
    (options : Option AuthorizationOptions) : Router :=
  rtr.use ((⟨options⟩ : authorizationMiddleware).middleware env)

/-- Method `Router.UseCompression`. -/
def Router.UseCompression (rtr : Router) (env : Env)
    (options : Option CompressionOptions) : Router :=
  rtr.use ((⟨options⟩ : compressionMiddleware).middleware env)

/-- One call of a `Use*` function, with its argument. -/
inductive UseCall where
  | UseLogging (options : Option LoggingOptions) : UseCall
  | UseCompression (options : Option CompressionOptions) : UseCall
  | UseAuthentication (options : Option AuthenticationOptions) : UseCall
  | UseAuthorization (options : Option AuthorizationOptions) : UseCall

/-- The router after one `Use*` call. -/
def Router.useCall (rtr : Router) (env : Env) : UseCall → Router
  | UseCall.UseLogging options => rtr.UseLogging options
  | UseCall.UseCompression options => rtr.UseCompression env options
  | UseCall.UseAuthentication options => rtr.UseAuthentication env options
  | UseCall.UseAuthorization options => rtr.UseAuthorization env options

/-- The router after a sequence of `Use*` calls, made in order. -/
def Router.useCalls (rtr : Router) (env : Env) : List UseCall → Router
  | [] => rtr
  | u :: us => Router.useCalls (rtr.useCall env u) env us

/-- The middleware value a `Use*` call is made to add. -/
def UseCall.added (env : Env) : UseCall → Middleware
  | UseCall.UseLogging options => loggingMiddleware options
  | UseCall.UseCompression options => (⟨options⟩ : compressionMiddleware).middleware env
  | UseCall.UseAuthentication options => (⟨options⟩ : authenticationMiddleware).middleware env
  | UseCall.UseAuthorization options => (⟨options⟩ : authorizationMiddleware).middleware env

/-! ## Vocabulary of the statements on middleware -/

/-- The positions of the middleware a trace enters, in the order they are
entered. -/
def invoked : List Event → List Nat
  | [] => []
  | Event.invoke i :: rest => i :: invoked rest
  | _ :: rest => invoked rest

/-- What the loops of `interpolatePermissions` make of `result` when the
interpolated values are `vals`, in order: each value not yet in `result` is
appended to it. -/
def firstSeen (result : List GoString) : List GoString → List GoString
  | [] => result
  | val :: vals =>
      if val ∈ result then firstSeen result vals else firstSeen (result ++ [val]) vals

/-! ## Maps and nodes -/

namespace GoMap

theorem get_set_self {ν : Type} (m : GoMap ν) (k : GoString) (v : ν) :
    get (set m k v) k = some v := by
  induction m with
  | nil => simp [set, get]
  | cons hd tl ih =>
    obtain ⟨k0, v0⟩ := hd
    by_cases h : k0 = k
    · simp [set, get, h]
    · simp [set, get, h, ih]

theorem get_set_other {ν : Type} (m : GoMap ν) (k k2 : GoString) (v : ν) (h : k ≠ k2) :
    get (set m k v) k2 = get m k2 := by
  induction m with
  | nil => simp [set, get, h]
  | cons hd tl ih =>
    obtain ⟨k0, v0⟩ := hd
    by_cases h0 : k0 = k
    · subst h0; simp [set, get, h]
    · by_cases h1 : k0 = k2
      · subst h1; simp [set, get, h0]
      · simp [set, get, h0, h1, ih]

theorem set_of_get {ν : Type} (m : GoMap ν) (k : GoString) (v : ν)
    (h : get m k = some v) : set m k v = m := by
  induction m with
  | nil => simp [get] at h
  | cons hd tl ih =>
    obtain ⟨k0, v0⟩ := hd
    by_cases h0 : k0 = k
    · simp [get, h0] at h; simp [set, h0, h]
    · simp [get, h0] at h; simp [set, h0, ih h]

end GoMap

namespace node

@[simp] theorem child_setChild_self (n : node) (k : GoString) (c : node) :
    (n.setChild k c).child k = some c := by
  cases n; simp [setChild, child, children, GoMap.get_set_self]

theorem child_setChild_other (n : node) (k k2 : GoString) (c : node) (h : k ≠ k2) :
    (n.setChild k c).child k2 = n.child k2 := by
  cases n; simp [setChild, child, children, GoMap.get_set_other _ _ _ _ h]

@[simp] theorem optionsAt_setChild (n : node) (k : GoString) (c : node) (m : GoString) :
    (n.setChild k c).optionsAt m = n.optionsAt m := by
  cases n; simp [setChild, optionsAt, options]

@[simp] theorem paramKey_setChild (n : node) (k : GoString) (c : node) :
    (n.setChild k c).paramKey = n.paramKey := by
  cases n; simp [setChild, paramKey]

@[simp] theorem child_setOptions (n : node) (m : GoString) (o : Option RouteOptionsRef)
    (k : GoString) : (n.setOptions m o).child k = n.child k := by
  cases n; simp [setOptions, child, children]

@[simp] theorem paramKey_setOptions (n : node) (m : GoString) (o : Option RouteOptionsRef) :
    (n.setOptions m o).paramKey = n.paramKey := by
  cases n; simp [setOptions, paramKey]

@[simp] theorem optionsAt_setOptions_self (n : node) (m : GoString)
    (o : Option RouteOptionsRef) : (n.setOptions m o).optionsAt m = o := by
  cases n; simp [setOptions, optionsAt, options, GoMap.get_set_self]

theorem optionsAt_setOptions_other (n : node) (m m2 : GoString)
    (o : Option RouteOptionsRef) (h : m ≠ m2) :
    (n.setOptions m o).optionsAt m2 = n.optionsAt m2 := by
  cases n; simp [setOptions, optionsAt, options, GoMap.get_set_other _ _ _ _ h]

theorem setChild_of_child (n : node) (k : GoString) (c : node) (h : n.child k = some c) :
    n.setChild k c = n := by
  cases n; simp [child, children] at h; simp [setChild, GoMap.set_of_get _ _ _ h]

end node

/-! ## The walk of `Register` -/

theorem isDynamic_paramSlot : isDynamic paramSlot = false := by decide

theorem isDynamic_segmentKey (s : GoString) : isDynamic (segmentKey s) = false := by
  unfold segmentKey
  by_cases h : isDynamic s = true
  · simp [h, isDynamic_paramSlot]
  · simp [h]

theorem segmentKey_of_not_dynamic (s : GoString) (h : isDynamic s = false) :
    segmentKey s = s := by
  simp [segmentKey, h]

theorem segmentKey_of_dynamic (s : GoString) (h : isDynamic s = true) :
    segmentKey s = paramSlot := by
  simp [segmentKey, h]

theorem length_of_isDynamic (s : GoString) (h : isDynamic s = true) : 2 ≤ s.length := by
  match s, h with
  | [], h => simp [isDynamic, strings.HasPrefix, strings.HasSuffix] at h
  | [c], h =>
    simp [isDynamic, strings.HasPrefix, strings.HasSuffix] at h
    obtain ⟨h1, h2⟩ := h
    rw [← h1] at h2
    exact absurd h2 (by decide)
  | _ :: _ :: _, _ => simp

theorem slice_of_isDynamic (s : GoString) (h : isDynamic s = true) :
    slice s 1 ((s.length : Int) - 1) = some ((s.drop 1).take (s.length - 2)) := by
  have h2 := length_of_isDynamic s h
  unfold slice
  rw [if_pos (by omega)]
  have e : ((s.length : Int) - 1 - 1).toNat = s.length - 2 := by omega
  simp [e]

theorem registerWalk_nil (p m : GoString) (o : Option RouteOptionsRef) (cur : node) :
    registerWalk p m o [] cur =
      if (cur.optionsAt m).isSome then some (cur, some (RegisterError.alreadyExists m p))
      else some (cur.setOptions m o, none) := by
  simp [registerWalk]

theorem registerWalk_cons (p m : GoString) (o : Option RouteOptionsRef)
    (seg : GoString) (rest : List GoString) (cur : node) :
    registerWalk p m o (seg :: rest) cur =
      match registerWalk p m o rest (stepChild cur seg) with
      | none => none
      | some (n2, e) => some (cur.setChild (segmentKey seg) n2, e) := by
  by_cases h : isDynamic seg = true
  · simp only [registerWalk, h, if_true, slice_of_isDynamic seg h, stepChild, segmentKey,
      freshChild]
    cases cur.child paramSlot <;> rfl
  · have h2 : isDynamic seg = false := by simpa using h
    simp only [registerWalk, h2, stepChild, segmentKey, freshChild]
    cases hc : cur.child seg <;> simp [hc]

theorem registerWalk_total (p m : GoString) (o : Option RouteOptionsRef)
    (segs : List GoString) (cur : node) :
    ∃ n e, registerWalk p m o segs cur = some (n, e) := by
  induction segs generalizing cur with
  | nil =>
    rw [registerWalk_nil]
    by_cases h : (cur.optionsAt m).isSome = true
    · exact ⟨_, _, by rw [if_pos h]⟩
    · exact ⟨_, _, by rw [if_neg h]⟩
  | cons seg rest ih =>
    obtain ⟨n2, e, h2⟩ := ih (stepChild cur seg)
    exact ⟨_, e, by rw [registerWalk_cons, h2]⟩

theorem nodeAt_cons_some (n : node) (k : GoString) (ks : List GoString) (t : node)
    (h : nodeAt n (k :: ks) = some t) : ∃ c, n.child k = some c ∧ nodeAt c ks = some t := by
  simp only [nodeAt] at h
  cases hc : n.child k with
  | none => simp [hc] at h
  | some c => exact ⟨c, rfl, by simpa [hc] using h⟩

theorem nodeAt_cons_of_child (n c : node) (k : GoString) (ks : List GoString)
    (h : n.child k = some c) : nodeAt n (k :: ks) = nodeAt c ks := by
  simp [nodeAt, h]

theorem stepChild_of_child (cur c : node) (seg : GoString)
    (h : cur.child (segmentKey seg) = some c) : stepChild cur seg = c := by
  simp [stepChild, h]

/-- A registration that returns no error leaves its options at the node of
the pattern. -/
theorem registerWalk_stored (p m : GoString) (o : Option RouteOptionsRef)
    (segs : List GoString) (cur n : node)
    (h : registerWalk p m o segs cur = some (n, none)) :
    ∃ t, nodeAt n (segs.map segmentKey) = some t ∧ t.optionsAt m = o := by
  induction segs generalizing cur n with
  | nil =>
    rw [registerWalk_nil] at h
    by_cases hs : (cur.optionsAt m).isSome = true
    · rw [if_pos hs] at h; simp at h
    · rw [if_neg hs] at h
      simp only [Option.some.injEq, Prod.mk.injEq, and_true] at h
      subst h
      exact ⟨_, rfl, by simp⟩
  | cons seg rest ih =>
    rw [registerWalk_cons] at h
    cases h2 : registerWalk p m o rest (stepChild cur seg) with
    | none => simp [h2] at h
    | some r =>
      obtain ⟨n2, e⟩ := r
      simp only [h2, Option.some.injEq, Prod.mk.injEq] at h
      obtain ⟨hn, he⟩ := h
      subst hn; subst he
      obtain ⟨t, ht, hto⟩ := ih _ _ h2
      refine ⟨t, ?_, hto⟩
      simp [nodeAt, ht]

/-- Registration only adds: options stored before are still stored after. -/
theorem registerWalk_mono (p m : GoString) (o : Option RouteOptionsRef)
    (segs : List GoString) (cur n : node) (e : Option RegisterError)
    (h : registerWalk p m o segs cur = some (n, e))
    (ks : List GoString) (t : node) (m0 : GoString) (o0 : RouteOptionsRef)
    (ht : nodeAt cur ks = some t) (hto : t.optionsAt m0 = some o0) :
    ∃ t2, nodeAt n ks = some t2 ∧ t2.optionsAt m0 = some o0 := by
  induction segs generalizing cur n ks t with
  | nil =>
    rw [registerWalk_nil] at h
    by_cases hs : (cur.optionsAt m).isSome = true
    · rw [if_pos hs] at h
      simp only [Option.some.injEq, Prod.mk.injEq] at h
      obtain ⟨hn, -⟩ := h
      subst hn
      exact ⟨t, ht, hto⟩
    · rw [if_neg hs] at h
      simp only [Option.some.injEq, Prod.mk.injEq] at h
      obtain ⟨hn, -⟩ := h
      subst hn
      cases ks with
      | nil =>
        simp only [nodeAt, Option.some.injEq] at ht
        subst ht
        refine ⟨_, rfl, ?_⟩
        by_cases hm : m = m0
        · subst hm; rw [hto] at hs; simp at hs
        · rw [node.optionsAt_setOptions_other _ _ _ _ hm]; exact hto
      | cons k ks2 =>
        refine ⟨t, ?_, hto⟩
        simpa [nodeAt] using ht
  | cons seg rest ih =>
    rw [registerWalk_cons] at h
    cases h2 : registerWalk p m o rest (stepChild cur seg) with
    | none => simp [h2] at h
    | some r =>
      obtain ⟨n2, e2⟩ := r
      simp only [h2, Option.some.injEq, Prod.mk.injEq] at h
      obtain ⟨hn, he⟩ := h
      subst hn; subst he
      cases ks with
      | nil =>
        simp only [nodeAt, Option.some.injEq] at ht
        subst ht
        exact ⟨_, rfl, by simpa using hto⟩
      | cons k ks2 =>
        obtain ⟨c, hc, hct⟩ := nodeAt_cons_some _ _ _ _ ht
        by_cases hk : segmentKey seg = k
        · subst hk
          rw [stepChild_of_child _ _ _ hc] at h2
          obtain ⟨t2, ht2, hto2⟩ := ih _ _ h2 _ _ hct hto
          exact ⟨t2, by simp [nodeAt, ht2], hto2⟩
        · refine ⟨t, ?_, hto⟩
          rw [nodeAt_cons_of_child _ c]
          · exact hct
          · rw [node.child_setChild_other _ _ _ _ hk]; exact hc

/-- Registering where the node of the pattern already holds options for the
method: the duplicate error, and nothing is changed. -/
theorem registerWalk_duplicate (p m : GoString) (o : Option RouteOptionsRef)
    (segs : List GoString) (cur t : node)
    (ht : nodeAt cur (segs.map segmentKey) = some t)
    (hto : (t.optionsAt m).isSome = true) :
    registerWalk p m o segs cur = some (cur, some (RegisterError.alreadyExists m p)) := by
  induction segs generalizing cur with
  | nil =>
    simp only [List.map_nil, nodeAt, Option.some.injEq] at ht
    subst ht
    rw [registerWalk_nil, if_pos hto]
  | cons seg rest ih =>
    obtain ⟨c, hc, hct⟩ := nodeAt_cons_some _ _ _ _ ht
    rw [registerWalk_cons, stepChild_of_child _ _ _ hc, ih _ hct]
    simp [node.setChild_of_child _ _ _ hc]

theorem nodeAt_append (n : node) (xs ys : List GoString) :
    nodeAt n (xs ++ ys) = (nodeAt n xs).bind (fun c => nodeAt c ys) := by
  induction xs generalizing n with
  | nil => simp [nodeAt]
  | cons x xs ih =>
    simp only [List.cons_append, nodeAt]
    cases n.child x with
    | none => simp
    | some c => simpa using ih c

theorem nodeAt_snoc_some (n t : node) (xs : List GoString) (k : GoString)
    (h : nodeAt n (xs ++ [k]) = some t) :
    ∃ c, nodeAt n xs = some c ∧ c.child k = some t := by
  rw [nodeAt_append] at h
  cases hc : nodeAt n xs with
  | none => simp [hc] at h
  | some c =>
    simp only [hc, Option.some_bind] at h
    obtain ⟨c2, hc2, hct⟩ := nodeAt_cons_some _ _ _ _ h
    simp only [nodeAt, Option.some.injEq] at hct
    subst hct
    exact ⟨c, rfl, hc2⟩

/-! ## No child is filed under a `{name}` key -/

theorem NoDynamicKeys_child (n c : node) (k : GoString) (h : NoDynamicKeys n)
    (hc : n.child k = some c) : NoDynamicKeys c := by
  intro ks t k2 ht hk
  exact h (k :: ks) t k2 (by rw [nodeAt_cons_of_child _ _ _ _ hc]; exact ht) hk

theorem NoDynamicKeys_of_children_nil (n : node) (h : n.children = []) :
    NoDynamicKeys n := by
  intro ks t k ht _
  cases ks with
  | nil =>
    simp only [nodeAt, Option.some.injEq] at ht
    subst ht
    simp [node.child, h, GoMap.get]
  | cons k0 ks2 =>
    obtain ⟨c, hc, -⟩ := nodeAt_cons_some _ _ _ _ ht
    simp [node.child, h, GoMap.get] at hc

theorem freshChild_children (seg : GoString) : (freshChild seg).children = [] := by
  unfold freshChild
  split <;> rfl

theorem freshChild_options (seg : GoString) : (freshChild seg).options = [] := by
  unfold freshChild
  split <;> rfl

theorem NoDynamicKeys_stepChild (cur : node) (seg : GoString) (h : NoDynamicKeys cur) :
    NoDynamicKeys (stepChild cur seg) := by
  unfold stepChild
  cases hc : cur.child (segmentKey seg) with
  | none => exact NoDynamicKeys_of_children_nil _ (freshChild_children seg)
  | some c => exact NoDynamicKeys_child _ _ _ h hc

theorem NoDynamicKeys_setChild (cur c : node) (key : GoString) (h : NoDynamicKeys cur)
    (hc : NoDynamicKeys c) (hkey : isDynamic key = false) :
    NoDynamicKeys (cur.setChild key c) := by
  intro ks t k ht hk
  cases ks with
  | nil =>
    simp only [nodeAt, Option.some.injEq] at ht
    subst ht
    have hne : key ≠ k := by
      intro heq; subst heq; rw [hkey] at hk; simp at hk
    rw [node.child_setChild_other _ _ _ _ hne]
    exact h [] cur k rfl hk
  | cons k0 ks2 =>
    obtain ⟨c2, hc2, hct⟩ := nodeAt_cons_some _ _ _ _ ht
    by_cases hk0 : key = k0
    · subst hk0
      simp only [node.child_setChild_self, Option.some.injEq] at hc2
      subst hc2
      exact hc ks2 t k hct hk
    · rw [node.child_setChild_other _ _ _ _ hk0] at hc2
      exact h (k0 :: ks2) t k (by rw [nodeAt_cons_of_child _ _ _ _ hc2]; exact hct) hk

theorem NoDynamicKeys_setOptions (cur : node) (m : GoString) (o : Option RouteOptionsRef)
    (h : NoDynamicKeys cur) : NoDynamicKeys (cur.setOptions m o) := by
  intro ks t k ht hk
  cases ks with
  | nil =>
    simp only [nodeAt, Option.some.injEq] at ht
    subst ht
    simpa using h [] cur k rfl hk
  | cons k0 ks2 =>
    exact h (k0 :: ks2) t k (by simpa [nodeAt] using ht) hk

theorem registerWalk_noDynamicKeys (p m : GoString) (o : Option RouteOptionsRef)
    (segs : List GoString) (cur n : node) (e : Option RegisterError)
    (hcur : NoDynamicKeys cur) (h : registerWalk p m o segs cur = some (n, e)) :
    NoDynamicKeys n := by
  induction segs generalizing cur n with
  | nil =>
    rw [registerWalk_nil] at h
    by_cases hs : (cur.optionsAt m).isSome = true
    · rw [if_pos hs] at h
      simp only [Option.some.injEq, Prod.mk.injEq] at h
      obtain ⟨hn, -⟩ := h
      subst hn; exact hcur
    · rw [if_neg hs] at h
      simp only [Option.some.injEq, Prod.mk.injEq] at h
      obtain ⟨hn, -⟩ := h
      subst hn; exact NoDynamicKeys_setOptions _ _ _ hcur
  | cons seg rest ih =>
    rw [registerWalk_cons] at h
    cases h2 : registerWalk p m o rest (stepChild cur seg) with
    | none => simp [h2] at h
    | some r =>
      obtain ⟨n2, e2⟩ := r
      simp only [h2, Option.some.injEq, Prod.mk.injEq] at h
      obtain ⟨hn, he⟩ := h
      subst hn; subst he
      exact NoDynamicKeys_setChild _ _ _ hcur
        (ih _ _ (NoDynamicKeys_stepChild _ _ hcur) h2) (isDynamic_segmentKey seg)

/-! ## The walk of `Load` -/

/-- When no replaced segment is shadowed by a child, the walk of `Load` over
an instance of a pattern ends at the node of the pattern. -/
theorem loadWalk_follows (segs vs : List GoString) (n t : node) (params : RouteParams)
    (hn : nodeAt n (segs.map segmentKey) = some t)
    (hi : instantiates segs vs = true) (hs : shadowed n segs vs = false) :
    ∃ ps, loadWalk vs n params = some (t, ps) := by
  induction segs generalizing vs n params with
  | nil =>
    cases vs with
    | nil =>
      simp only [List.map_nil, nodeAt, Option.some.injEq] at hn
      subst hn
      exact ⟨params, rfl⟩
    | cons v vs2 => simp [instantiates] at hi
  | cons seg rest ih =>
    cases vs with
    | nil => simp [instantiates] at hi
    | cons v vs2 =>
      obtain ⟨c, hc, hct⟩ := nodeAt_cons_some _ _ _ _ hn
      simp only [instantiates, Bool.and_eq_true] at hi
      obtain ⟨hv, hi2⟩ := hi
      simp only [shadowed, hc, Bool.or_eq_false_iff] at hs
      obtain ⟨hsh, hs2⟩ := hs
      by_cases hd : isDynamic seg = true
      · rw [segmentKey_of_dynamic _ hd] at hc
        have hnone : n.child v = none := by
          simpa [hd] using hsh
        simp only [loadWalk, hnone, hc]
        exact ih _ _ _ hct hi2 hs2
      · have hd2 : isDynamic seg = false := by simpa using hd
        rw [segmentKey_of_not_dynamic _ hd2] at hc
        have hveq : v = seg := by simpa [hd2] using hv
        subst hveq
        simp only [loadWalk, hc]
        exact ih _ _ _ hct hi2 hs2

/-! ## `Register` and sequences of `Register` calls -/

theorem Register_empty (rr : RouteRegistry) (m : GoString) (o : Option RouteOptionsRef) :
    Register rr [] m o = some (rr, some RegisterError.emptyPattern) := by
  simp [Register]

theorem Register_walk (rr rr2 : RouteRegistry) (p m : GoString)
    (o : Option RouteOptionsRef) (e : Option RegisterError) (hp : p ≠ [])
    (h : Register rr p m o = some (rr2, e)) :
    registerWalk p m o (segmentsOf p) rr.root = some (rr2.root, e) := by
  simp only [Register, hp, if_false] at h
  cases h2 : registerWalk p m o (strings.Split (strings.Trim p ['/']) '/') rr.root with
  | none => simp [h2] at h
  | some r =>
    obtain ⟨n, e2⟩ := r
    simp only [h2, Option.some.injEq, Prod.mk.injEq] at h
    obtain ⟨hn, he⟩ := h
    subst hn; subst he
    exact h2

theorem Register_of_walk (rr : RouteRegistry) (p m : GoString)
    (o : Option RouteOptionsRef) (n : node) (e : Option RegisterError) (hp : p ≠ [])
    (h : registerWalk p m o (segmentsOf p) rr.root = some (n, e)) :
    Register rr p m o = some (⟨n⟩, e) := by
  unfold segmentsOf at h
  simp [Register, hp, h]

theorem Register_total (rr : RouteRegistry) (p m : GoString) (o : Option RouteOptionsRef) :
    ∃ rr2 e, Register rr p m o = some (rr2, e) := by
  by_cases hp : p = []
  · subst hp; exact ⟨_, _, Register_empty rr m o⟩
  · obtain ⟨n, e, h⟩ := registerWalk_total p m o (segmentsOf p) rr.root
    exact ⟨_, _, Register_of_walk rr p m o n e hp h⟩

theorem Register_pattern_ne (rr rr2 : RouteRegistry) (p m : GoString)
    (o : Option RouteOptionsRef) (h : Register rr p m o = some (rr2, none)) : p ≠ [] := by
  intro hp; subst hp
  rw [Register_empty] at h
  simp at h

theorem Register_stored (rr rr2 : RouteRegistry) (p m : GoString)
    (o : Option RouteOptionsRef) (h : Register rr p m o = some (rr2, none)) :
    ∃ t, nodeAt rr2.root ((segmentsOf p).map segmentKey) = some t ∧ t.optionsAt m = o :=
  registerWalk_stored p m o _ _ _ (Register_walk _ _ _ _ _ _ (Register_pattern_ne _ _ _ _ _ h) h)

theorem Register_mono (rr rr2 : RouteRegistry) (p m : GoString)
    (o : Option RouteOptionsRef) (e : Option RegisterError)
    (h : Register rr p m o = some (rr2, e))
    (ks : List GoString) (t : node) (m0 : GoString) (o0 : RouteOptionsRef)
    (ht : nodeAt rr.root ks = some t) (hto : t.optionsAt m0 = some o0) :
    ∃ t2, nodeAt rr2.root ks = some t2 ∧ t2.optionsAt m0 = some o0 := by
  by_cases hp : p = []
  · subst hp
    rw [Register_empty] at h
    simp only [Option.some.injEq, Prod.mk.injEq] at h
    obtain ⟨hr, -⟩ := h
    subst hr
    exact ⟨t, ht, hto⟩
  · exact registerWalk_mono p m o _ _ _ _ (Register_walk _ _ _ _ _ _ hp h) ks t m0 o0 ht hto

theorem Register_noDynamicKeys (rr rr2 : RouteRegistry) (p m : GoString)
    (o : Option RouteOptionsRef) (e : Option RegisterError)
    (hrr : NoDynamicKeys rr.root) (h : Register rr p m o = some (rr2, e)) :
    NoDynamicKeys rr2.root := by
  by_cases hp : p = []
  · subst hp
    rw [Register_empty] at h
    simp only [Option.some.injEq, Prod.mk.injEq] at h
    obtain ⟨hr, -⟩ := h
    subst hr
    exact hrr
  · exact registerWalk_noDynamicKeys p m o _ _ _ _ hrr (Register_walk _ _ _ _ _ _ hp h)

/-- The three ways a non-empty sequence of calls can have run. -/
theorem RegisterAll_cons (rr rr2 : RouteRegistry) (c : RegisterCall)
    (cs done : List RegisterCall) (h : RegisterAll rr (c :: cs) = some (rr2, done)) :
    ∃ rr1 e, Register rr c.pattern c.method c.options = some (rr1, e) ∧
      ((e ≠ none ∧ RegisterAll rr1 cs = some (rr2, done)) ∨
       (e = none ∧ ∃ done2, done = c :: done2 ∧ RegisterAll rr1 cs = some (rr2, done2))) := by
  simp only [RegisterAll] at h
  cases h1 : Register rr c.pattern c.method c.options with
  | none => simp [h1] at h
  | some r =>
    obtain ⟨rr1, e⟩ := r
    cases e with
    | some err =>
      simp only [h1] at h
      exact ⟨rr1, some err, rfl, Or.inl ⟨by simp, h⟩⟩
    | none =>
      simp only [h1] at h
      cases h3 : RegisterAll rr1 cs with
      | none => simp [h3] at h
      | some r2 =>
        obtain ⟨rr3, done2⟩ := r2
        simp only [h3, Option.some.injEq, Prod.mk.injEq] at h
        obtain ⟨hr, hd⟩ := h
        subst hr; subst hd
        exact ⟨rr1, none, rfl, Or.inr ⟨rfl, done2, rfl, h3⟩⟩

theorem RegisterAll_mono (calls : List RegisterCall) (rr rr2 : RouteRegistry)
    (done : List RegisterCall) (h : RegisterAll rr calls = some (rr2, done))
    (ks : List GoString) (t : node) (m0 : GoString) (o0 : RouteOptionsRef)
    (ht : nodeAt rr.root ks = some t) (hto : t.optionsAt m0 = some o0) :
    ∃ t2, nodeAt rr2.root ks = some t2 ∧ t2.optionsAt m0 = some o0 := by
  induction calls generalizing rr done t with
  | nil =>
    simp only [RegisterAll, Option.some.injEq, Prod.mk.injEq] at h
    obtain ⟨hr, -⟩ := h
    subst hr
    exact ⟨t, ht, hto⟩
  | cons c cs ih =>
    obtain ⟨rr1, e, h1, hrest⟩ := RegisterAll_cons _ _ _ _ _ h
    obtain ⟨t1, ht1, hto1⟩ := Register_mono _ _ _ _ _ _ h1 ks t m0 o0 ht hto
    rcases hrest with ⟨-, h2⟩ | ⟨-, done2, -, h2⟩
    · exact ih _ _ h2 _ ht1 hto1
    · exact ih _ _ h2 _ ht1 hto1

theorem RegisterAll_noDynamicKeys (calls : List RegisterCall) (rr rr2 : RouteRegistry)
    (done : List RegisterCall) (hrr : NoDynamicKeys rr.root)
    (h : RegisterAll rr calls = some (rr2, done)) : NoDynamicKeys rr2.root := by
  induction calls generalizing rr done with
  | nil =>
    simp only [RegisterAll, Option.some.injEq, Prod.mk.injEq] at h
    obtain ⟨hr, -⟩ := h
    subst hr
    exact hrr
  | cons c cs ih =>
    obtain ⟨rr1, e, h1, hrest⟩ := RegisterAll_cons _ _ _ _ _ h
    have h1k := Register_noDynamicKeys _ _ _ _ _ _ hrr h1
    rcases hrest with ⟨-, h2⟩ | ⟨-, done2, -, h2⟩
    · exact ih _ _ h1k h2
    · exact ih _ _ h1k h2

theorem Reachable_noDynamicKeys (rr : RouteRegistry) (h : Reachable rr) :
    NoDynamicKeys rr.root := by
  obtain ⟨calls, done, hb⟩ := h
  exact RegisterAll_noDynamicKeys calls NewRouteRegistry _ _
    (NoDynamicKeys_of_children_nil NewRouteRegistry.root rfl) hb

/-- Every call that returned no error in a sequence has its (non-nil)
options stored at the node of its pattern in the final registry. -/
theorem RegisterAll_stored (calls : List RegisterCall) (rr rr2 : RouteRegistry)
    (done : List RegisterCall) (h : RegisterAll rr calls = some (rr2, done))
    (c : RegisterCall) (hc : c ∈ done) (o : RouteOptionsRef) (ho : c.options = some o) :
    ∃ t, nodeAt rr2.root ((segmentsOf c.pattern).map segmentKey) = some t ∧
      t.optionsAt c.method = some o := by
  induction calls generalizing rr done with
  | nil =>
    simp only [RegisterAll, Option.some.injEq, Prod.mk.injEq] at h
    obtain ⟨-, hd⟩ := h
    subst hd
    simp at hc
  | cons c0 cs ih =>
    obtain ⟨rr1, e, h1, hrest⟩ := RegisterAll_cons _ _ _ _ _ h
    rcases hrest with ⟨-, h2⟩ | ⟨he, done2, hd, h2⟩
    · exact ih _ _ h2 hc
    · subst he; subst hd
      rcases List.mem_cons.mp hc with heq | hmem
      · subst heq
        obtain ⟨t, ht, hto⟩ := Register_stored _ _ _ _ _ h1
        rw [ho] at hto
        exact RegisterAll_mono cs _ _ _ h2 _ t _ o ht hto
      · exact ih _ _ h2 hmem

/-! ## `Load` in terms of its walk -/

theorem Load_of_walk (rr : RouteRegistry) (path m : GoString) (t : node)
    (ps : RouteParams) (o : RouteOptionsRef)
    (hw : loadWalk (segmentsOf path) rr.root [] = some (t, ps))
    (ho : t.optionsAt m = some o) : Load rr path m = (some o, some ps, true) := by
  unfold segmentsOf at hw
  simp [Load, hw, ho]

theorem Load_of_walk_none (rr : RouteRegistry) (path m : GoString)
    (hw : loadWalk (segmentsOf path) rr.root [] = none) :
    Load rr path m = (none, none, false) := by
  unfold segmentsOf at hw
  simp [Load, hw]

theorem Load_of_options_none (rr : RouteRegistry) (path m : GoString) (t : node)
    (ps : RouteParams) (hw : loadWalk (segmentsOf path) rr.root [] = some (t, ps))
    (ho : t.optionsAt m = none) : Load rr path m = (none, none, false) := by
  unfold segmentsOf at hw
  simp [Load, hw, ho]

/-- In a trie without `{name}` keys, `Load` called with the text of a
registered pattern walks to the node of that pattern; it binds only `{name}`
segments of the pattern, and nothing when the pattern has none. -/
theorem loadWalk_self (segs : List GoString) (n t : node) (params : RouteParams)
    (hn : NoDynamicKeys n) (ht : nodeAt n (segs.map segmentKey) = some t) :
    ∃ ps, loadWalk segs n params = some (t, ps) ∧
      (∀ k v, GoMap.get ps k = some v →
        GoMap.get params k = some v ∨ (v ∈ segs ∧ isDynamic v = true)) ∧
      ((∀ q ∈ segs, isDynamic q = false) → ps = params) := by
  induction segs generalizing n params with
  | nil =>
    simp only [List.map_nil, nodeAt, Option.some.injEq] at ht
    subst ht
    exact ⟨params, rfl, fun k v h => Or.inl h, fun _ => rfl⟩
  | cons seg rest ih =>
    obtain ⟨c, hc, hct⟩ := nodeAt_cons_some _ _ _ _ ht
    have hcn : NoDynamicKeys c := NoDynamicKeys_child _ _ _ hn hc
    by_cases hd : isDynamic seg = true
    · rw [segmentKey_of_dynamic _ hd] at hc
      have hnone : n.child seg = none := hn [] n seg rfl hd
      obtain ⟨ps, hps, hbind, -⟩ := ih c (GoMap.set params c.paramKey seg) hcn hct
      refine ⟨ps, by simp only [loadWalk, hnone, hc]; exact hps, ?_, ?_⟩
      · intro k v hkv
        rcases hbind k v hkv with h1 | ⟨h1, h2⟩
        · by_cases hk : c.paramKey = k
          · subst hk
            rw [GoMap.get_set_self] at h1
            simp only [Option.some.injEq] at h1
            subst h1
            exact Or.inr ⟨List.mem_cons_self _ _, hd⟩
          · rw [GoMap.get_set_other _ _ _ _ hk] at h1
            exact Or.inl h1
        · exact Or.inr ⟨List.mem_cons_of_mem _ h1, h2⟩
      · intro hall
        have := hall seg (List.mem_cons_self _ _)
        rw [hd] at this
        simp at this
    · have hd2 : isDynamic seg = false := by simpa using hd
      rw [segmentKey_of_not_dynamic _ hd2] at hc
      obtain ⟨ps, hps, hbind, hsame⟩ := ih c params hcn hct
      refine ⟨ps, by simp only [loadWalk, hc]; exact hps, ?_, ?_⟩
      · intro k v hkv
        rcases hbind k v hkv with h1 | ⟨h1, h2⟩
        · exact Or.inl h1
        · exact Or.inr ⟨List.mem_cons_of_mem _ h1, h2⟩
      · intro hall
        exact hsame (fun q hq => hall q (List.mem_cons_of_mem _ hq))

theorem loadWalk_append (xs ys : List GoString) (n : node) (params : RouteParams) :
    loadWalk (xs ++ ys) n params =
      (loadWalk xs n params).bind (fun r => loadWalk ys r.1 r.2) := by
  induction xs generalizing n params with
  | nil => simp [loadWalk]
  | cons x xs ih =>
    simp only [List.cons_append, loadWalk]
    cases n.child x with
    | some c => simpa using ih c params
    | none =>
      cases n.child paramSlot with
      | some c => simpa using ih c _
      | none => simp

/-- A segment that matches neither a child nor the dynamic child ends the
walk of `Load`, wherever in the path it stands. -/
theorem loadWalk_dead_end (segs : List GoString) (i : Nat) (seg : GoString)
    (root n : node) (ps : RouteParams)
    (hseg : segs[i]? = some seg)
    (hwalk : loadWalk (segs.take i) root [] = some (n, ps))
    (hlit : n.child seg = none) (hdyn : n.child paramSlot = none) :
    loadWalk segs root [] = none := by
  have hi : i < segs.length := by
    by_contra hcon
    rw [List.getElem?_eq_none (by omega)] at hseg
    simp at hseg
  have hsplit : segs = segs.take i ++ seg :: segs.drop (i + 1) := by
    have h1 : segs.drop i = seg :: segs.drop (i + 1) := by
      rw [List.drop_eq_getElem_cons hi]
      rw [List.getElem?_eq_getElem hi] at hseg
      simp only [Option.some.injEq] at hseg
      rw [hseg]
    rw [← h1, List.take_append_drop]
  rw [hsplit, loadWalk_append, hwalk]
  simp [loadWalk, hlit, hdyn]

/-! ## The end node of the walk of `Register` -/

theorem registerWalk_error (p m : GoString) (o : Option RouteOptionsRef)
    (segs : List GoString) (cur n : node) (e : Option RegisterError)
    (h : registerWalk p m o segs cur = some (n, e)) :
    e = if ((walkEnd cur segs).optionsAt m).isSome
          then some (RegisterError.alreadyExists m p) else none := by
  induction segs generalizing cur n with
  | nil =>
    rw [registerWalk_nil] at h
    simp only [walkEnd]
    by_cases hs : (cur.optionsAt m).isSome = true
    · rw [if_pos hs] at h ⊢
      simp only [Option.some.injEq, Prod.mk.injEq] at h
      exact h.2.symm
    · rw [if_neg hs] at h ⊢
      simp only [Option.some.injEq, Prod.mk.injEq] at h
      exact h.2.symm
  | cons seg rest ih =>
    rw [registerWalk_cons] at h
    cases h2 : registerWalk p m o rest (stepChild cur seg) with
    | none => simp [h2] at h
    | some r =>
      obtain ⟨n2, e2⟩ := r
      simp only [h2, Option.some.injEq, Prod.mk.injEq] at h
      obtain ⟨-, he⟩ := h
      subst he
      simpa [walkEnd] using ih _ _ h2

theorem registerWalk_walkEnd (p m : GoString) (o : Option RouteOptionsRef)
    (segs : List GoString) (cur n : node)
    (h : registerWalk p m o segs cur = some (n, none)) :
    walkEnd n segs = (walkEnd cur segs).setOptions m o := by
  induction segs generalizing cur n with
  | nil =>
    rw [registerWalk_nil] at h
    by_cases hs : (cur.optionsAt m).isSome = true
    · rw [if_pos hs] at h; simp at h
    · rw [if_neg hs] at h
      simp only [Option.some.injEq, Prod.mk.injEq, and_true] at h
      subst h
      rfl
  | cons seg rest ih =>
    rw [registerWalk_cons] at h
    cases h2 : registerWalk p m o rest (stepChild cur seg) with
    | none => simp [h2] at h
    | some r =>
      obtain ⟨n2, e2⟩ := r
      simp only [h2, Option.some.injEq, Prod.mk.injEq] at h
      obtain ⟨hn, he⟩ := h
      subst hn; subst he
      simp only [walkEnd]
      rw [stepChild_of_child _ n2 _ (by simp)]
      exact ih _ _ h2

/-! ## Trimming -/

theorem dropWhile_cons_drop (q : Char → Bool) (c : Char) (s : List Char) (hc : q c = true) :
    (c :: s).dropWhile q = s.dropWhile q := by
  simp [List.dropWhile_cons, hc]

theorem dropWhile_cons_keep (q : Char → Bool) (c : Char) (s : List Char) (hc : q c = false) :
    (c :: s).dropWhile q = c :: s := by
  simp [List.dropWhile_cons, hc]

theorem rdropWhile_cons (q : Char → Bool) (c : Char) (s : List Char) :
    ((c :: s).reverse.dropWhile q).reverse =
      if (s.reverse.dropWhile q).reverse = [] ∧ q c = true then []
      else c :: (s.reverse.dropWhile q).reverse := by
  rw [List.reverse_cons, List.dropWhile_append]
  cases hd : s.reverse.dropWhile q with
  | nil =>
    cases hc : q c with
    | true => simp [List.dropWhile_cons, hc]
    | false => simp [List.dropWhile_cons, hc]
  | cons x xs => simp

namespace strings

theorem TrimLeft_cons_cut (c : Char) (s cut : GoString) (hc : cut.elem c = true) :
    TrimLeft (c :: s) cut = TrimLeft s cut :=
  dropWhile_cons_drop (fun c => cut.elem c) c s hc

theorem TrimLeft_cons_keep (c : Char) (s cut : GoString) (hc : cut.elem c = false) :
    TrimLeft (c :: s) cut = c :: s :=
  dropWhile_cons_keep (fun c => cut.elem c) c s hc

theorem TrimRight_snoc_cut (c : Char) (s cut : GoString) (hc : cut.elem c = true) :
    TrimRight (s ++ [c]) cut = TrimRight s cut :=
  List.rdropWhile_concat_pos (fun c => cut.elem c) s c hc

theorem TrimRight_cons (c : Char) (s cut : GoString) :
    TrimRight (c :: s) cut =
      if TrimRight s cut = [] ∧ cut.elem c = true then [] else c :: TrimRight s cut :=
  rdropWhile_cons (fun c => cut.elem c) c s

theorem TrimRight_idem (s cut : GoString) : TrimRight (TrimRight s cut) cut = TrimRight s cut :=
  List.rdropWhile_idempotent (fun c => cut.elem c) s

theorem Trim_cons_cut (c : Char) (s cut : GoString) (hc : cut.elem c = true) :
    Trim (c :: s) cut = Trim s cut := by
  unfold Trim
  rw [TrimRight_cons]
  by_cases he : TrimRight s cut = []
  · rw [if_pos ⟨he, hc⟩, he]
  · rw [if_neg (fun h => he h.1), TrimLeft_cons_cut _ _ _ hc]

theorem Trim_cons_keep (c : Char) (s cut : GoString) (hc : cut.elem c = false) :
    Trim (c :: s) cut = c :: TrimRight s cut := by
  unfold Trim
  rw [TrimRight_cons, if_neg (fun h => by rw [hc] at h; exact absurd h.2 (by decide)),
    TrimLeft_cons_keep _ _ _ hc]

theorem Trim_snoc_cut (c : Char) (s cut : GoString) (hc : cut.elem c = true) :
    Trim (s ++ [c]) cut = Trim s cut := by
  unfold Trim
  rw [TrimRight_snoc_cut _ _ _ hc]

theorem Trim_idem (s cut : GoString) : Trim (Trim s cut) cut = Trim s cut := by
  induction s with
  | nil => rfl
  | cons c s ih =>
    cases hc : cut.elem c with
    | true => rw [Trim_cons_cut _ _ _ hc, ih]
    | false => rw [Trim_cons_keep _ _ _ hc, Trim_cons_keep _ _ _ hc, TrimRight_idem]

theorem Trim_replicate_append (c : Char) (i : Nat) (s cut : GoString)
    (hc : cut.elem c = true) : Trim (List.replicate i c ++ s) cut = Trim s cut := by
  induction i with
  | zero => rfl
  | succ i ih => rw [List.replicate_succ, List.cons_append, Trim_cons_cut _ _ _ hc, ih]

theorem Trim_append_replicate (c : Char) (j : Nat) (s cut : GoString)
    (hc : cut.elem c = true) : Trim (s ++ List.replicate j c) cut = Trim s cut := by
  induction j generalizing s with
  | zero => rw [List.replicate_zero, List.append_nil]
  | succ j ih =>
    rw [List.replicate_succ, ← List.singleton_append, ← List.append_assoc, ih,
      Trim_snoc_cut _ _ _ hc]

theorem Split_no_sep (x : GoString) (sep : Char) (h : sep ∉ x) : Split x sep = [x] := by
  induction x with
  | nil => rfl
  | cons c cs ih =>
    have hc : c ≠ sep := fun e => h (by simp [e])
    have hcs : sep ∉ cs := fun e => h (List.mem_cons_of_mem _ e)
    simp [Split, hc, ih hcs]

theorem Split_append_sep (x y : GoString) (sep : Char) (h : sep ∉ x) :
    Split (x ++ sep :: y) sep = x :: Split y sep := by
  induction x with
  | nil => simp [Split]
  | cons c cs ih =>
    have hc : c ≠ sep := fun e => h (by simp [e])
    have hcs : sep ∉ cs := fun e => h (List.mem_cons_of_mem _ e)
    simp [Split, hc, ih hcs]

theorem TrimRight_append_keep (x b cut : GoString) (hb : b ≠ [])
    (hcut : ∀ c ∈ b, cut.elem c = false) : TrimRight (x ++ b) cut = x ++ b := by
  have h : List.rdropWhile (fun c => cut.elem c) (x ++ b) = x ++ b := by
    rw [List.rdropWhile_eq_self_iff]
    intro hl
    rw [List.getLast_append_of_ne_nil hb]
    have := hcut _ (List.getLast_mem hb)
    rw [this]
    simp
  exact h
end strings

theorem Load_congr_Trim (rr : RouteRegistry) (a b m : GoString)
    (h : strings.Trim a ['/'] = strings.Trim b ['/']) : Load rr a m = Load rr b m := by
  unfold Load
  rw [h]

/-- The segments of a request path `/tenants/a/resources/b`. -/
theorem segmentsOf_tenants_resources (a b : GoString) (hb : b ≠ [])
    (hsa : '/' ∉ a) (hsb : '/' ∉ b) :
    segmentsOf ("/tenants/".toList ++ (a ++ ("/resources/".toList ++ b)))
      = ["tenants".toList, a, "resources".toList, b] := by
  have hcut : ∀ c ∈ b, List.elem c ['/'] = false := by
    intro c hc
    have : c ≠ '/' := fun e => hsb (e ▸ hc)
    simp [this]
  unfold segmentsOf
  show strings.Split (strings.Trim ('/' :: 't' ::
    ("enants/".toList ++ (a ++ ("/resources/".toList ++ b)))) ['/']) '/' = _
  rw [strings.Trim_cons_cut '/' _ ['/'] rfl, strings.Trim_cons_keep 't' _ ['/'] rfl]
  have e : "enants/".toList ++ (a ++ ("/resources/".toList ++ b))
      = ("enants/".toList ++ (a ++ "/resources/".toList)) ++ b := by
    simp only [List.append_assoc]
  rw [e, strings.TrimRight_append_keep _ b ['/'] hb hcut]
  rw [← e]
  show strings.Split ("tenants".toList ++ '/' :: (a ++ '/' :: ("resources".toList ++ '/' :: b))) '/' = _
  rw [strings.Split_append_sep _ _ _ (by decide), strings.Split_append_sep _ _ _ hsa,
    strings.Split_append_sep _ _ _ (by decide), strings.Split_no_sep _ _ hsb]

/-- With only `/tenants/{tenantId}/resources/{resourceId}` registered, every path
`/tenants/a/resources/b` whose segments `a` and `b` differ from the reserved
key is found with params `{tenantId: a, resourceId: b}`. -/
theorem Load_tenants_resources (a b m : GoString) (o : RouteOptionsRef) (hb : b ≠ [])
    (hsa : '/' ∉ a) (hsb : '/' ∉ b) (ha : a ≠ paramSlot) (hb2 : b ≠ paramSlot) :
    ∃ rr,
      Register NewRouteRegistry "/tenants/{tenantId}/resources/{resourceId}".toList m (some o)
        = some (rr, none) ∧
      Load rr ("/tenants/".toList ++ (a ++ ("/resources/".toList ++ b))) m
        = (some o, some [("tenantId".toList, a), ("resourceId".toList, b)], true) := by
  refine ⟨_, rfl, ?_⟩
  have hseg := segmentsOf_tenants_resources a b hb hsa hsb
  unfold segmentsOf at hseg
  unfold Load
  rw [hseg]
  have ha3 : ¬ ['*', 'p', 'a', 'r', 'a', 'm'] = a := fun e => ha e.symm
  have hb3 : ¬ ['*', 'p', 'a', 'r', 'a', 'm'] = b := fun e => hb2 e.symm
  simp [loadWalk, node.child, node.children, GoMap.get, GoMap.set, node.optionsAt,
    node.options, node.paramKey, node.setChild, node.setOptions, newNode, ha3, hb3, paramSlot]

/-! ## Capture names -/

theorem registerWalk_root_paramKey (p m : GoString) (o : Option RouteOptionsRef)
    (segs : List GoString) (cur n : node) (e : Option RegisterError)
    (h : registerWalk p m o segs cur = some (n, e)) : n.paramKey = cur.paramKey := by
  cases segs with
  | nil =>
    rw [registerWalk_nil] at h
    by_cases hs : (cur.optionsAt m).isSome = true
    · rw [if_pos hs] at h
      simp only [Option.some.injEq, Prod.mk.injEq] at h
      rw [← h.1]
    · rw [if_neg hs] at h
      simp only [Option.some.injEq, Prod.mk.injEq] at h
      rw [← h.1, node.paramKey_setOptions]
  | cons seg rest =>
    rw [registerWalk_cons] at h
    cases h2 : registerWalk p m o rest (stepChild cur seg) with
    | none => simp [h2] at h
    | some r =>
      obtain ⟨n2, e2⟩ := r
      simp only [h2, Option.some.injEq, Prod.mk.injEq] at h
      rw [← h.1, node.paramKey_setChild]

/-- Registration never rewrites the capture name of a node that exists. -/
theorem registerWalk_paramKey (p m : GoString) (o : Option RouteOptionsRef)
    (segs : List GoString) (cur n : node) (e : Option RegisterError)
    (h : registerWalk p m o segs cur = some (n, e))
    (ks : List GoString) (t : node) (ht : nodeAt cur ks = some t) :
    ∃ t2, nodeAt n ks = some t2 ∧ t2.paramKey = t.paramKey := by
  induction segs generalizing cur n ks t with
  | nil =>
    cases ks with
    | nil =>
      simp only [nodeAt, Option.some.injEq] at ht
      subst ht
      exact ⟨n, rfl, registerWalk_root_paramKey _ _ _ _ _ _ _ h⟩
    | cons k ks2 =>
      rw [registerWalk_nil] at h
      by_cases hs : (cur.optionsAt m).isSome = true
      · rw [if_pos hs] at h
        simp only [Option.some.injEq, Prod.mk.injEq] at h
        rw [← h.1]
        exact ⟨t, ht, rfl⟩
      · rw [if_neg hs] at h
        simp only [Option.some.injEq, Prod.mk.injEq] at h
        rw [← h.1]
        exact ⟨t, by simpa [nodeAt] using ht, rfl⟩
  | cons seg rest ih =>
    cases ks with
    | nil =>
      simp only [nodeAt, Option.some.injEq] at ht
      subst ht
      exact ⟨n, rfl, registerWalk_root_paramKey _ _ _ _ _ _ _ h⟩
    | cons k ks2 =>
      rw [registerWalk_cons] at h
      cases h2 : registerWalk p m o rest (stepChild cur seg) with
      | none => simp [h2] at h
      | some r =>
        obtain ⟨n2, e2⟩ := r
        simp only [h2, Option.some.injEq, Prod.mk.injEq] at h
        obtain ⟨hn, he⟩ := h
        subst hn; subst he
        obtain ⟨c, hc, hct⟩ := nodeAt_cons_some _ _ _ _ ht
        by_cases hk : segmentKey seg = k
        · subst hk
          rw [stepChild_of_child _ _ _ hc] at h2
          obtain ⟨t2, ht2, hp2⟩ := ih _ _ h2 _ _ hct
          exact ⟨t2, by simp [nodeAt, ht2], hp2⟩
        · refine ⟨t, ?_, rfl⟩
          rw [nodeAt_cons_of_child _ c]
          · exact hct
          · rw [node.child_setChild_other _ _ _ _ hk]; exact hc

theorem nodeAt_of_children_nil (n : node) (k : GoString) (ks : List GoString)
    (h : n.children = []) : nodeAt n (k :: ks) = none := by
  simp [nodeAt, node.child, h, GoMap.get]

theorem freshChild_paramKey (seg : GoString) (h : isDynamic seg = true) :
    (freshChild seg).paramKey = (seg.drop 1).take (seg.length - 2) := by
  simp [freshChild, h, node.paramKey]

/-- Registering a pattern with a `{name}` segment at a position that has no
dynamic child yet creates that child with the capture name `name`. -/
theorem registerWalk_creates_slot (p m : GoString) (o : Option RouteOptionsRef)
    (pre rest : List GoString) (d : GoString) (cur n : node) (e : Option RegisterError)
    (hd : isDynamic d = true)
    (hfresh : nodeAt cur (pre.map segmentKey ++ [paramSlot]) = none)
    (h : registerWalk p m o (pre ++ d :: rest) cur = some (n, e)) :
    ∃ t, nodeAt n (pre.map segmentKey ++ [paramSlot]) = some t ∧
      t.paramKey = (d.drop 1).take (d.length - 2) := by
  induction pre generalizing cur n with
  | nil =>
    simp only [List.nil_append] at h
    rw [registerWalk_cons] at h
    cases h2 : registerWalk p m o rest (stepChild cur d) with
    | none => simp [h2] at h
    | some r =>
      obtain ⟨n2, e2⟩ := r
      simp only [h2, Option.some.injEq, Prod.mk.injEq] at h
      obtain ⟨hn, -⟩ := h
      subst hn
      have hnone : cur.child paramSlot = none := by
        cases hc : cur.child paramSlot with
        | none => rfl
        | some c => simp [nodeAt, hc] at hfresh
      have hstep : stepChild cur d = freshChild d := by
        simp [stepChild, segmentKey_of_dynamic _ hd, hnone]
      rw [hstep] at h2
      refine ⟨n2, ?_, ?_⟩
      · simp [nodeAt, segmentKey_of_dynamic _ hd]
      · rw [registerWalk_root_paramKey _ _ _ _ _ _ _ h2, freshChild_paramKey _ hd]
  | cons s pre2 ih =>
    simp only [List.cons_append] at h
    rw [registerWalk_cons] at h
    cases h2 : registerWalk p m o (pre2 ++ d :: rest) (stepChild cur s) with
    | none => simp [h2] at h
    | some r =>
      obtain ⟨n2, e2⟩ := r
      simp only [h2, Option.some.injEq, Prod.mk.injEq] at h
      obtain ⟨hn, he⟩ := h
      subst hn; subst he
      have hfresh2 : nodeAt (stepChild cur s) (pre2.map segmentKey ++ [paramSlot]) = none := by
        cases hc : cur.child (segmentKey s) with
        | none =>
          have hstep : stepChild cur s = freshChild s := by simp [stepChild, hc]
          rw [hstep]
          cases hks : pre2.map segmentKey ++ [paramSlot] with
          | nil => simp at hks
          | cons k ks => exact nodeAt_of_children_nil _ _ _ (freshChild_children s)
        | some c =>
          rw [stepChild_of_child _ _ _ hc]
          simpa [nodeAt, hc] using hfresh
      obtain ⟨t, ht, htk⟩ := ih _ _ hfresh2 h2
      exact ⟨t, by simp [nodeAt, ht], htk⟩

theorem Register_paramKey (rr rr2 : RouteRegistry) (p m : GoString)
    (o : Option RouteOptionsRef) (e : Option RegisterError)
    (h : Register rr p m o = some (rr2, e))
    (ks : List GoString) (t : node) (ht : nodeAt rr.root ks = some t) :
    ∃ t2, nodeAt rr2.root ks = some t2 ∧ t2.paramKey = t.paramKey := by
  by_cases hp : p = []
  · subst hp
    rw [Register_empty] at h
    simp only [Option.some.injEq, Prod.mk.injEq] at h
    rw [← h.1]
    exact ⟨t, ht, rfl⟩
  · exact registerWalk_paramKey p m o _ _ _ _ (Register_walk _ _ _ _ _ _ hp h) ks t ht

theorem RegisterAll_paramKey (calls : List RegisterCall) (rr rr2 : RouteRegistry)
    (done : List RegisterCall) (h : RegisterAll rr calls = some (rr2, done))
    (ks : List GoString) (t : node) (ht : nodeAt rr.root ks = some t) :
    ∃ t2, nodeAt rr2.root ks = some t2 ∧ t2.paramKey = t.paramKey := by
  induction calls generalizing rr done t with
  | nil =>
    simp only [RegisterAll, Option.some.injEq, Prod.mk.injEq] at h
    rw [← h.1]
    exact ⟨t, ht, rfl⟩
  | cons c cs ih =>
    obtain ⟨rr1, e, h1, hrest⟩ := RegisterAll_cons _ _ _ _ _ h
    obtain ⟨t1, ht1, hk1⟩ := Register_paramKey _ _ _ _ _ _ h1 ks t ht
    rcases hrest with ⟨-, h2⟩ | ⟨-, done2, -, h2⟩
    · obtain ⟨t2, ht2, hk2⟩ := ih _ _ h2 _ ht1
      exact ⟨t2, ht2, hk2.trans hk1⟩
    · obtain ⟨t2, ht2, hk2⟩ := ih _ _ h2 _ ht1
      exact ⟨t2, ht2, hk2.trans hk1⟩

theorem isDynamic_braces (x : GoString) : isDynamic ('{' :: (x ++ ['}'])) = true := by
  simp only [isDynamic, strings.HasPrefix, strings.HasSuffix, Bool.and_eq_true]
  refine ⟨by simp, ?_⟩
  rw [List.isSuffixOf_iff_suffix]
  exact ⟨'{' :: x, by simp⟩

theorem inner_braces (x : GoString) :
    (('{' :: (x ++ ['}'])).drop 1).take (('{' :: (x ++ ['}'])).length - 2) = x := by
  simp

/-- The step of `Load` through the dynamic child: the segment is bound under
the capture name of that child. -/
theorem loadWalk_param_step (n t : node) (v : GoString) (rest : List GoString)
    (params : RouteParams) (hv : n.child v = none) (ht : n.child paramSlot = some t) :
    loadWalk (v :: rest) n params = loadWalk rest t (GoMap.set params t.paramKey v) := by
  simp [loadWalk, hv, ht]

/-! ## The middleware chain -/

theorem calls_append (a b : List Event) : calls (a ++ b) = calls a ++ calls b := by
  induction a with
  | nil => rfl
  | cons e a ih => cases e <;> simp [calls, ih]

theorem next_of_none (ms : List Middleware) (c : RouteContext) (fuel : Nat) (st : ChainState)
    (h : ms[st.index]? = none) :
    next ms c fuel st = some ⟨st.index, st.trace ++ [Event.handler c]⟩ := by
  cases fuel <;> simp [next, h]

theorem next_of_some (ms : List Middleware) (c : RouteContext) (fuel : Nat) (st : ChainState)
    (mw : Middleware) (h : ms[st.index]? = some mw) :
    next ms c (fuel + 1) st =
      runSteps (next ms c fuel) (mw.Invoke c)
        ⟨st.index + 1, st.trace ++ [Event.invoke st.index]⟩ := by
  simp [next, h]

theorem runSteps_append (nx : ChainState → Option ChainState) (a b : List Step)
    (st : ChainState) :
    runSteps nx (a ++ b) st = (runSteps nx a st).bind (runSteps nx b) := by
  induction a generalizing st with
  | nil => simp [runSteps]
  | cons x a ih =>
    cases x with
    | next =>
      simp only [List.cons_append, runSteps]
      cases nx st with
      | none => simp
      | some st2 => simpa using ih st2
    | effect e =>
      simp only [List.cons_append, runSteps]
      exact ih _

/-- A body without a call of `next` only adds effects and leaves the cursor. -/
theorem runSteps_effects (nx : ChainState → Option ChainState) (steps : List Step)
    (st : ChainState) (h : steps.countP Step.isNext = 0) :
    ∃ tr, runSteps nx steps st = some ⟨st.index, st.trace ++ tr⟩ ∧ calls tr = [] := by
  induction steps generalizing st with
  | nil => exact ⟨[], by simp [runSteps], rfl⟩
  | cons x rest ih =>
    cases x with
    | next => simp [List.countP_cons, Step.isNext] at h
    | effect e =>
      have hrest : rest.countP Step.isNext = 0 := by
        simpa [List.countP_cons, Step.isNext] using h
      obtain ⟨tr, htr, hc⟩ := ih ⟨st.index, st.trace ++ [Event.effect e]⟩ hrest
      refine ⟨Event.effect e :: tr, ?_, by simpa [calls] using hc⟩
      simp only [runSteps, htr]
      simp

theorem split_single_next (steps : List Step) (h : steps.countP Step.isNext = 1) :
    ∃ a b, steps = a ++ Step.next :: b ∧ a.countP Step.isNext = 0 ∧
      b.countP Step.isNext = 0 := by
  induction steps with
  | nil => simp at h
  | cons x rest ih =>
    cases x with
    | next =>
      refine ⟨[], rest, rfl, rfl, ?_⟩
      simpa [List.countP_cons, Step.isNext] using h
    | effect e =>
      have hrest : rest.countP Step.isNext = 1 := by
        simpa [List.countP_cons, Step.isNext] using h
      obtain ⟨a, b, hab, ha, hb⟩ := ih hrest
      refine ⟨Step.effect e :: a, b, by rw [hab]; rfl, ?_, hb⟩
      simpa [List.countP_cons, Step.isNext] using ha

/-- A body with exactly one call of `next`: its effects before, what the
continuation does, its effects after. -/
theorem runSteps_once (nx : ChainState → Option ChainState) (steps : List Step)
    (st : ChainState) (idx2 : Nat) (cs : List Event)
    (h : steps.countP Step.isNext = 1)
    (hnx : ∀ st1 : ChainState, st1.index = st.index →
      ∃ tr, nx st1 = some ⟨idx2, st1.trace ++ tr⟩ ∧ calls tr = cs) :
    ∃ tr2, runSteps nx steps st = some ⟨idx2, st.trace ++ tr2⟩ ∧ calls tr2 = cs := by
  obtain ⟨a, b, hab, ha, hb⟩ := split_single_next steps h
  obtain ⟨ta, hta, hca⟩ := runSteps_effects nx a st ha
  obtain ⟨tr, htr, hctr⟩ := hnx ⟨st.index, st.trace ++ ta⟩ rfl
  obtain ⟨tb, htb, hcb⟩ := runSteps_effects nx b ⟨idx2, st.trace ++ ta ++ tr⟩ hb
  refine ⟨ta ++ tr ++ tb, ?_, by simp [calls_append, hca, hcb, hctr]⟩
  rw [hab, runSteps_append, hta]
  simp only [Option.some_bind, runSteps, htr]
  rw [htb]
  simp

/-- When every middleware from the cursor on calls `next` once, the chain
enters them in order and then calls the handler. -/
theorem next_all_once (ms : List Middleware) (c : RouteContext) (d : Nat) :
    ∀ (i fuel : Nat) (st : ChainState), i + d = ms.length → ms.length ≤ fuel + i →
      st.index = i →
      (∀ j mw, i ≤ j → ms[j]? = some mw → (mw.Invoke c).countP Step.isNext = 1) →
      ∃ tr, next ms c fuel st = some ⟨ms.length, st.trace ++ tr⟩ ∧
        calls tr = (List.range' i d).map Event.invoke ++ [Event.handler c] := by
  induction d with
  | zero =>
    intro i fuel st hid _ hst _
    have hnone : ms[st.index]? = none := by
      rw [List.getElem?_eq_none]; omega
    refine ⟨[Event.handler c], ?_, by simp [calls]⟩
    rw [next_of_none _ _ _ _ hnone]
    have : st.index = ms.length := by omega
    rw [this]
  | succ d ih =>
    intro i fuel st hid hfuel hst honce
    have hlt : st.index < ms.length := by omega
    have hsome : ms[st.index]? = some (ms[st.index]) := List.getElem?_eq_getElem hlt
    obtain ⟨f, hf⟩ : ∃ f, fuel = f + 1 := ⟨fuel - 1, by omega⟩
    subst hf
    rw [next_of_some _ _ _ _ _ hsome]
    have hcount := honce st.index _ (by omega) hsome
    obtain ⟨tr2, htr2, hc2⟩ :=
      runSteps_once (next ms c f) (ms[st.index].Invoke c)
        ⟨st.index + 1, st.trace ++ [Event.invoke st.index]⟩ ms.length
        ((List.range' (i + 1) d).map Event.invoke ++ [Event.handler c]) hcount
        (fun st1 hst1 =>
          ih (i + 1) f st1 (by omega) (by omega) (by rw [hst1]; simp [hst])
            (fun j mw hj hmw => honce j mw (by omega) hmw))
    refine ⟨Event.invoke st.index :: tr2, ?_, ?_⟩
    · rw [htr2]; simp
    · simp [calls, hc2, hst, List.range'_succ]

/-- When the middleware from the cursor up to `k` call `next` once and
`middleware[k]` does not call it, the chain enters them in order up to `k`
and nothing more. -/
theorem next_until_never (ms : List Middleware) (c : RouteContext) (k : Nat)
    (hk : k < ms.length)
    (hnever : ∀ mw, ms[k]? = some mw → (mw.Invoke c).countP Step.isNext = 0) (d : Nat) :
    ∀ (i fuel : Nat) (st : ChainState), i + d = k → ms.length ≤ fuel + i →
      st.index = i →
      (∀ j mw, i ≤ j → j < k → ms[j]? = some mw →
        (mw.Invoke c).countP Step.isNext = 1) →
      ∃ tr, next ms c fuel st = some ⟨k + 1, st.trace ++ tr⟩ ∧
        calls tr = (List.range' i (d + 1)).map Event.invoke := by
  induction d with
  | zero =>
    intro i fuel st hid hfuel hst _
    have hik : st.index = k := by omega
    have hsome : ms[st.index]? = some (ms[k]) := by
      rw [hik]; exact List.getElem?_eq_getElem hk
    obtain ⟨f, hf⟩ : ∃ f, fuel = f + 1 := ⟨fuel - 1, by omega⟩
    subst hf
    rw [next_of_some _ _ _ _ _ hsome]
    obtain ⟨tr, htr, hc⟩ :=
      runSteps_effects (next ms c f) (ms[k].Invoke c)
        ⟨st.index + 1, st.trace ++ [Event.invoke st.index]⟩
        (hnever _ (List.getElem?_eq_getElem hk))
    refine ⟨Event.invoke st.index :: tr, ?_, ?_⟩
    · rw [htr, hik]; simp
    · simp [calls, hc, hst, List.range'_succ]
  | succ d ih =>
    intro i fuel st hid hfuel hst honce
    have hlt : st.index < ms.length := by omega
    have hsome : ms[st.index]? = some (ms[st.index]) := List.getElem?_eq_getElem hlt
    obtain ⟨f, hf⟩ : ∃ f, fuel = f + 1 := ⟨fuel - 1, by omega⟩
    subst hf
    rw [next_of_some _ _ _ _ _ hsome]
    have hcount := honce st.index _ (by omega) (by omega) hsome
    obtain ⟨tr2, htr2, hc2⟩ :=
      runSteps_once (next ms c f) (ms[st.index].Invoke c)
        ⟨st.index + 1, st.trace ++ [Event.invoke st.index]⟩ (k + 1)
        ((List.range' (i + 1) (d + 1)).map Event.invoke) hcount
        (fun st1 hst1 =>
          ih (i + 1) f st1 (by omega) (by omega) (by rw [hst1]; simp [hst])
            (fun j mw hj hjk hmw => honce j mw (by omega) hjk hmw))
    refine ⟨Event.invoke st.index :: tr2, ?_, ?_⟩
    · rw [htr2]; simp
    · simp only [calls, hc2, hst]
      rw [List.range'_succ i (d + 1)]
      simp

theorem runSteps_total (nx : ChainState → Option ChainState) (steps : List Step)
    (st : ChainState)
    (hnx : ∀ st1 : ChainState, st.index ≤ st1.index →
      ∃ st2, nx st1 = some st2 ∧ st1.index ≤ st2.index) :
    ∃ st2, runSteps nx steps st = some st2 ∧ st.index ≤ st2.index := by
  induction steps generalizing st with
  | nil => exact ⟨st, rfl, Nat.le_refl _⟩
  | cons x rest ih =>
    cases x with
    | next =>
      obtain ⟨st1, h1, hle1⟩ := hnx st (Nat.le_refl _)
      obtain ⟨st2, h2, hle2⟩ :=
        ih st1 (fun s hs => hnx s (Nat.le_trans hle1 hs))
      exact ⟨st2, by simp only [runSteps, h1, h2], Nat.le_trans hle1 hle2⟩
    | effect e =>
      obtain ⟨st2, h2, hle2⟩ :=
        ih ⟨st.index, st.trace ++ [Event.effect e]⟩ (fun s hs => hnx s hs)
      exact ⟨st2, by simp only [runSteps, h2], hle2⟩

/-- The closure `next` always returns when its bound covers the middleware
left, whatever the middleware do; the cursor never moves back. -/
theorem next_total (ms : List Middleware) (c : RouteContext) (fuel : Nat) :
    ∀ st : ChainState, ms.length ≤ fuel + st.index →
      ∃ st2, next ms c fuel st = some st2 ∧ st.index ≤ st2.index := by
  induction fuel with
  | zero =>
    intro st h
    have hnone : ms[st.index]? = none := by
      rw [List.getElem?_eq_none]; omega
    exact ⟨_, next_of_none _ _ _ _ hnone, Nat.le_refl _⟩
  | succ f ih =>
    intro st h
    cases hm : ms[st.index]? with
    | none => exact ⟨_, next_of_none _ _ _ _ hm, Nat.le_refl _⟩
    | some mw =>
      rw [next_of_some _ _ _ _ _ hm]
      obtain ⟨st2, h2, hle⟩ :=
        runSteps_total (next ms c f) (mw.Invoke c)
          ⟨st.index + 1, st.trace ++ [Event.invoke st.index]⟩
          (fun st1 hst1 => ih st1 (by simp only at hst1; omega))
      exact ⟨st2, h2, by simp only at hle; omega⟩

theorem ServeHTTP_not_found (rtr : Router) (r : Request)
    (h : (Load rtr.registry r.Path r.Method).2.2 = false) :
    rtr.ServeHTTP r = some [Event.effect (Effect.respond 404)] := by
  unfold Router.ServeHTTP
  rcases hL : Load rtr.registry r.Path r.Method with ⟨o, ps, ok⟩
  rw [hL] at h
  simp only at h
  subst h
  simp

theorem ServeHTTP_found (rtr : Router) (r : Request)
    (h : (Load rtr.registry r.Path r.Method).2.2 = true) :
    rtr.ServeHTTP r =
      (next rtr.middleware
        ⟨r, (Load rtr.registry r.Path r.Method).1, (Load rtr.registry r.Path r.Method).2.1⟩
        rtr.middleware.length ⟨0, []⟩).map (fun st => st.trace) := by
  unfold Router.ServeHTTP
  rcases hL : Load rtr.registry r.Path r.Method with ⟨o, ps, ok⟩
  rw [hL] at h
  simp only at h
  subst h
  simp only [NewRouteContext, Bool.not_true, Bool.false_eq_true, if_false]
  cases next rtr.middleware ⟨r, o, ps⟩ rtr.middleware.length ⟨0, []⟩ <;> rfl

/-- `ServeHTTP` always returns: the bound it gives `next` is never too small. -/
theorem ServeHTTP_total (rtr : Router) (r : Request) : ∃ trace, rtr.ServeHTTP r = some trace := by
  cases h : (Load rtr.registry r.Path r.Method).2.2 with
  | false => exact ⟨_, ServeHTTP_not_found rtr r h⟩
  | true =>
    rw [ServeHTTP_found rtr r h]
    obtain ⟨st2, h2, -⟩ := next_total rtr.middleware
      ⟨r, (Load rtr.registry r.Path r.Method).1, (Load rtr.registry r.Path r.Method).2.1⟩
      rtr.middleware.length ⟨0, []⟩ (by simp)
    exact ⟨st2.trace, by rw [h2]; rfl⟩

theorem foldl_use_middleware (ms : List Middleware) (rtr : Router) :
    (ms.foldl Router.use rtr).middleware = rtr.middleware ++ ms ∧
    (ms.foldl Router.use rtr).registry = rtr.registry := by
  induction ms generalizing rtr with
  | nil => simp
  | cons m ms ih =>
    obtain ⟨h1, h2⟩ := ih (rtr.use m)
    simp only [List.foldl_cons, h1, h2]
    simp [Router.use]

/-! ## normalizeRoute -/

namespace strings

theorem HasPrefix_cons_one (a x : Char) (t : GoString) :
    HasPrefix (a :: t) [x] = (x == a) := by
  simp [HasPrefix, List.isPrefixOf]

theorem HasSuffix_snoc_one (l x : Char) (s : GoString) :
    HasSuffix (s ++ [l]) [x] = (x == l) := by
  simp [HasSuffix, List.isSuffixOf, List.isPrefixOf]

theorem HasSuffix_nil_one (x : Char) : HasSuffix [] [x] = false := by
  simp [HasSuffix, List.isSuffixOf, List.isPrefixOf]

theorem TrimRight_last (s cut : GoString) (l : Char) (t : GoString)
    (h : TrimRight s cut = t ++ [l]) : cut.elem l = false := by
  have hne : List.rdropWhile (fun c => cut.elem c) s ≠ [] := by
    intro hnil
    have : TrimRight s cut = [] := hnil
    rw [this] at h
    simp at h
  have hlast := List.rdropWhile_last_not (fun c => cut.elem c) s hne
  have e : List.rdropWhile (fun c => cut.elem c) s = t ++ [l] := h
  simp only [e, List.getLast_append_singleton] at hlast
  cases hb : cut.elem l with
  | false => rfl
  | true => exact absurd hb hlast
end strings

theorem HasPrefix_snoc_slash (P q : GoString) (hq : ∀ t l, q = t ++ [l] → l ≠ '/') :
    strings.HasPrefix (P ++ ['/']) q = strings.HasPrefix P q := by
  unfold strings.HasPrefix
  rw [Bool.eq_iff_iff]
  simp only [List.isPrefixOf_iff_prefix]
  rw [List.prefix_concat_iff]
  constructor
  · rintro (h | h)
    · exact absurd rfl (hq P '/' h)
    · exact h
  · exact Or.inr

/-- The last two steps of `normalizeRoute` before the replacement give the same
route with and without a final `/`, when the route ends in another unit. -/
theorem normalize_tail (A X s : GoString) (l : Char) (hA : A = X ++ (s ++ [l]))
    (hl : ('/' == l) = false) :
    (if (!strings.HasSuffix (if (!strings.HasPrefix A ['/']) = true then '/' :: A else A) ['/'])
        = true
      then (if (!strings.HasPrefix A ['/']) = true then '/' :: A else A) ++ ['/']
      else (if (!strings.HasPrefix A ['/']) = true then '/' :: A else A))
    = (if (!strings.HasSuffix
          (if (!strings.HasPrefix (A ++ ['/']) ['/']) = true then '/' :: (A ++ ['/'])
            else A ++ ['/']) ['/']) = true
      then (if (!strings.HasPrefix (A ++ ['/']) ['/']) = true then '/' :: (A ++ ['/'])
            else A ++ ['/']) ++ ['/']
      else (if (!strings.HasPrefix (A ++ ['/']) ['/']) = true then '/' :: (A ++ ['/'])
            else A ++ ['/'])) := by
  have hsuf : ∀ Y : GoString, strings.HasSuffix (Y ++ A) ['/'] = false := by
    intro Y
    rw [hA, ← List.append_assoc, ← List.append_assoc, strings.HasSuffix_snoc_one, hl]
  have hsuf2 : ∀ Y : GoString, strings.HasSuffix (Y ++ (A ++ ['/'])) ['/'] = true := by
    intro Y
    rw [← List.append_assoc, strings.HasSuffix_snoc_one]
    rfl
  have hpre : strings.HasPrefix (A ++ ['/']) ['/'] = strings.HasPrefix A ['/'] := by
    cases hX : A with
    | nil => rw [hX] at hA; simp at hA
    | cons a t => rw [List.cons_append, strings.HasPrefix_cons_one, strings.HasPrefix_cons_one]
  rw [hpre]
  cases hb : strings.HasPrefix A ['/'] with
  | true =>
    simp only [Bool.not_true, Bool.false_eq_true, if_false]
    have h1 := hsuf []
    have h2 := hsuf2 []
    simp only [List.nil_append] at h1 h2
    rw [h1, h2]
    simp
  | false =>
    simp only [Bool.not_false, if_true]
    have h1 := hsuf ['/']
    have h2 := hsuf2 ['/']
    simp only [List.singleton_append] at h1 h2
    rw [h1, h2]
    simp

/-- Wrapping a pattern in slashes does not change what it normalizes to. -/
theorem normalizeRoute_wrap (p pre : GoString)
    (hs : strings.HasPrefix p ['/'] = false) (he : strings.HasSuffix p ['/'] = false) :
    normalizeRoute p pre = normalizeRoute ('/' :: (p ++ ['/'])) pre := by
  cases p with
  | nil => rfl
  | cons c p2 =>
    have hne : c ≠ '/' := by
      intro e
      subst e
      rw [strings.HasPrefix_cons_one] at hs
      simp at hs
    have hc : List.elem c ['/'] = false := by simp [hne]
    obtain ⟨s, l, hsl⟩ : ∃ s l, c :: p2 = s ++ [l] := by
      rcases List.eq_nil_or_concat (c :: p2) with h | ⟨s, l, h⟩
      · simp at h
      · exact ⟨s, l, by simpa using h⟩
    have hl : ('/' == l) = false := by
      rw [hsl, strings.HasSuffix_snoc_one] at he; exact he
    have hq : ∀ t x, strings.TrimRight pre ['/'] = t ++ [x] → x ≠ '/' := by
      intro t x h e
      subst e
      have := strings.TrimRight_last pre ['/'] '/' t h
      simp at this
    have hpq := HasPrefix_snoc_slash (c :: p2) (strings.TrimRight pre ['/']) hq
    unfold normalizeRoute
    simp only []
    rw [strings.TrimLeft_cons_cut '/' _ ['/'] rfl, List.cons_append,
      strings.TrimLeft_cons_keep c _ _ hc, strings.TrimLeft_cons_keep c _ _ hc,
      ← List.cons_append, hpq]
    congr 1
    cases hb : strings.HasPrefix (c :: p2) (strings.TrimRight pre ['/']) with
    | true =>
      simp only [Bool.not_true, Bool.false_eq_true, if_false]
      exact normalize_tail (c :: p2) [] s l (by simpa using hsl) hl
    | false =>
      simp only [Bool.not_false, if_true]
      have e : strings.TrimRight pre ['/'] ++ '/' :: (c :: p2 ++ ['/'])
          = (strings.TrimRight pre ['/'] ++ '/' :: (c :: p2)) ++ ['/'] := by simp
      rw [e]
      exact normalize_tail _ (strings.TrimRight pre ['/'] ++ ['/']) s l (by simp [hsl]) hl

/-! ## The records behind the builders -/

theorem update_of_record (rb : RouteBuilder) (heap : Heap) (f : RouteOptions → RouteOptions)
    (a : RouteOptionsRef) (r : RouteOptions) (ha : rb.Options = some a)
    (hr : heap[a]? = some r) : rb.update heap f = some (heap.set a (f r)) := by
  simp [RouteBuilder.update, ha, hr]

theorem lt_of_record (heap : Heap) (a : RouteOptionsRef) (r : RouteOptions)
    (hr : heap[a]? = some r) : a < heap.length := by
  by_contra hcon
  rw [List.getElem?_eq_none (Nat.le_of_not_lt hcon)] at hr
  simp at hr

/-- A `range` loop over `xs` that assigns to the record of the builder leaves
the record changed by the assignments in order, and every other record as it
was. -/
theorem forEach_record (rb : RouteBuilder) (f : GoString → RouteOptions → RouteOptions)
    (xs : List GoString) (heap : Heap) (a : RouteOptionsRef) (r : RouteOptions)
    (ha : rb.Options = some a) (hr : heap[a]? = some r) :
    ∃ heap2, rb.forEach f xs heap = some heap2 ∧
      heap2[a]? = some (xs.foldl (fun r x => f x r) r) ∧
      ∀ b, b ≠ a → heap2[b]? = heap[b]? := by
  induction xs generalizing heap r with
  | nil => exact ⟨heap, rfl, hr, fun _ _ => rfl⟩
  | cons x xs ih =>
    have hlt := lt_of_record heap a r hr
    have hr1 : (heap.set a (f x r))[a]? = some (f x r) := by
      simp [List.getElem?_set_self hlt]
    obtain ⟨heap2, h2, hrec, hother⟩ := ih (heap.set a (f x r)) (f x r) hr1
    refine ⟨heap2, ?_, hrec, ?_⟩
    · simp only [RouteBuilder.forEach, update_of_record rb heap (f x) a r ha hr, h2]
    · intro b hb
      rw [hother b hb, List.getElem?_set_ne (Ne.symm hb)]

theorem foldl_Roles (xs : List GoString) (r : RouteOptions) :
    xs.foldl (fun r x => { r with Roles := r.Roles ++ [x] }) r
      = { r with Roles := r.Roles ++ xs } := by
  induction xs generalizing r with
  | nil => simp
  | cons x xs ih => simp [List.foldl_cons, ih]

theorem foldl_Scopes (xs : List GoString) (r : RouteOptions) :
    xs.foldl (fun r x => { r with Scopes := r.Scopes ++ [x] }) r
      = { r with Scopes := r.Scopes ++ xs } := by
  induction xs generalizing r with
  | nil => simp
  | cons x xs ih => simp [List.foldl_cons, ih]

theorem foldl_Permissions (xs : List GoString) (r : RouteOptions) :
    xs.foldl (fun r x => { r with Permissions := r.Permissions ++ [x] }) r
      = { r with Permissions := r.Permissions ++ xs } := by
  induction xs generalizing r with
  | nil => simp
  | cons x xs ih => simp [List.foldl_cons, ih]

/-- After a registration that returned no error, `Load` of the pattern text
returns the registered options. -/
theorem Load_after_Register (rr rr1 : RouteRegistry) (hr : Reachable rr)
    (p m : GoString) (o : RouteOptionsRef)
    (h1 : Register rr p m (some o) = some (rr1, none)) :
    ∃ params, Load rr1 p m = (some o, some params, true) := by
  obtain ⟨t, ht, hto⟩ := Register_stored _ _ _ _ _ h1
  have hk : NoDynamicKeys rr1.root :=
    Register_noDynamicKeys _ _ _ _ _ _ (Reachable_noDynamicKeys rr hr) h1
  obtain ⟨ps, hps, -, -⟩ := loadWalk_self _ _ t [] hk ht
  exact ⟨ps, Load_of_walk _ p m t ps o hps hto⟩

/-- What the four operations of a builder do to the record it points to. -/
theorem builder_operations (rb : RouteBuilder) (heap : Heap) (a : RouteOptionsRef)
    (r : RouteOptions) (xs : List GoString) (resource : GoString)
    (ha : rb.Options = some a) (hr : heap[a]? = some r) :
    (∃ h2, rb.RequireRoles heap xs = some (h2, rb) ∧
      h2[a]? = some { r with Roles := r.Roles ++ xs }) ∧
    (∃ h2, rb.RequireScopes heap xs = some (h2, rb) ∧
      h2[a]? = some { r with Scopes := r.Scopes ++ xs }) ∧
    (∃ h2, rb.RequirePermission heap resource xs = some (h2, rb) ∧
      h2[a]? = some { r with Permissions := r.Permissions ++ xs }) ∧
    (∃ h2, rb.AllowAnonymous heap = some (h2, rb) ∧
      h2[a]? = some { r with AllowAnonymous := true }) := by
  refine ⟨?_, ?_, ?_, ?_⟩
  · obtain ⟨h2, hh2, hr2, -⟩ := forEach_record rb
      (fun x r => { r with Roles := r.Roles ++ [x] }) xs heap a r ha hr
    exact ⟨h2, by simp only [RouteBuilder.RequireRoles, hh2], by rw [hr2, foldl_Roles]⟩
  · obtain ⟨h2, hh2, hr2, -⟩ := forEach_record rb
      (fun x r => { r with Scopes := r.Scopes ++ [x] }) xs heap a r ha hr
    exact ⟨h2, by simp only [RouteBuilder.RequireScopes, hh2], by rw [hr2, foldl_Scopes]⟩
  · obtain ⟨h2, hh2, hr2, -⟩ := forEach_record rb
      (fun x r => { r with Permissions := r.Permissions ++ [x] }) xs heap a r ha hr
    exact ⟨h2, by simp only [RouteBuilder.RequirePermission, hh2],
      by rw [hr2, foldl_Permissions]⟩
  · exact ⟨_, by simp only [RouteBuilder.AllowAnonymous, update_of_record rb heap _ a r ha hr],
      List.getElem?_set_self (lt_of_record heap a r hr)⟩

/-- The segments of a request path `/api/v1/resources/id`. -/
theorem segmentsOf_api_resources (id : GoString) (hne : id ≠ []) (hs : '/' ∉ id) :
    segmentsOf ("/api/v1/resources/".toList ++ id)
      = ["api".toList, "v1".toList, "resources".toList, id] := by
  have hcut : ∀ c ∈ id, List.elem c ['/'] = false := by
    intro c hc
    have : c ≠ '/' := fun e => hs (e ▸ hc)
    simp [this]
  unfold segmentsOf
  show strings.Split (strings.Trim ('/' :: 'a' :: ("pi/v1/resources/".toList ++ id)) ['/']) '/' = _
  rw [strings.Trim_cons_cut '/' _ ['/'] rfl, strings.Trim_cons_keep 'a' _ ['/'] rfl,
    strings.TrimRight_append_keep _ id ['/'] hne hcut]
  show strings.Split ("api".toList ++ '/' :: ("v1".toList ++ '/' :: ("resources".toList ++ '/' :: id))) '/' = _
  rw [strings.Split_append_sep _ _ _ (by decide), strings.Split_append_sep _ _ _ (by decide),
    strings.Split_append_sep _ _ _ (by decide), strings.Split_no_sep _ _ hs]

/-- On `NewRouter("/api/v1")` with `GET("/resources/{resourceId}", h)`, every
request `GET /api/v1/resources/id` whose `id` differs from the reserved key
calls the handler once, with `resourceId` bound to `id`. -/
theorem ServeHTTP_resources_id (id : GoString) (hne : id ≠ []) (hs : '/' ∉ id)
    (hp : id ≠ paramSlot) :
    ∃ heap rtr rb,
      (NewRouter "/api/v1".toList).GET [] "/resources/{resourceId}".toList 7
        = some (heap, rtr, rb) ∧
      rtr.ServeHTTP ⟨"GET".toList, "/api/v1/resources/".toList ++ id⟩
        = some [Event.handler
            ⟨⟨"GET".toList, "/api/v1/resources/".toList ++ id⟩, some 0,
              some [("resourceId".toList, id)]⟩] := by
  refine ⟨_, _, _, rfl, ?_⟩
  have hseg := segmentsOf_api_resources id hne hs
  unfold segmentsOf at hseg
  have hp3 : ¬ ['*', 'p', 'a', 'r', 'a', 'm'] = id := fun e => hp e.symm
  simp only [Router.ServeHTTP, Load, NewRouteContext, hseg]
  simp [loadWalk, node.child, node.children, GoMap.get, GoMap.set, node.optionsAt,
    node.options, node.paramKey, node.setChild, node.setOptions, newNode, hp3, paramSlot, next,
    NewRouter]

/-! ## The replacement of doubled slashes -/

theorem collapse_nil : strings.ReplaceAll [] ['/', '/'] ['/'] = [] := rfl

theorem collapse_one : strings.ReplaceAll ['/'] ['/', '/'] ['/'] = ['/'] := rfl

theorem collapse_pair (rest : GoString) :
    strings.ReplaceAll ('/' :: '/' :: rest) ['/', '/'] ['/']
      = '/' :: strings.ReplaceAll rest ['/', '/'] ['/'] := by
  simp [strings.ReplaceAll, strings.replaceFrom, List.isPrefixOf]

theorem collapse_keep (c : Char) (rest : GoString) (hc : c ≠ '/') :
    strings.ReplaceAll (c :: rest) ['/', '/'] ['/']
      = c :: strings.ReplaceAll rest ['/', '/'] ['/'] := by
  have : ¬ '/' = c := fun e => hc e.symm
  simp [strings.ReplaceAll, strings.replaceFrom, List.isPrefixOf, this]

theorem collapse_slash_keep (d : Char) (rest : GoString) (hd : d ≠ '/') :
    strings.ReplaceAll ('/' :: d :: rest) ['/', '/'] ['/']
      = '/' :: strings.ReplaceAll (d :: rest) ['/', '/'] ['/'] := by
  have : ¬ '/' = d := fun e => hd e.symm
  simp [strings.ReplaceAll, strings.replaceFrom, List.isPrefixOf, this]

/-- The replacement keeps a leading slash. -/
theorem collapse_starts (t : GoString) :
    ∃ u, strings.ReplaceAll ('/' :: t) ['/', '/'] ['/'] = '/' :: u := by
  cases t with
  | nil => exact ⟨[], rfl⟩
  | cons d rest =>
    by_cases hd : d = '/'
    · subst hd; exact ⟨_, collapse_pair rest⟩
    · exact ⟨_, collapse_slash_keep d rest hd⟩

theorem ends_tail (c : Char) (cs t : GoString) (hne : cs ≠ [])
    (h : c :: cs = t ++ ['/']) : ∃ t2, cs = t2 ++ ['/'] := by
  cases t with
  | nil =>
    simp only [List.nil_append, List.cons.injEq] at h
    exact absurd h.2 hne
  | cons a t2 =>
    simp only [List.cons_append, List.cons.injEq] at h
    exact ⟨t2, h.2⟩

/-- The replacement keeps a final slash. -/
theorem collapse_ends (n : Nat) : ∀ s t : GoString, s.length ≤ n → s = t ++ ['/'] →
    ∃ u, strings.ReplaceAll s ['/', '/'] ['/'] = u ++ ['/'] := by
  induction n with
  | zero =>
    intro s t hlen hs
    rw [hs] at hlen
    simp at hlen
  | succ n ih =>
    intro s t hlen hs
    cases s with
    | nil => simp at hs
    | cons c cs =>
      cases cs with
      | nil =>
        have hc : c = '/' := by
          cases t with
          | nil => simpa using hs
          | cons a t2 =>
            have := congrArg List.length hs
            simp at this
        subst hc
        exact ⟨[], rfl⟩
      | cons d rest =>
        obtain ⟨t2, ht2⟩ := ends_tail c (d :: rest) t (by simp) hs
        by_cases hc : c = '/'
        · subst hc
          by_cases hd : d = '/'
          · subst hd
            rw [collapse_pair]
            cases rest with
            | nil => exact ⟨[], rfl⟩
            | cons e rest2 =>
              obtain ⟨t3, ht3⟩ := ends_tail '/' (e :: rest2) t2 (by simp) ht2
              obtain ⟨u, hu⟩ := ih (e :: rest2) t3 (by simp at hlen ⊢; omega) ht3
              exact ⟨'/' :: u, by rw [hu]; rfl⟩
          · rw [collapse_slash_keep d rest hd]
            obtain ⟨u, hu⟩ := ih (d :: rest) t2 (by simp at hlen ⊢; omega) ht2
            exact ⟨'/' :: u, by rw [hu]; rfl⟩
        · rw [collapse_keep c _ hc]
          obtain ⟨u, hu⟩ := ih (d :: rest) t2 (by simp at hlen ⊢; omega) ht2
          exact ⟨c :: u, by rw [hu]; rfl⟩

theorem HasPrefix_slash_iff (s : GoString) :
    strings.HasPrefix s ['/'] = true ↔ ∃ t, s = '/' :: t := by
  cases s with
  | nil => simp [strings.HasPrefix, List.isPrefixOf]
  | cons a t =>
    rw [strings.HasPrefix_cons_one]
    constructor
    · intro h
      have : '/' = a := by simpa using h
      exact ⟨t, by rw [this]⟩
    · rintro ⟨t2, h⟩
      simp only [List.cons.injEq] at h
      rw [h.1]; rfl

theorem HasSuffix_slash_iff (s : GoString) :
    strings.HasSuffix s ['/'] = true ↔ ∃ t, s = t ++ ['/'] := by
  rcases List.eq_nil_or_concat s with h | ⟨t, l, h⟩
  · subst h
    simp [strings.HasSuffix_nil_one]
  · have hs : s = t ++ [l] := by simpa using h
    subst hs
    rw [strings.HasSuffix_snoc_one]
    constructor
    · intro h2
      have : '/' = l := by simpa using h2
      exact ⟨t, by rw [this]⟩
    · rintro ⟨t2, h2⟩
      have := List.append_inj_right' h2 rfl
      simp only [List.cons.injEq, and_true] at this
      rw [this]; rfl

/-- Before the replacement, `normalizeRoute` has made the route start and end
with a slash. -/
theorem wrapped_slashes (A : GoString) :
    (∃ t, (if (!strings.HasSuffix (if (!strings.HasPrefix A ['/']) = true then '/' :: A else A)
            ['/']) = true
          then (if (!strings.HasPrefix A ['/']) = true then '/' :: A else A) ++ ['/']
          else (if (!strings.HasPrefix A ['/']) = true then '/' :: A else A)) = '/' :: t) ∧
    (∃ t, (if (!strings.HasSuffix (if (!strings.HasPrefix A ['/']) = true then '/' :: A else A)
            ['/']) = true
          then (if (!strings.HasPrefix A ['/']) = true then '/' :: A else A) ++ ['/']
          else (if (!strings.HasPrefix A ['/']) = true then '/' :: A else A)) = t ++ ['/']) := by
  have hB : ∃ t, (if (!strings.HasPrefix A ['/']) = true then '/' :: A else A) = '/' :: t := by
    cases hb : strings.HasPrefix A ['/'] with
    | true =>
      obtain ⟨t, ht⟩ := (HasPrefix_slash_iff A).mp hb
      exact ⟨t, by simp [ht]⟩
    | false => exact ⟨A, by simp⟩
  obtain ⟨t, ht⟩ := hB
  rw [ht]
  cases hs : strings.HasSuffix ('/' :: t) ['/'] with
  | true =>
    obtain ⟨u, hu⟩ := (HasSuffix_slash_iff _).mp hs
    exact ⟨⟨t, by simp⟩, ⟨u, by simpa using hu⟩⟩
  | false => exact ⟨⟨t ++ ['/'], by simp⟩, ⟨'/' :: t, by simp⟩⟩

theorem normalizeRoute_slashes (route pre : GoString) :
    (∃ t, normalizeRoute route pre = '/' :: t) ∧ (∃ t, normalizeRoute route pre = t ++ ['/']) := by
  unfold normalizeRoute
  simp only []
  obtain ⟨⟨t1, h1⟩, ⟨t2, h2⟩⟩ := wrapped_slashes
    (if (!strings.HasPrefix (strings.TrimLeft route ['/']) (strings.TrimRight pre ['/'])) = true
      then strings.TrimRight pre ['/'] ++ '/' :: strings.TrimLeft route ['/']
      else strings.TrimLeft route ['/'])
  constructor
  · rw [h1]; exact collapse_starts t1
  · rw [h2]; exact collapse_ends _ _ t2 (Nat.le_refl _) rfl

theorem TrimLeft_no_slash (s : GoString) : ¬ ∃ t, strings.TrimLeft s ['/'] = '/' :: t := by
  induction s with
  | nil => rintro ⟨t, h⟩; simp [strings.TrimLeft] at h
  | cons c cs ih =>
    by_cases hc : c = '/'
    · subst hc
      rw [strings.TrimLeft_cons_cut '/' cs ['/'] rfl]
      exact ih
    · have he : List.elem c ['/'] = false := by simp [hc]
      rw [strings.TrimLeft_cons_keep c cs ['/'] he]
      rintro ⟨t, h⟩
      simp only [List.cons.injEq] at h
      exact hc h.1

/-- The replacement leaves a part without doubled slash as it is, when what
follows does not start with a slash. -/
theorem collapse_fixed (s rest : GoString) (hs : ¬ ['/', '/'] <:+: s)
    (hrest : ¬ ∃ t, rest = '/' :: t) :
    strings.ReplaceAll (s ++ rest) ['/', '/'] ['/']
      = s ++ strings.ReplaceAll rest ['/', '/'] ['/'] := by
  induction s with
  | nil => rfl
  | cons c cs ih =>
    have hcs : ¬ ['/', '/'] <:+: cs := fun h => hs (List.infix_cons h)
    by_cases hc : c = '/'
    · subst hc
      cases cs with
      | nil =>
        cases rest with
        | nil => rfl
        | cons d r =>
          have hd : d ≠ '/' := fun e => hrest ⟨r, by rw [e]⟩
          exact collapse_slash_keep d r hd
      | cons d cs2 =>
        have hd : d ≠ '/' := by
          intro e
          subst e
          exact hs ⟨[], cs2, rfl⟩
        rw [List.cons_append, List.cons_append, collapse_slash_keep d _ hd]
        rw [← List.cons_append, ih hcs]
        rfl
    · rw [List.cons_append, collapse_keep c _ hc, ih hcs]
      rfl

/-- When the prefix of the router has no doubled slash, every pattern
registered through the router is stored with that prefix in front. -/
theorem normalizeRoute_begins_with_pfx (pre0 pattern : GoString)
    (hno : ¬ ['/', '/'] <:+: normalizeRoute pre0 ['/']) :
    ∃ t, normalizeRoute pattern (normalizeRoute pre0 ['/']) = normalizeRoute pre0 ['/'] ++ t := by
  obtain ⟨⟨t1, h1⟩, ⟨t2, h2⟩⟩ := normalizeRoute_slashes pre0 ['/']
  generalize normalizeRoute pre0 ['/'] = pfx at *
  have hq : strings.TrimRight pfx ['/'] = t2 := by
    rw [h2, strings.TrimRight_snoc_cut '/' t2 ['/'] rfl]
    have h : List.rdropWhile (fun c => List.elem c ['/']) t2 = t2 := by
      rw [List.rdropWhile_eq_self_iff]
      intro hl
      rcases List.eq_nil_or_concat t2 with hn | ⟨u, l, hu⟩
      · exact absurd hn hl
      · have hu2 : t2 = u ++ [l] := by simpa using hu
        subst hu2
        rw [List.getLast_append_singleton]
        have hl2 : l ≠ '/' := by
          intro e
          subst e
          exact hno ⟨u, [], by rw [h2]; simp⟩
        simp [hl2]
    exact h
  cases t2 with
  | nil =>
    obtain ⟨⟨u, hu⟩, -⟩ := normalizeRoute_slashes pattern pfx
    exact ⟨u, by rw [hu, h2]; rfl⟩
  | cons a t3 =>
    have ha : a = '/' := by
      rw [h2] at h1
      simp only [List.cons_append, List.cons.injEq] at h1
      exact h1.1
    subst ha
    have hnp : strings.HasPrefix (strings.TrimLeft pattern ['/']) ('/' :: t3) = false := by
      cases hb : strings.HasPrefix (strings.TrimLeft pattern ['/']) ('/' :: t3) with
      | false => rfl
      | true =>
        exfalso
        unfold strings.HasPrefix at hb
        rw [List.isPrefixOf_iff_prefix] at hb
        obtain ⟨w, hw⟩ := hb
        exact TrimLeft_no_slash pattern ⟨t3 ++ w, by rw [← hw]; rfl⟩
    unfold normalizeRoute
    simp only []
    rw [hq, hnp]
    simp only [Bool.not_false, if_true]
    have hA : strings.HasPrefix ('/' :: t3 ++ '/' :: strings.TrimLeft pattern ['/']) ['/'] = true := by
      rw [List.cons_append, strings.HasPrefix_cons_one]; rfl
    rw [hA]
    simp only [Bool.not_true, Bool.false_eq_true, if_false]
    have hpfx : '/' :: t3 ++ '/' :: strings.TrimLeft pattern ['/']
        = pfx ++ strings.TrimLeft pattern ['/'] := by rw [h2]; simp
    rw [hpfx]
    cases hsuf : strings.HasSuffix (pfx ++ strings.TrimLeft pattern ['/']) ['/'] with
    | true =>
      simp only [Bool.not_true, Bool.false_eq_true, if_false]
      rw [collapse_fixed pfx _ hno (TrimLeft_no_slash pattern)]
      exact ⟨_, rfl⟩
    | false =>
      simp only [Bool.not_false, if_true]
      rw [List.append_assoc, collapse_fixed pfx _ hno]
      · exact ⟨_, rfl⟩
      · rintro ⟨t, ht⟩
        cases hT : strings.TrimLeft pattern ['/'] with
        | nil =>
          rw [hT, List.append_nil, h2, strings.HasSuffix_snoc_one] at hsuf
          simp at hsuf
        | cons d r =>
          rw [hT] at ht
          simp only [List.cons_append, List.cons.injEq] at ht
          exact TrimLeft_no_slash pattern ⟨r, by rw [hT, ht.1]⟩

/-! ## No backtracking -/

/-- The walk of `Load` with its first `i` segments split off. -/
theorem loadWalk_split (segs : List GoString) (i : Nat) (seg : GoString) (root : node)
    (hseg : segs[i]? = some seg) :
    loadWalk segs root [] =
      (loadWalk (segs.take i) root []).bind
        (fun r => loadWalk (seg :: segs.drop (i + 1)) r.1 r.2) := by
  have hi : i < segs.length := by
    by_contra hcon
    rw [List.getElem?_eq_none (by omega)] at hseg
    simp at hseg
  have hsplit : segs = segs.take i ++ seg :: segs.drop (i + 1) := by
    have h1 : segs.drop i = seg :: segs.drop (i + 1) := by
      rw [List.drop_eq_getElem_cons hi]
      rw [List.getElem?_eq_getElem hi] at hseg
      simp only [Option.some.injEq] at hseg
      rw [hseg]
    rw [← h1, List.take_append_drop]
  have := loadWalk_append (segs.take i) (seg :: segs.drop (i + 1)) root []
  rw [← hsplit] at this
  exact this

/-! ## The shared cursor and the index-passing chain -/

theorem runSteps_effects_with (nx : ChainState → Option ChainState)
    (k : List Event → List Event) (steps : List Step) (st : ChainState)
    (h : steps.countP Step.isNext = 0) :
    runSteps nx steps st = some ⟨st.index, runStepsWith k steps st.trace⟩ := by
  induction steps generalizing st with
  | nil => rfl
  | cons x rest ih =>
    cases x with
    | next => simp [List.countP_cons, Step.isNext] at h
    | effect e =>
      have hrest : rest.countP Step.isNext = 0 := by
        simpa [List.countP_cons, Step.isNext] using h
      simp only [runSteps, runStepsWith]
      exact ih ⟨st.index, st.trace ++ [Event.effect e]⟩ hrest

/-- A body with at most one call of `next`, run with the shared cursor, does
what it does with a continuation that agrees with `next` at this cursor. -/
theorem runSteps_at_most_once (nx : ChainState → Option ChainState)
    (k : List Event → List Event) (steps : List Step) (st : ChainState)
    (h : steps.countP Step.isNext ≤ 1)
    (hnx : ∀ st1 : ChainState, st1.index = st.index →
      ∃ idx, nx st1 = some ⟨idx, k st1.trace⟩) :
    ∃ idx, runSteps nx steps st = some ⟨idx, runStepsWith k steps st.trace⟩ := by
  induction steps generalizing st with
  | nil => exact ⟨st.index, rfl⟩
  | cons x rest ih =>
    cases x with
    | next =>
      have hrest : rest.countP Step.isNext = 0 := by
        simp only [List.countP_cons, Step.isNext, if_true] at h
        omega
      obtain ⟨idx, hidx⟩ := hnx st rfl
      refine ⟨idx, ?_⟩
      simp only [runSteps, runStepsWith, hidx]
      exact runSteps_effects_with nx k rest ⟨idx, k st.trace⟩ hrest
    | effect e =>
      have hrest : rest.countP Step.isNext ≤ 1 := by
        simpa [List.countP_cons, Step.isNext] using h
      simp only [runSteps, runStepsWith]
      exact ih ⟨st.index, st.trace ++ [Event.effect e]⟩ hrest (fun st1 h1 => hnx st1 h1)

/-- With middleware that call `next` at most once, the closure `next` at
cursor `i` does what the index-passing chain does at `i`. -/
theorem next_eq_chain (ms : List Middleware) (c : RouteContext)
    (hms : ∀ mw, mw ∈ ms → (mw.Invoke c).countP Step.isNext ≤ 1) (d : Nat) :
    ∀ (i fuel : Nat) (st : ChainState), i + d = ms.length → ms.length ≤ fuel + i →
      st.index = i →
      ∃ idx, next ms c fuel st = some ⟨idx, chain c (ms.drop i) i st.trace⟩ := by
  induction d with
  | zero =>
    intro i fuel st hid _ hst
    have hnone : ms[st.index]? = none := by
      rw [List.getElem?_eq_none]; omega
    have hdrop : ms.drop i = [] := List.drop_eq_nil_of_le (by omega)
    exact ⟨st.index, by rw [next_of_none _ _ _ _ hnone, hdrop]; rfl⟩
  | succ d ih =>
    intro i fuel st hid hfuel hst
    have hlt : i < ms.length := by omega
    have hsome : ms[st.index]? = some (ms[i]) := by
      rw [hst]; exact List.getElem?_eq_getElem hlt
    obtain ⟨f, hf⟩ : ∃ f, fuel = f + 1 := ⟨fuel - 1, by omega⟩
    subst hf
    rw [next_of_some _ _ _ _ _ hsome, List.drop_eq_getElem_cons hlt]
    simp only [chain]
    have hcount := hms (ms[i]) (List.getElem_mem hlt)
    obtain ⟨idx, hidx⟩ :=
      runSteps_at_most_once (next ms c f) (chain c (ms.drop (i + 1)) (i + 1))
        (ms[i].Invoke c) ⟨st.index + 1, st.trace ++ [Event.invoke st.index]⟩ hcount
        (fun st1 hst1 => ih (i + 1) f st1 (by omega) (by omega) (by rw [hst1]; simp [hst]))
    exact ⟨idx, by rw [hidx, hst]⟩

/-! ## Authorization checks -/

theorem anyMatch_iff (valid user : List GoString) :
    anyMatch valid user = true ↔ ∃ x, x ∈ valid ∧ x ∈ user := by
  simp only [anyMatch, List.any_eq_true, beq_iff_eq]
  constructor
  · rintro ⟨x, hx, y, hy, hxy⟩
    exact ⟨x, hx, hxy ▸ hy⟩
  · rintro ⟨x, hx, hy⟩
    exact ⟨x, hx, x, hy, rfl⟩

theorem countP_effects (es : List Effect) :
    (es.map Step.effect).countP Step.isNext = 0 := by
  induction es with
  | nil => rfl
  | cons e rest _ => simp [List.countP_cons, Step.isNext]

theorem countP_effects_next (es : List Effect) :
    (es.map Step.effect ++ [Step.next]).countP Step.isNext = 1 := by
  rw [List.countP_append, countP_effects]; rfl

theorem countP_effects_respond (es : List Effect) (status : Nat) :
    (es.map Step.effect ++ [Step.effect (Effect.respond status)]).countP Step.isNext = 0 := by
  rw [List.countP_append, countP_effects]; rfl

theorem gate_denied (es : List Effect) (P : Prop) (hP : ¬ P) :
    (es.map Step.effect ++ [RouteContext.Forbidden]).countP Step.isNext ≤ 1 ∧
    ((es.map Step.effect ++ [RouteContext.Forbidden]).countP Step.isNext = 1 ↔ P) ∧
    ((es.map Step.effect ++ [RouteContext.Forbidden]).countP Step.isNext = 0 →
      Step.effect (Effect.respond 403) ∈ es.map Step.effect ++ [RouteContext.Forbidden]) := by
  have hc : (es.map Step.effect ++ [RouteContext.Forbidden]).countP Step.isNext = 0 :=
    countP_effects_respond es 403
  rw [hc]
  exact ⟨by omega, ⟨fun h => absurd h (by omega), fun h => absurd h hP⟩,
    fun _ => List.mem_append_right _ (List.mem_singleton_self _)⟩

theorem gate_passed (es : List Effect) (P : Prop) (hP : P) :
    (es.map Step.effect ++ [Step.next]).countP Step.isNext ≤ 1 ∧
    ((es.map Step.effect ++ [Step.next]).countP Step.isNext = 1 ↔ P) ∧
    ((es.map Step.effect ++ [Step.next]).countP Step.isNext = 0 →
      Step.effect (Effect.respond 403) ∈ es.map Step.effect ++ [Step.next]) := by
  rw [countP_effects_next]
  exact ⟨le_refl _, ⟨fun _ => hP, fun _ => rfl⟩, fun h => absurd h (by omega)⟩

/-- With `CheckScopes` configured, `checkScopes` returns what `CheckRoles`
returns on the scopes of the route. -/
theorem checkScopes_custom (o : AuthorizationOptions) (heap : Heap) (c : RouteContext)
    (user : Option ClaimsPrincipal) (ro : RouteOptions)
    (g f : Option ClaimsPrincipal → List GoString → Bool)
    (hrec : c.record heap = some ro) (hg : o.CheckScopes = some g) (hf : o.CheckRoles = some f) :
    authorizationMiddleware.checkScopes ⟨some o⟩ heap c user =
      some (f user ro.Scopes, [Effect.call "CheckRoles".toList ro.Scopes]) := by
  simp [authorizationMiddleware.checkScopes, hrec, hg, hf]

/-! ## `interpolatePermission` -/

theorem slice_some (s : GoString) (i j : Nat) (hij : i ≤ j) (hj : j ≤ s.length) :
    slice s i j = some ((s.drop i).take (j - i)) := by
  have h : (0 : Int) ≤ (i : Int) ∧ (i : Int) ≤ (j : Int) ∧ (j : Int) ≤ (s.length : Int) := by
    omega
  unfold slice
  rw [if_pos h]
  have e : ((j : Int) - (i : Int)).toNat = j - i := by omega
  rw [e, Int.toNat_ofNat]

/-- The loop of `interpolatePermission` never leaves the bounds of the
string: the slice expression does not panic. -/
theorem interpolateFrom_total (EqualFold : GoString → GoString → Bool)
    (replacements : GoMap GoString) (permission : GoString)
    (rest : List Char) :
    ∀ (i : Nat) (result : GoString) (start : Nat) (inP : Bool),
      i + rest.length = permission.length → start ≤ i →
      ∃ v, interpolateFrom EqualFold replacements permission rest i result start inP = some v := by
  induction rest with
  | nil => intro i result start inP _ _; exact ⟨result, rfl⟩
  | cons ch rest ih =>
    intro i result start inP hlen hstart
    have hlen2 : (i + 1) + rest.length = permission.length := by
      simp only [List.length_cons] at hlen; omega
    unfold interpolateFrom
    by_cases h1 : ch = '{'
    · rw [if_pos h1]
      exact ih (i + 1) result (i + 1) true hlen2 (Nat.le_refl _)
    · rw [if_neg h1]
      by_cases h2 : ch = '}' ∧ inP = true
      · rw [if_pos h2, slice_some permission start i hstart (by omega)]
        exact ih (i + 1) _ start false hlen2 (by omega)
      · rw [if_neg h2]
        by_cases h3 : inP = false
        · rw [if_pos h3]
          exact ih (i + 1) _ start inP hlen2 (by omega)
        · rw [if_neg h3]
          exact ih (i + 1) _ start inP hlen2 (by omega)

theorem interpolatePermission_total (EqualFold : GoString → GoString → Bool)
    (replacements : GoMap GoString) (permission : GoString) :
    ∃ v, interpolatePermission EqualFold replacements permission = some v :=
  interpolateFrom_total EqualFold replacements permission permission 0 [] 0 false (by simp) (Nat.le_refl _)

theorem interpolateFrom_cons (EqualFold : GoString → GoString → Bool)
    (replacements : GoMap GoString) (permission : GoString)
    (ch : Char) (rest : List Char) (i : Nat) (result : GoString) (start : Nat) (inP : Bool) :
    interpolateFrom EqualFold replacements permission (ch :: rest) i result start inP =
      if ch = '{' then
        interpolateFrom EqualFold replacements permission rest (i + 1) result (i + 1) true
      else if ch = '}' ∧ inP = true then
        match slice permission start i with
        | none => none
        | some placeholder =>
            interpolateFrom EqualFold replacements permission rest (i + 1)
              (result ++ replaced EqualFold placeholder replacements) start false
      else if inP = false then
        interpolateFrom EqualFold replacements permission rest (i + 1) (result ++ [ch]) start inP
      else
        interpolateFrom EqualFold replacements permission rest (i + 1) result start inP := by
  rw [interpolateFrom]

/-- Outside a placeholder, text without braces is copied. -/
theorem interpolateFrom_copy (EqualFold : GoString → GoString → Bool)
    (replacements : GoMap GoString) (permission : GoString)
    (chunk : List Char) (hopen : '{' ∉ chunk) (hclose : '}' ∉ chunk) :
    ∀ (rest : List Char) (i : Nat) (result : GoString) (start : Nat),
      interpolateFrom EqualFold replacements permission (chunk ++ rest) i result start false =
        interpolateFrom EqualFold replacements permission rest (i + chunk.length) (result ++ chunk)
          start false := by
  induction chunk with
  | nil => intro rest i result start; simp
  | cons ch chunk ih =>
    intro rest i result start
    have h1 : ch ≠ '{' := fun h => hopen (by simp [h])
    have h2 : ch ≠ '}' := fun h => hclose (by simp [h])
    have ho : '{' ∉ chunk := fun h => hopen (List.mem_cons_of_mem _ h)
    have hc : '}' ∉ chunk := fun h => hclose (List.mem_cons_of_mem _ h)
    rw [List.cons_append, interpolateFrom_cons]
    rw [if_neg h1, if_neg (fun h => h2 h.1), if_pos rfl, ih ho hc]
    have e : i + 1 + chunk.length = i + (ch :: chunk).length := by
      simp only [List.length_cons]; omega
    rw [e, List.append_assoc, List.singleton_append]

/-- Inside a placeholder, text without braces is passed over. -/
theorem interpolateFrom_skip (EqualFold : GoString → GoString → Bool)
    (replacements : GoMap GoString) (permission : GoString)
    (chunk : List Char) (hopen : '{' ∉ chunk) (hclose : '}' ∉ chunk) :
    ∀ (rest : List Char) (i : Nat) (result : GoString) (start : Nat),
      interpolateFrom EqualFold replacements permission (chunk ++ rest) i result start true =
        interpolateFrom EqualFold replacements permission rest (i + chunk.length) result start true := by
  induction chunk with
  | nil => intro rest i result start; simp
  | cons ch chunk ih =>
    intro rest i result start
    have h1 : ch ≠ '{' := fun h => hopen (by simp [h])
    have h2 : ch ≠ '}' := fun h => hclose (by simp [h])
    have ho : '{' ∉ chunk := fun h => hopen (List.mem_cons_of_mem _ h)
    have hc : '}' ∉ chunk := fun h => hclose (List.mem_cons_of_mem _ h)
    rw [List.cons_append, interpolateFrom_cons]
    rw [if_neg h1, if_neg (fun h => h2 h.1), if_neg (by simp), ih ho hc]
    have e : i + 1 + chunk.length = i + (ch :: chunk).length := by
      simp only [List.length_cons]; omega
    rw [e]

/-- A permission with one placeholder: the text before, what the map loop
gives for the placeholder name, the text after. -/
theorem interpolatePermission_one (EqualFold : GoString → GoString → Bool)
    (replacements : GoMap GoString) (pre k post : GoString)
    (hpre : '{' ∉ pre ∧ '}' ∉ pre) (hk : '{' ∉ k ∧ '}' ∉ k)
    (hpost : '{' ∉ post ∧ '}' ∉ post) :
    interpolatePermission EqualFold replacements (pre ++ '{' :: (k ++ '}' :: post)) =
      some (pre ++ replaced EqualFold k replacements ++ post) := by
  unfold interpolatePermission
  rw [interpolateFrom_copy _ _ _ pre hpre.1 hpre.2, interpolateFrom_cons]
  rw [if_pos rfl, interpolateFrom_skip _ _ _ k hk.1 hk.2, interpolateFrom_cons]
  rw [if_neg (by decide), if_pos ⟨rfl, rfl⟩]
  rw [slice_some _ (0 + pre.length + 1) (0 + pre.length + 1 + k.length) (by omega)
    (by simp; omega)]
  have hs : (List.drop (0 + pre.length + 1) (pre ++ '{' :: (k ++ '}' :: post))).take
      (0 + pre.length + 1 + k.length - (0 + pre.length + 1)) = k := by
    have e1 : 0 + pre.length + 1 = (pre ++ ['{']).length := by simp
    have e2 : pre ++ '{' :: (k ++ '}' :: post) = (pre ++ ['{']) ++ (k ++ '}' :: post) := by simp
    rw [e2, e1, List.drop_left]
    have e3 : (pre ++ ['{']).length + k.length - (pre ++ ['{']).length = k.length := by omega
    rw [e3, List.take_left]
  simp only [hs]
  have h4 := interpolateFrom_copy EqualFold replacements (pre ++ '{' :: (k ++ '}' :: post)) post
    hpost.1 hpost.2 [] (0 + pre.length + 1 + k.length + 1) ([] ++ pre ++ replaced EqualFold k replacements)
    (0 + pre.length + 1)
  rw [List.append_nil] at h4
  rw [h4]
  simp [interpolateFrom]

/-- The map loop when one key matches the placeholder ignoring case. -/
theorem replaced_of_unique (EqualFold : GoString → GoString → Bool)
    (k key v : GoString) (replacements : GoMap GoString)
    (hget : GoMap.get replacements key = some v) (hfold : EqualFold key k = true)
    (huniq : ∀ key2 v2, (key2, v2) ∈ replacements → EqualFold key2 k = true →
      key2 = key) :
    replaced EqualFold k replacements = v := by
  induction replacements with
  | nil => simp [GoMap.get] at hget
  | cons e rest ih =>
    obtain ⟨k0, v0⟩ := e
    unfold replaced
    by_cases h0 : EqualFold k0 k = true
    · rw [if_pos h0]
      have e0 : k0 = key := huniq k0 v0 (List.mem_cons_self _ _) h0
      subst e0
      simpa [GoMap.get] using hget
    · rw [if_neg h0]
      have hne : k0 ≠ key := fun e0 => h0 (e0 ▸ hfold)
      have hget2 : GoMap.get rest key = some v := by
        simpa [GoMap.get, hne] using hget
      exact ih hget2 (fun key2 v2 hm hf => huniq key2 v2 (List.mem_cons_of_mem _ hm) hf)

/-- The map loop when no key matches the placeholder ignoring case. -/
theorem replaced_of_none (EqualFold : GoString → GoString → Bool)
    (k : GoString) (replacements : GoMap GoString)
    (hnone : ∀ key2 v2, (key2, v2) ∈ replacements → EqualFold key2 k = false) :
    replaced EqualFold k replacements = k := by
  induction replacements with
  | nil => rfl
  | cons e rest ih =>
    obtain ⟨k0, v0⟩ := e
    unfold replaced
    rw [if_neg (by rw [hnone k0 v0 (List.mem_cons_self _ _)]; simp)]
    exact ih (fun key2 v2 hm => hnone key2 v2 (List.mem_cons_of_mem _ hm))

/-! ## `interpolatePermissions` -/

theorem firstSeen_append (result a b : List GoString) :
    firstSeen result (a ++ b) = firstSeen (firstSeen result a) b := by
  induction a generalizing result with
  | nil => rfl
  | cons v a ih =>
    simp only [List.cons_append, firstSeen]
    split <;> exact ih _

theorem firstSeen_nodup (result vals : List GoString) (h : result.Nodup) :
    (firstSeen result vals).Nodup := by
  induction vals generalizing result with
  | nil => exact h
  | cons v vals ih =>
    simp only [firstSeen]
    split
    · exact ih _ h
    · rename_i hv
      exact ih _ (List.nodup_append.2 ⟨h, List.nodup_singleton v, List.disjoint_singleton.2 hv⟩)

theorem mem_firstSeen (result vals : List GoString) (v : GoString) :
    v ∈ firstSeen result vals ↔ v ∈ result ∨ v ∈ vals := by
  induction vals generalizing result with
  | nil => simp [firstSeen]
  | cons w vals ih =>
    simp only [firstSeen]
    split
    · rename_i hw
      rw [ih]
      constructor
      · rintro (h | h)
        · exact Or.inl h
        · exact Or.inr (List.mem_cons_of_mem _ h)
      · rintro (h | h)
        · exact Or.inl h
        · rcases List.mem_cons.mp h with h | h
          · exact Or.inl (h ▸ hw)
          · exact Or.inr h
    · rw [ih]
      simp only [List.mem_append, List.mem_singleton, List.mem_cons]
      tauto

/-- The values are kept in the order of their first occurrence: `all` is the
whole input, `seen` the part already passed; `v` comes before `w` when `v`
occurs in `all` with no `w` ahead of it. -/
theorem firstSeen_ordered (all : List GoString) (vals : List GoString) :
    ∀ (seen result : List GoString), all = seen ++ vals →
      (∀ v, v ∈ result ↔ v ∈ seen) →
      result.Pairwise (fun v w => ∃ a b, all = a ++ v :: b ∧ w ∉ a) →
      (firstSeen result vals).Pairwise (fun v w => ∃ a b, all = a ++ v :: b ∧ w ∉ a) := by
  induction vals with
  | nil => intro seen result _ _ h; exact h
  | cons x vals ih =>
    intro seen result hall hmem hord
    have hall2 : all = (seen ++ [x]) ++ vals := by rw [hall]; simp
    simp only [firstSeen]
    split
    · rename_i hx
      refine ih (seen ++ [x]) result hall2 ?_ hord
      intro v
      rw [hmem v, List.mem_append, List.mem_singleton]
      constructor
      · exact Or.inl
      · rintro (h | h)
        · exact h
        · rw [h]; exact (hmem x).mp hx
    · rename_i hx
      refine ih (seen ++ [x]) (result ++ [x]) hall2 ?_ ?_
      · intro v
        simp only [List.mem_append, List.mem_singleton, hmem v]
      · rw [List.pairwise_append]
        refine ⟨hord, List.pairwise_singleton _ _, ?_⟩
        intro a ha b hb
        rw [List.mem_singleton] at hb
        subst hb
        have ha2 : a ∈ seen := (hmem a).mp ha
        have hb2 : b ∉ seen := fun h => hx ((hmem b).mpr h)
        obtain ⟨s1, s2, hs⟩ := List.append_of_mem ha2
        refine ⟨s1, s2 ++ b :: vals, ?_, ?_⟩
        · rw [hall, hs]; simp
        · intro h
          exact hb2 (by rw [hs]; exact List.mem_append_left _ h)

/-- The inner loop of `interpolatePermissions` on a slice whose items
interpolate to `vals`. -/
theorem interpolateItems_eq (EqualFold : GoString → GoString → Bool)
    (replacements : GoMap GoString) (items vals : List GoString)
    (hvals : items.map (interpolatePermission EqualFold replacements) = vals.map some) :
    ∀ (uniqueMap : GoMap Unit) (result : List GoString),
      (∀ v, (GoMap.get uniqueMap v).isSome = true ↔ v ∈ result) →
      ∃ uniqueMap2, interpolateItems EqualFold replacements items (uniqueMap, result) =
          some (uniqueMap2, firstSeen result vals) ∧
        ∀ v, (GoMap.get uniqueMap2 v).isSome = true ↔ v ∈ firstSeen result vals := by
  induction items generalizing vals with
  | nil =>
    intro uniqueMap result hinv
    cases vals with
    | nil => exact ⟨uniqueMap, rfl, hinv⟩
    | cons v vals => simp at hvals
  | cons item items ih =>
    intro uniqueMap result hinv
    cases vals with
    | nil => simp at hvals
    | cons val vals =>
      simp only [List.map_cons, List.cons.injEq] at hvals
      obtain ⟨hval, hrest⟩ := hvals
      simp only [interpolateItems, hval, firstSeen]
      by_cases hv : val ∈ result
      · have hs : (GoMap.get uniqueMap val).isSome = true := (hinv val).mpr hv
        cases hg : GoMap.get uniqueMap val with
        | none => rw [hg] at hs; simp at hs
        | some u =>
          simp only [if_pos hv]
          exact ih vals hrest uniqueMap result hinv
      · have hs : ¬ (GoMap.get uniqueMap val).isSome = true := fun h => hv ((hinv val).mp h)
        cases hg : GoMap.get uniqueMap val with
        | some u => rw [hg] at hs; simp at hs
        | none =>
          simp only [if_neg hv]
          refine ih vals hrest (GoMap.set uniqueMap val ()) (result ++ [val]) ?_
          intro v
          by_cases hvv : val = v
          · subst hvv
            simp [GoMap.get_set_self]
          · rw [GoMap.get_set_other _ _ _ _ hvv, hinv v]
            simp only [List.mem_append, List.mem_singleton]
            constructor
            · exact Or.inl
            · rintro (h | h)
              · exact h
              · exact absurd h.symm hvv

theorem map_interpolatePermission (EqualFold : GoString → GoString → Bool)
    (replacements : GoMap GoString) (items : List GoString) :
    items.map (interpolatePermission EqualFold replacements) =
      (items.map (fun p => (interpolatePermission EqualFold replacements p).getD [])).map some := by
  rw [List.map_map]
  apply List.map_congr_left
  intro p _
  obtain ⟨v, hv⟩ := interpolatePermission_total EqualFold replacements p
  simp [hv]

/-- The two loops of `interpolatePermissions`. -/
theorem interpolateSlices_eq (EqualFold : GoString → GoString → Bool)
    (replacements : GoMap GoString)
    (slices : List (List GoString)) :
    ∀ (uniqueMap : GoMap Unit) (result : List GoString),
      (∀ v, (GoMap.get uniqueMap v).isSome = true ↔ v ∈ result) →
      ∃ uniqueMap2, interpolateSlices EqualFold replacements slices (uniqueMap, result) =
          some (uniqueMap2, firstSeen result
            (slices.flatten.map (fun p => (interpolatePermission EqualFold replacements p).getD []))) ∧
        ∀ v, (GoMap.get uniqueMap2 v).isSome = true ↔ v ∈ firstSeen result
            (slices.flatten.map (fun p => (interpolatePermission EqualFold replacements p).getD [])) := by
  induction slices with
  | nil => intro uniqueMap result hinv; exact ⟨uniqueMap, rfl, hinv⟩
  | cons items rest ih =>
    intro uniqueMap result hinv
    obtain ⟨u1, h1, hinv1⟩ :=
      interpolateItems_eq EqualFold replacements items _
        (map_interpolatePermission EqualFold replacements items)
        uniqueMap result hinv
    obtain ⟨u2, h2, hinv2⟩ := ih u1 _ hinv1
    refine ⟨u2, ?_, ?_⟩
    · simp only [interpolateSlices, h1, h2, List.flatten_cons, List.map_append, firstSeen_append]
    · simpa only [List.flatten_cons, List.map_append, firstSeen_append] using hinv2

theorem interpolatePermissions_example :
    interpolatePermissions asciiEqualFold [("id".toList, "7".toList)]
        [["doc:{ID}".toList, "read".toList], ["doc:7".toList, "{x}".toList, "read".toList]]
      = some ["doc:7".toList, "read".toList, "x".toList] := by
  rfl

/-! ## The bearer branch of the authentication middleware -/

theorem HasPrefix_append (p s : GoString) : strings.HasPrefix (p ++ s) p = true := by
  unfold strings.HasPrefix
  rw [List.isPrefixOf_iff_prefix]
  exact List.prefix_append p s

theorem TrimPrefix_append (p s : GoString) : strings.TrimPrefix (p ++ s) p = s := by
  unfold strings.TrimPrefix
  rw [if_pos (HasPrefix_append p s), List.drop_left]

/-- The body of `Invoke` for a request with a bearer token on a route that
does not allow anonymous access. -/
theorem Invoke_bearer (m : authenticationMiddleware) (heap : Heap) (now : Int)
    (c : RouteContext) (r : Credentials) (ro : RouteOptions) (o : AuthenticationOptions)
    (f : GoString → Bool) (token : GoString)
    (hrec : c.record heap = some ro) (hanon : ro.AllowAnonymous = false)
    (hauth : r.Authorization = "Bearer ".toList ++ token)
    (hopt : m.options = some o) (hval : o.Validate = some f) :
    authenticationMiddleware.Invoke m heap now c r =
      some [Step.effect (Effect.call "Validate".toList [token]),
        if f token = true then Step.next else Step.effect (Effect.respond 401)] := by
  have hne : r.Authorization ≠ [] := by rw [hauth]; simp
  have hpre : strings.HasPrefix r.Authorization "Bearer ".toList = true := by
    rw [hauth]; exact HasPrefix_append _ _
  have htok : strings.TrimPrefix r.Authorization "Bearer ".toList = token := by
    rw [hauth]; exact TrimPrefix_append _ _
  unfold authenticationMiddleware.Invoke
  simp only [hrec, hanon, Bool.false_eq_true, if_false, if_pos (And.intro hne hpre), htok,
    authenticationMiddleware.isValidBearerToken, hopt, hval]
  cases f token <;> rfl

/-! ## Failing registrations change nothing -/

theorem walkEnd_fresh (n : node) (segs : List GoString) (hc : n.children = [])
    (ho : n.options = []) : (walkEnd n segs).options = [] := by
  induction segs generalizing n with
  | nil => exact ho
  | cons s ss ih =>
    have hs : stepChild n s = freshChild s := by
      simp [stepChild, node.child, hc, GoMap.get]
    simp only [walkEnd, hs]
    exact ih _ (freshChild_children s) (freshChild_options s)

/-- When the node at which the walk of `Register` ends holds options, the
walk created no node: the whole path was there. -/
theorem nodeAt_walkEnd (cur : node) (segs : List GoString) (m : GoString)
    (h : ((walkEnd cur segs).optionsAt m).isSome = true) :
    nodeAt cur (segs.map segmentKey) = some (walkEnd cur segs) := by
  induction segs generalizing cur with
  | nil => rfl
  | cons s ss ih =>
    simp only [walkEnd] at h ⊢
    cases hc : cur.child (segmentKey s) with
    | some c =>
      rw [stepChild_of_child cur c s hc] at h ⊢
      rw [List.map_cons, nodeAt_cons_of_child cur c _ _ hc]
      exact ih c h
    | none =>
      have hs : stepChild cur s = freshChild s := by simp [stepChild, hc]
      rw [hs] at h
      have h0 := walkEnd_fresh (freshChild s) ss (freshChild_children s) (freshChild_options s)
      simp [node.optionsAt, h0, GoMap.get] at h

/-- A `Register` call that returns an error returns the registry it was
given. -/
theorem Register_error_unchanged (rr rr2 : RouteRegistry) (p m : GoString)
    (o : Option RouteOptionsRef) (e : RegisterError)
    (h : Register rr p m o = some (rr2, some e)) :
    rr2 = rr ∧ (e = RegisterError.emptyPattern ∨ e = RegisterError.alreadyExists m p) := by
  by_cases hp : p = []
  · subst hp
    rw [Register_empty] at h
    simp only [Option.some.injEq, Prod.mk.injEq] at h
    exact ⟨h.1.symm, Or.inl h.2.symm⟩
  · have hw := Register_walk rr rr2 p m o (some e) hp h
    have he := registerWalk_error p m o _ _ _ _ hw
    by_cases hs : ((walkEnd rr.root (segmentsOf p)).optionsAt m).isSome = true
    · rw [if_pos hs] at he
      have hd := registerWalk_duplicate p m o (segmentsOf p) rr.root _
        (nodeAt_walkEnd rr.root (segmentsOf p) m hs) hs
      rw [hd] at hw
      simp only [Option.some.injEq, Prod.mk.injEq] at hw he
      refine ⟨?_, Or.inr he⟩
      cases rr; cases rr2
      simp only at hw
      rw [hw.1]
    · rw [if_neg hs] at he
      simp at he

theorem RegisterAll_total (calls : List RegisterCall) (rr : RouteRegistry) :
    ∃ rr2 done, RegisterAll rr calls = some (rr2, done) := by
  induction calls generalizing rr with
  | nil => exact ⟨rr, [], rfl⟩
  | cons c cs ih =>
    obtain ⟨rr1, e, h1⟩ := Register_total rr c.pattern c.method c.options
    obtain ⟨rr2, done, h2⟩ := ih rr1
    cases e with
    | some e => exact ⟨rr2, done, by simp only [RegisterAll, h1, h2]⟩
    | none => exact ⟨rr2, c :: done, by simp only [RegisterAll, h1, h2]⟩

/-! ## The shared cursor only advances -/

theorem invoked_append (a b : List Event) : invoked (a ++ b) = invoked a ++ invoked b := by
  induction a with
  | nil => rfl
  | cons x a ih =>
    cases x <;> simp [invoked, ih]

/-- A body run with a continuation that enters middleware only at positions
from the cursor on and below `n`, in increasing order, and only advances the
cursor, does so itself. -/
theorem runSteps_advances (n : Nat) (nx : ChainState → Option ChainState)
    (hnx : ∀ st1 st2 : ChainState, nx st1 = some st2 →
      ∃ tr, st2.trace = st1.trace ++ tr ∧ st1.index ≤ st2.index ∧
        (∀ j, j ∈ invoked tr → st1.index ≤ j ∧ j < st2.index ∧ j < n) ∧
        (invoked tr).Pairwise (fun i j => i < j))
    (steps : List Step) :
    ∀ st st2 : ChainState, runSteps nx steps st = some st2 →
      ∃ tr, st2.trace = st.trace ++ tr ∧ st.index ≤ st2.index ∧
        (∀ j, j ∈ invoked tr → st.index ≤ j ∧ j < st2.index ∧ j < n) ∧
        (invoked tr).Pairwise (fun i j => i < j) := by
  induction steps with
  | nil =>
    intro st st2 h
    simp only [runSteps, Option.some.injEq] at h
    subst h
    exact ⟨[], by simp, Nat.le_refl _, by simp [invoked], by simp [invoked]⟩
  | cons x rest ih =>
    intro st st2 h
    cases x with
    | next =>
      simp only [runSteps] at h
      cases h1 : nx st with
      | none => simp [h1] at h
      | some st1 =>
        simp only [h1] at h
        obtain ⟨tr1, ht1, hle1, hb1, hp1⟩ := hnx st st1 h1
        obtain ⟨tr2, ht2, hle2, hb2, hp2⟩ := ih st1 st2 h
        refine ⟨tr1 ++ tr2, by rw [ht2, ht1, List.append_assoc], Nat.le_trans hle1 hle2, ?_, ?_⟩
        · intro j hj
          rw [invoked_append, List.mem_append] at hj
          rcases hj with hj | hj
          · have := hb1 j hj; omega
          · have := hb2 j hj; omega
        · rw [invoked_append, List.pairwise_append]
          refine ⟨hp1, hp2, ?_⟩
          intro a ha b hb
          have := hb1 a ha
          have := hb2 b hb
          omega
    | effect e =>
      simp only [runSteps] at h
      obtain ⟨tr, ht, hle, hb, hp⟩ := ih ⟨st.index, st.trace ++ [Event.effect e]⟩ st2 h
      exact ⟨Event.effect e :: tr, by rw [ht]; simp, hle, by simpa [invoked] using hb,
        by simpa [invoked] using hp⟩

/-- The closure `next` enters middleware only at positions of the list from
the cursor on, each position once and in increasing order, whatever the
middleware do. -/
theorem next_advances (ms : List Middleware) (c : RouteContext) (fuel : Nat) :
    ∀ st st2 : ChainState, next ms c fuel st = some st2 →
      ∃ tr, st2.trace = st.trace ++ tr ∧ st.index ≤ st2.index ∧
        (∀ j, j ∈ invoked tr → st.index ≤ j ∧ j < st2.index ∧ j < ms.length) ∧
        (invoked tr).Pairwise (fun i j => i < j) := by
  induction fuel with
  | zero =>
    intro st st2 h
    cases hm : ms[st.index]? with
    | some mw => simp [next, hm] at h
    | none =>
      rw [next_of_none _ _ _ _ hm] at h
      simp only [Option.some.injEq] at h
      subst h
      exact ⟨[Event.handler c], rfl, Nat.le_refl _, by simp [invoked], by simp [invoked]⟩
  | succ f ih =>
    intro st st2 h
    cases hm : ms[st.index]? with
    | none =>
      rw [next_of_none _ _ _ _ hm] at h
      simp only [Option.some.injEq] at h
      subst h
      exact ⟨[Event.handler c], rfl, Nat.le_refl _, by simp [invoked], by simp [invoked]⟩
    | some mw =>
      have hlt : st.index < ms.length := by
        by_contra hcon
        rw [List.getElem?_eq_none (Nat.le_of_not_lt hcon)] at hm
        simp at hm
      rw [next_of_some _ _ _ _ mw hm] at h
      obtain ⟨tr, ht, hle, hb, hp⟩ :=
        runSteps_advances ms.length (next ms c f) ih (mw.Invoke c) _ st2 h
      simp only at ht hle hb
      refine ⟨Event.invoke st.index :: tr, by rw [ht]; simp, by omega, ?_, ?_⟩
      · intro j hj
        simp only [invoked, List.mem_cons] at hj
        rcases hj with hj | hj
        · omega
        · have := hb j hj; omega
      · simp only [invoked, List.pairwise_cons]
        refine ⟨?_, hp⟩
        intro j hj
        have := hb j hj
        omega

/-- A middleware that calls `next` twice, then one that calls it once: the
second call of the first only reaches the handler again. -/
theorem ServeHTTP_next_twice :
    ∃ heap rtr rb,
      (NewRouter "/".toList).GET [] "/a".toList 7 = some (heap, rtr, rb) ∧
      ((rtr.use ⟨fun _ => [Step.next, Step.next]⟩).use ⟨fun _ => [Step.next]⟩).ServeHTTP
          ⟨"GET".toList, "/a".toList⟩
        = some [Event.invoke 0, Event.invoke 1,
            Event.handler ⟨⟨"GET".toList, "/a".toList⟩, some 0, some []⟩,
            Event.handler ⟨⟨"GET".toList, "/a".toList⟩, some 0, some []⟩] :=
  ⟨_, _, _, rfl, rfl⟩

/-! ## Routers built by `Use*` calls -/

theorem useCall_eq (rtr : Router) (env : Env) (u : UseCall) :
    rtr.useCall env u = rtr.use (u.added env) := by
  cases u <;> rfl

/-- Each `Use*` call appends its middleware and leaves the registry alone. -/
theorem useCalls_middleware (env : Env) (us : List UseCall) (rtr : Router) :
    (rtr.useCalls env us).middleware = rtr.middleware ++ us.map (UseCall.added env) ∧
    (rtr.useCalls env us).registry = rtr.registry := by
  induction us generalizing rtr with
  | nil => simp [Router.useCalls]
  | cons u us ih =>
    obtain ⟨h1, h2⟩ := ih (rtr.useCall env u)
    rw [useCall_eq] at h1 h2
    simp only [Router.useCalls, useCall_eq, h1, h2]
    simp [Router.use]

/-- In a trie without `{name}` keys, the walk of `Load` over the text of a
registered pattern binds, beside what was bound before, only `{name}`
segments of the pattern, each under the capture name of the dynamic child
that matched it. -/
theorem loadWalk_self_names (segs : List GoString) (n t : node) (params : RouteParams)
    (hn : NoDynamicKeys n) (ht : nodeAt n (segs.map segmentKey) = some t) :
    ∃ ps, loadWalk segs n params = some (t, ps) ∧
      ∀ k v, GoMap.get ps k = some v →
        GoMap.get params k = some v ∨
        ∃ a b c, segs = a ++ v :: b ∧ isDynamic v = true ∧
          nodeAt n (a.map segmentKey ++ [paramSlot]) = some c ∧ c.paramKey = k := by
  induction segs generalizing n params with
  | nil =>
    simp only [List.map_nil, nodeAt, Option.some.injEq] at ht
    subst ht
    exact ⟨params, rfl, fun k v h => Or.inl h⟩
  | cons seg rest ih =>
    obtain ⟨c, hc, hct⟩ := nodeAt_cons_some _ _ _ _ ht
    have hcn : NoDynamicKeys c := NoDynamicKeys_child _ _ _ hn hc
    by_cases hd : isDynamic seg = true
    · have hc2 : n.child paramSlot = some c := by
        rw [segmentKey_of_dynamic _ hd] at hc; exact hc
      have hnone : n.child seg = none := hn [] n seg rfl hd
      obtain ⟨ps, hps, hbind⟩ := ih c (GoMap.set params c.paramKey seg) hcn hct
      refine ⟨ps, by simp only [loadWalk, hnone, hc2]; exact hps, ?_⟩
      intro k v hkv
      rcases hbind k v hkv with h1 | ⟨a, b, c2, h1, h2, h3, h4⟩
      · by_cases hk : c.paramKey = k
        · subst hk
          rw [GoMap.get_set_self] at h1
          simp only [Option.some.injEq] at h1
          subst h1
          exact Or.inr ⟨[], rest, c, rfl, hd, by simp [nodeAt, hc2], rfl⟩
        · rw [GoMap.get_set_other _ _ _ _ hk] at h1
          exact Or.inl h1
      · refine Or.inr ⟨seg :: a, b, c2, by rw [h1]; rfl, h2, ?_, h4⟩
        rw [List.map_cons, List.cons_append, nodeAt_cons_of_child _ _ _ _ hc]
        exact h3
    · have hd2 : isDynamic seg = false := by simpa using hd
      have hc2 : n.child seg = some c := by
        rw [segmentKey_of_not_dynamic _ hd2] at hc; exact hc
      obtain ⟨ps, hps, hbind⟩ := ih c params hcn hct
      refine ⟨ps, by simp only [loadWalk, hc2]; exact hps, ?_⟩
      intro k v hkv
      rcases hbind k v hkv with h1 | ⟨a, b, c2, h1, h2, h3, h4⟩
      · exact Or.inl h1
      · refine Or.inr ⟨seg :: a, b, c2, by rw [h1]; rfl, h2, ?_, h4⟩
        rw [List.map_cons, List.cons_append, nodeAt_cons_of_child _ _ _ _ hc]
        exact h3

/-! ## Claims -/

/-- C1 (as stated, refuted). With `/a/{x}` and then `/a/b` registered for
GET (options 1 and 2), the path `/a/b` is `/a/{x}` with `{x}` replaced by the
segment `b`, yet `Load` returns the options 2 of the literal route, not the
options 1 stored by the registration of `/a/{x}`. -/
theorem C1_counterexample :
    ∃ rr done,
      RegisterAll NewRouteRegistry
        [⟨"/a/{x}".toList, "GET".toList, some 1⟩, ⟨"/a/b".toList, "GET".toList, some 2⟩]
        = some (rr, done) ∧
      (⟨"/a/{x}".toList, "GET".toList, some 1⟩ : RegisterCall) ∈ done ∧
      instantiates (segmentsOf "/a/{x}".toList) (segmentsOf "/a/b".toList) = true ∧
      Load rr "/a/b".toList "GET".toList = (some 2, some [], true) :=
  ⟨_, _, rfl, List.mem_cons_self _ _, rfl, rfl⟩

/-- C1 (amended). For every registry built by a sequence of `Register` calls,
every call of the sequence that returned no error and registered a non-nil
options pointer `o`, and every path whose segments are those of the pattern
with each `{name}` segment replaced by a non-empty segment without `/`:
provided no replaced segment is the key of a child of the trie node it is
matched at (a child filed under the segment itself takes precedence over the
dynamic child), `Load(path, method)` returns `found = true` with exactly `o`. -/
theorem C1_load_registered (calls : List RegisterCall) (rr : RouteRegistry)
    (done : List RegisterCall)
    (hbuilt : RegisterAll NewRouteRegistry calls = some (rr, done))
    (c : RegisterCall) (hc : c ∈ done) (o : RouteOptionsRef) (ho : c.options = some o)
    (path : GoString)
    (hinst : instantiates (segmentsOf c.pattern) (segmentsOf path) = true)
    (hfree : shadowed rr.root (segmentsOf c.pattern) (segmentsOf path) = false) :
    ∃ params, Load rr path c.method = (some o, some params, true) := by
  obtain ⟨t, ht, hto⟩ := RegisterAll_stored calls _ _ _ hbuilt c hc o ho
  obtain ⟨ps, hps⟩ := loadWalk_follows _ _ _ _ [] ht hinst hfree
  exact ⟨ps, Load_of_walk rr path c.method t ps o hps hto⟩

/-- C1 witness: `/a/{x}` then `/a/b` registered for GET; the path `/a/c`
resolves to the options of `/a/{x}`. -/
theorem C1_load_registered_witness :
    ∃ rr done,
      RegisterAll NewRouteRegistry
        [⟨"/a/{x}".toList, "GET".toList, some 1⟩, ⟨"/a/b".toList, "GET".toList, some 2⟩]
        = some (rr, done) ∧
      ∃ params, Load rr "/a/c".toList "GET".toList = (some 1, some params, true) :=
  ⟨_, _, rfl,
    C1_load_registered
      [⟨"/a/{x}".toList, "GET".toList, some 1⟩, ⟨"/a/b".toList, "GET".toList, some 2⟩]
      _ _ rfl ⟨"/a/{x}".toList, "GET".toList, some 1⟩ (List.mem_cons_self _ _) 1 rfl
      "/a/c".toList rfl rfl⟩

/-- C2. In every registry a program can hold, for every pattern `p`, method
`m` and options record `o1` (a non-nil pointer): if `Register(p, m, o1)`
returns no error (so `p` is non-empty), a following `Register(p, m, o2)`, for
any pointer `o2`, returns an error, and afterwards `Load(p, m)` returns
`found = true` with `o1`. -/
theorem C2_duplicate_rejected (rr rr1 : RouteRegistry) (hr : Reachable rr)
    (p m : GoString) (o1 : RouteOptionsRef) (o2 : Option RouteOptionsRef)
    (h1 : Register rr p m (some o1) = some (rr1, none)) :
    ∃ rr2 e, Register rr1 p m o2 = some (rr2, some e) ∧
      ∃ params, Load rr2 p m = (some o1, some params, true) := by
  have hp := Register_pattern_ne _ _ _ _ _ h1
  obtain ⟨t, ht, hto⟩ := Register_stored _ _ _ _ _ h1
  have hdup := registerWalk_duplicate p m o2 _ _ t ht (by simp [hto])
  have hk : NoDynamicKeys rr1.root :=
    Register_noDynamicKeys _ _ _ _ _ _ (Reachable_noDynamicKeys rr hr) h1
  obtain ⟨ps, hps, -, -⟩ := loadWalk_self _ _ t [] hk ht
  exact ⟨⟨rr1.root⟩, _, Register_of_walk rr1 p m o2 _ _ hp hdup, ps,
    Load_of_walk _ p m t ps o1 hps hto⟩

/-- C2 witness: `/a/{x}` registered twice for GET on a new registry. -/
theorem C2_duplicate_rejected_witness :
    ∃ rr1, Register NewRouteRegistry "/a/{x}".toList "GET".toList (some 1) = some (rr1, none) ∧
      ∃ rr2 e, Register rr1 "/a/{x}".toList "GET".toList (some 2) = some (rr2, some e) ∧
        ∃ params, Load rr2 "/a/{x}".toList "GET".toList = (some 1, some params, true) :=
  ⟨_, rfl, C2_duplicate_rejected NewRouteRegistry _ ⟨[], [], rfl⟩
    "/a/{x}".toList "GET".toList 1 (some 2) rfl⟩

/-- C3 (as stated, refuted). With `/{x}/s` and `/{x}/{x}` registered for GET
(parent prefix `/{x}`, literal segment `s`, capture name `x`),
`Load("/{x}/s", GET)` returns the options of the literal route together with
a params map that does bind `x` (to the path segment `{x}` of the prefix).
The same happens when the prefix is `/{t}` and its dynamic child was created
with the name `x` by an earlier registration of `/{x}/q`. -/
theorem C3_counterexample :
    (∃ rr done,
      RegisterAll NewRouteRegistry
        [⟨"/{x}/s".toList, "GET".toList, some 1⟩, ⟨"/{x}/{x}".toList, "GET".toList, some 2⟩]
        = some (rr, done) ∧
      done.length = 2 ∧
      Load rr "/{x}/s".toList "GET".toList = (some 1, some [("x".toList, "{x}".toList)], true) ∧
      GoMap.get [("x".toList, "{x}".toList)] "x".toList = some "{x}".toList) ∧
    (∃ rr done,
      RegisterAll NewRouteRegistry
        [⟨"/{x}/q".toList, "GET".toList, some 0⟩, ⟨"/{t}/s".toList, "GET".toList, some 1⟩,
          ⟨"/{t}/{x}".toList, "GET".toList, some 2⟩]
        = some (rr, done) ∧
      done.length = 3 ∧
      Load rr "/{t}/s".toList "GET".toList = (some 1, some [("x".toList, "{t}".toList)], true) ∧
      GoMap.get [("x".toList, "{t}".toList)] "x".toList = some "{t}".toList) :=
  ⟨⟨_, _, rfl, rfl, rfl, rfl⟩, ⟨_, _, rfl, rfl, rfl, rfl⟩⟩

/-- C3 (amended). In a registry built by `Register` calls in which a literal
pattern with segments `pre ++ [s]` and a dynamic pattern with segments
`pre ++ [d]` (`d` of the form `{x}`) were both registered for `m` without
error, in either order: the node of the prefix has both the child `s` and the
dynamic child, and `Load` of the literal pattern returns the literal route's
options together with exactly the params map the walk of the prefix collects
(matching `s` adds no binding). So every binding is of a `{name}` segment of
the prefix under the capture name of the dynamic child that matched it, no
name is bound to `s`, a name `x` is not bound unless a dynamic child along
the prefix carries the name `x`, and the map is empty when the prefix has no
`{name}` segment. -/
theorem C3_static_precedence (calls : List RegisterCall) (rr : RouteRegistry)
    (done : List RegisterCall)
    (hbuilt : RegisterAll NewRouteRegistry calls = some (rr, done))
    (pL pD m : GoString) (oL oD : RouteOptionsRef)
    (pre : List GoString) (s d : GoString)
    (hL : (⟨pL, m, some oL⟩ : RegisterCall) ∈ done)
    (hD : (⟨pD, m, some oD⟩ : RegisterCall) ∈ done)
    (hsegL : segmentsOf pL = pre ++ [s]) (hsegD : segmentsOf pD = pre ++ [d])
    (hs : isDynamic s = false) (hd : isDynamic d = true) :
    (∃ n, nodeAt rr.root (pre.map segmentKey) = some n ∧
      (n.child s).isSome = true ∧ (n.child paramSlot).isSome = true) ∧
    ∃ params, Load rr pL m = (some oL, some params, true) ∧
      (∃ n, loadWalk pre rr.root [] = some (n, params)) ∧
      (∀ k v, GoMap.get params k = some v →
        ∃ a b c, pre = a ++ v :: b ∧ isDynamic v = true ∧
          nodeAt rr.root (a.map segmentKey ++ [paramSlot]) = some c ∧ c.paramKey = k) ∧
      (∀ k, GoMap.get params k ≠ some s) ∧
      (∀ x, (∀ a v b c, pre = a ++ v :: b → isDynamic v = true →
          nodeAt rr.root (a.map segmentKey ++ [paramSlot]) = some c → c.paramKey ≠ x) →
        GoMap.get params x = none) ∧
      ((∀ q ∈ pre, isDynamic q = false) → params = []) := by
  obtain ⟨t, ht, hto⟩ := RegisterAll_stored calls _ _ _ hbuilt _ hL oL rfl
  obtain ⟨tD, htD, -⟩ := RegisterAll_stored calls _ _ _ hbuilt _ hD oD rfl
  have hk : NoDynamicKeys rr.root := Reachable_noDynamicKeys rr ⟨calls, done, hbuilt⟩
  simp only [hsegL, RegisterCall.pattern, List.map_append, List.map_cons, List.map_nil,
    segmentKey_of_not_dynamic _ hs] at ht
  simp only [hsegD, RegisterCall.pattern, List.map_append, List.map_cons, List.map_nil,
    segmentKey_of_dynamic _ hd] at htD
  obtain ⟨n, hn, hns⟩ := nodeAt_snoc_some _ _ _ _ ht
  obtain ⟨n2, hn2, hnd⟩ := nodeAt_snoc_some _ _ _ _ htD
  rw [hn] at hn2
  simp only [Option.some.injEq] at hn2
  subst hn2
  obtain ⟨ps, hps, hnames⟩ := loadWalk_self_names pre rr.root n [] hk hn
  obtain ⟨ps2, hps2, -, hsame⟩ := loadWalk_self pre rr.root n [] hk hn
  rw [hps] at hps2
  simp only [Option.some.injEq, Prod.mk.injEq, true_and] at hps2
  subst hps2
  have hbound : ∀ k v, GoMap.get ps k = some v →
      ∃ a b c, pre = a ++ v :: b ∧ isDynamic v = true ∧
        nodeAt rr.root (a.map segmentKey ++ [paramSlot]) = some c ∧ c.paramKey = k := by
    intro k v hkv
    rcases hnames k v hkv with h1 | h1
    · simp [GoMap.get] at h1
    · exact h1
  have hwalk : loadWalk (segmentsOf pL) rr.root [] = some (t, ps) := by
    rw [hsegL, loadWalk_append, hps]
    simp [loadWalk, hns]
  refine ⟨⟨n, hn, by simp [hns], by simp [hnd]⟩, ps,
    Load_of_walk _ pL m t ps oL hwalk hto, ⟨n, hps⟩, hbound, ?_, ?_, hsame⟩
  · intro k hks
    obtain ⟨a, b, c, -, h2, -, -⟩ := hbound k s hks
    rw [hs] at h2
    simp at h2
  · intro x hx
    cases hg : GoMap.get ps x with
    | none => rfl
    | some v =>
      obtain ⟨a, b, c, h1, h2, h3, h4⟩ := hbound x v hg
      exact absurd h4 (hx a v b c h1 h2 h3)

/-- C3 witness: `/a/b` and `/a/{x}` registered for GET, in both orders:
`/a/b` resolves to the options of `/a/b` with an empty params map. And
`/{t}/s` and `/{t}/{x}` registered for GET: `/{t}/s` resolves to the options
of `/{t}/s`, with `t` bound by the prefix and `x` not bound. -/
theorem C3_static_precedence_witness :
    (∃ rr done,
      RegisterAll NewRouteRegistry
        [⟨"/a/b".toList, "GET".toList, some 1⟩, ⟨"/a/{x}".toList, "GET".toList, some 2⟩]
        = some (rr, done) ∧
      Load rr "/a/b".toList "GET".toList = (some 1, some [], true)) ∧
    (∃ rr done,
      RegisterAll NewRouteRegistry
        [⟨"/a/{x}".toList, "GET".toList, some 2⟩, ⟨"/a/b".toList, "GET".toList, some 1⟩]
        = some (rr, done) ∧
      Load rr "/a/b".toList "GET".toList = (some 1, some [], true)) ∧
    (∃ rr done,
      RegisterAll NewRouteRegistry
        [⟨"/{t}/s".toList, "GET".toList, some 1⟩, ⟨"/{t}/{x}".toList, "GET".toList, some 2⟩]
        = some (rr, done) ∧
      ∃ params, Load rr "/{t}/s".toList "GET".toList = (some 1, some params, true) ∧
        GoMap.get params "x".toList = none) := by
  refine ⟨⟨_, _, rfl, ?_⟩, ⟨_, _, rfl, ?_⟩, ⟨_, _, rfl, ?_⟩⟩
  · obtain ⟨-, params, hl, -, -, -, -, hempty⟩ :=
      C3_static_precedence
        [⟨"/a/b".toList, "GET".toList, some 1⟩, ⟨"/a/{x}".toList, "GET".toList, some 2⟩]
        _ _ rfl "/a/b".toList "/a/{x}".toList "GET".toList 1 2
        ["a".toList] "b".toList "{x}".toList
        (List.mem_cons_self _ _) (List.mem_cons_of_mem _ (List.mem_cons_self _ _))
        rfl rfl rfl rfl
    rw [hl, hempty (by decide)]
  · obtain ⟨-, params, hl, -, -, -, -, hempty⟩ :=
      C3_static_precedence
        [⟨"/a/{x}".toList, "GET".toList, some 2⟩, ⟨"/a/b".toList, "GET".toList, some 1⟩]
        _ _ rfl "/a/b".toList "/a/{x}".toList "GET".toList 1 2
        ["a".toList] "b".toList "{x}".toList
        (List.mem_cons_of_mem _ (List.mem_cons_self _ _)) (List.mem_cons_self _ _)
        rfl rfl rfl rfl
    rw [hl, hempty (by decide)]
  · obtain ⟨-, params, hl, -, -, -, hx, -⟩ :=
      C3_static_precedence
        [⟨"/{t}/s".toList, "GET".toList, some 1⟩, ⟨"/{t}/{x}".toList, "GET".toList, some 2⟩]
        ((RegisterAll NewRouteRegistry
          [⟨"/{t}/s".toList, "GET".toList, some 1⟩,
            ⟨"/{t}/{x}".toList, "GET".toList, some 2⟩]).get rfl).1
        ((RegisterAll NewRouteRegistry
          [⟨"/{t}/s".toList, "GET".toList, some 1⟩,
            ⟨"/{t}/{x}".toList, "GET".toList, some 2⟩]).get rfl).2
        rfl "/{t}/s".toList "/{t}/{x}".toList "GET".toList 1 2
        ["{t}".toList] "s".toList "{x}".toList
        (List.mem_cons_self _ _) (List.mem_cons_of_mem _ (List.mem_cons_self _ _))
        rfl rfl rfl rfl
    refine ⟨params, hl, hx "x".toList ?_⟩
    intro a v b c h1 _ h3
    cases a with
    | nil =>
      have hk : (nodeAt ((RegisterAll NewRouteRegistry
          [⟨"/{t}/s".toList, "GET".toList, some 1⟩,
            ⟨"/{t}/{x}".toList, "GET".toList, some 2⟩]).get rfl).1.root
          (List.map segmentKey [] ++ [paramSlot])).map node.paramKey = some "t".toList := rfl
      rw [h3] at hk
      simp only [Option.map_some', Option.some.injEq] at hk
      rw [hk]
      decide
    | cons a0 a2 =>
      simp only [List.cons_append, List.cons.injEq] at h1
      exact absurd h1.2 (by simp)

/-- C5. For every registry, path and method: if at some depth `i` of the
walk the current node has neither a child keyed by the segment of the path at
that depth nor a dynamic child, `Load` returns `(nil, nil, false)`. -/
theorem C5_no_child_not_found (rr : RouteRegistry) (path m : GoString) (i : Nat)
    (seg : GoString) (n : node) (ps : RouteParams)
    (hseg : (segmentsOf path)[i]? = some seg)
    (hwalk : loadWalk ((segmentsOf path).take i) rr.root [] = some (n, ps))
    (hlit : n.child seg = none) (hdyn : n.child paramSlot = none) :
    Load rr path m = (none, none, false) :=
  Load_of_walk_none rr path m
    (loadWalk_dead_end _ i seg rr.root n ps hseg hwalk hlit hdyn)

/-- C5 witness: only `/a/b` is registered; on the path `/a/c/d` the node of
`a`, reached at depth 1, has neither a child `c` nor a dynamic child. -/
theorem C5_no_child_not_found_witness :
    ∃ rr, Register NewRouteRegistry "/a/b".toList "GET".toList (some 1) = some (rr, none) ∧
      Load rr "/a/c/d".toList "GET".toList = (none, none, false) :=
  ⟨_, rfl,
    C5_no_child_not_found _ "/a/c/d".toList "GET".toList 1 "c".toList
      (node.mk [("b".toList, node.mk [] [("GET".toList, some 1)] false [])] [] false []) []
      rfl rfl rfl rfl⟩

/-- C6. For every registry, path and method: when the walk consumes all
segments of the path and the node it ends at holds no options for the method
(whatever it holds for other methods), `Load` returns `(nil, nil, false)`,
the very result it returns for any path, and any method, whose walk fails. -/
theorem C6_method_missing_not_found (rr : RouteRegistry) (path m : GoString)
    (t : node) (ps : RouteParams)
    (hwalk : loadWalk (segmentsOf path) rr.root [] = some (t, ps))
    (hnone : t.optionsAt m = none) :
    Load rr path m = (none, none, false) ∧
      ∀ path2 m2, loadWalk (segmentsOf path2) rr.root [] = none →
        Load rr path2 m2 = Load rr path m := by
  have h := Load_of_options_none rr path m t ps hwalk hnone
  exact ⟨h, fun path2 m2 h2 => by rw [h, Load_of_walk_none rr path2 m2 h2]⟩

/-- C6 witness: `/a` is registered for GET only; `Load("/a", POST)` ends at
the node of `a`, which holds options for GET but none for POST. -/
theorem C6_method_missing_not_found_witness :
    ∃ rr, Register NewRouteRegistry "/a".toList "GET".toList (some 1) = some (rr, none) ∧
      Load rr "/a".toList "GET".toList = (some 1, some [], true) ∧
      Load rr "/a".toList "POST".toList = (none, none, false) ∧
      ∀ path2 m2, loadWalk (segmentsOf path2) rr.root [] = none →
        Load rr path2 m2 = Load rr "/a".toList "POST".toList :=
  ⟨_, rfl, rfl,
    C6_method_missing_not_found _ "/a".toList "POST".toList
      (node.mk [] [("GET".toList, some 1)] false []) [] rfl rfl⟩

/-- C7. For every registry, method and options pointer, `Register("", method,
options)` returns the empty-pattern error (and leaves the registry as it is). -/
theorem C7_empty_pattern_rejected (rr : RouteRegistry) (m : GoString)
    (o : Option RouteOptionsRef) :
    Register rr [] m o = some (rr, some RegisterError.emptyPattern) :=
  Register_empty rr m o

/-- C8. For every pattern `p`, distinct methods `m1`, `m2` and options
records `o1`, `o2`, in every registry a program can hold in which `(p, m2)`
is still free (registering it would return no error): after
`Register(p, m1, o1)` returned no error (so `p` is non-empty),
`Register(p, m2, o2)` returns no error either, and then `Load(p, m1)` returns
`o1` and `Load(p, m2)` returns `o2`. -/
theorem C8_methods_do_not_conflict (rr rr1 : RouteRegistry) (hr : Reachable rr)
    (p m1 m2 : GoString) (hne : m1 ≠ m2) (o1 o2 : RouteOptionsRef)
    (hfree : ∃ rrx, Register rr p m2 (some o2) = some (rrx, none))
    (h1 : Register rr p m1 (some o1) = some (rr1, none)) :
    ∃ rr2, Register rr1 p m2 (some o2) = some (rr2, none) ∧
      (∃ params, Load rr2 p m1 = (some o1, some params, true)) ∧
      (∃ params, Load rr2 p m2 = (some o2, some params, true)) := by
  have hp := Register_pattern_ne _ _ _ _ _ h1
  have w1 := Register_walk _ _ _ _ _ _ hp h1
  obtain ⟨rrx, hx⟩ := hfree
  have wx := Register_walk _ _ _ _ _ _ hp hx
  have hfree2 : ((walkEnd rr.root (segmentsOf p)).optionsAt m2).isSome = false := by
    have := registerWalk_error _ _ _ _ _ _ _ wx
    cases hb : ((walkEnd rr.root (segmentsOf p)).optionsAt m2).isSome with
    | false => rfl
    | true => rw [hb] at this; simp at this
  obtain ⟨n, e, w2⟩ := registerWalk_total p m2 (some o2) (segmentsOf p) rr1.root
  have he : e = none := by
    have := registerWalk_error _ _ _ _ _ _ _ w2
    rw [registerWalk_walkEnd _ _ _ _ _ _ w1,
      node.optionsAt_setOptions_other _ _ _ _ hne, hfree2] at this
    simpa using this
  subst he
  have h2 := Register_of_walk rr1 p m2 (some o2) n none hp w2
  have hk : NoDynamicKeys (RouteRegistry.mk n).root :=
    Register_noDynamicKeys _ _ _ _ _ _
      (Register_noDynamicKeys _ _ _ _ _ _ (Reachable_noDynamicKeys rr hr) h1) h2
  refine ⟨⟨n⟩, h2, ?_, ?_⟩
  · obtain ⟨t, ht, hto⟩ := Register_stored _ _ _ _ _ h1
    obtain ⟨t2, ht2, hto2⟩ := Register_mono _ _ _ _ _ _ h2 _ t m1 o1 ht hto
    obtain ⟨ps, hps, -, -⟩ := loadWalk_self _ _ t2 [] hk ht2
    exact ⟨ps, Load_of_walk _ p m1 t2 ps o1 hps hto2⟩
  · obtain ⟨t, ht, hto⟩ := Register_stored _ _ _ _ _ h2
    obtain ⟨ps, hps, -, -⟩ := loadWalk_self _ _ t [] hk ht
    exact ⟨ps, Load_of_walk _ p m2 t ps o2 hps hto⟩

/-- C8 witness: HEAD and GET on `/resources/{resourceId}` in a new registry. -/
theorem C8_methods_do_not_conflict_witness :
    ∃ rr1,
      Register NewRouteRegistry "/resources/{resourceId}".toList "HEAD".toList (some 1)
        = some (rr1, none) ∧
      ∃ rr2, Register rr1 "/resources/{resourceId}".toList "GET".toList (some 2)
          = some (rr2, none) ∧
        (∃ params, Load rr2 "/resources/{resourceId}".toList "HEAD".toList
          = (some 1, some params, true)) ∧
        (∃ params, Load rr2 "/resources/{resourceId}".toList "GET".toList
          = (some 2, some params, true)) :=
  ⟨_, rfl,
    C8_methods_do_not_conflict NewRouteRegistry _ ⟨[], [], rfl⟩
      "/resources/{resourceId}".toList "HEAD".toList "GET".toList (by decide) 1 2
      ⟨_, rfl⟩ rfl⟩

/-- C4 (the code at the failing input). With only
`/tenants/{tenantId}/resources/{resourceId}` registered, the request path
`/tenants/*param/resources/5` (a = `*param`, b = `5`) is found, but the
segment `*param` is matched by the test for a literal child, which finds the
dynamic child under the reserved key, so `tenantId` is not bound: the params
are `{resourceId: "5"}` instead of `{tenantId: "*param", resourceId: "5"}`;
for a = `8` the params are as claimed. -/
theorem C4_reserved_key_segment :
    ∃ rr,
      Register NewRouteRegistry "/tenants/{tenantId}/resources/{resourceId}".toList
        "GET".toList (some 1) = some (rr, none) ∧
      Load rr "/tenants/*param/resources/5".toList "GET".toList
        = (some 1, some [("resourceId".toList, "5".toList)], true) ∧
      Load rr "/tenants/8/resources/5".toList "GET".toList
        = (some 1, some [("tenantId".toList, "8".toList), ("resourceId".toList, "5".toList)],
            true) :=
  ⟨_, rfl, rfl, rfl⟩

/-- C9. For every registry, path and method, `Load` gives the same result for
the path with leading and trailing `/` added or removed: for `"/" + path +
"/"`, for `Trim(path, "/")`, and for the path with any number of `/` put in
front and behind. A route registered as
`/api/v1/tenants/{tenantId}/resources/` is resolved by the request path
`/api/v1/tenants/8/resources`. -/
theorem C9_slashes_ignored (rr : RouteRegistry) (path m : GoString) (i j : Nat) :
    Load rr ('/' :: (path ++ ['/'])) m = Load rr path m ∧
    Load rr (strings.Trim path ['/']) m = Load rr path m ∧
    Load rr (List.replicate i '/' ++ path ++ List.replicate j '/') m = Load rr path m ∧
    ∃ reg,
      Register NewRouteRegistry "/api/v1/tenants/{tenantId}/resources/".toList
        "GET".toList (some 1) = some (reg, none) ∧
      Load reg "/api/v1/tenants/8/resources".toList "GET".toList
        = (some 1, some [("tenantId".toList, "8".toList)], true) := by
  refine ⟨?_, ?_, ?_, _, rfl, rfl⟩
  · apply Load_congr_Trim
    rw [strings.Trim_cons_cut '/' _ ['/'] rfl, strings.Trim_snoc_cut '/' _ ['/'] rfl]
  · apply Load_congr_Trim
    exact strings.Trim_idem path _
  · apply Load_congr_Trim
    rw [strings.Trim_append_replicate '/' _ _ ['/'] rfl,
      strings.Trim_replicate_append '/' _ _ ['/'] rfl]

/-- C10 (the code at the failing input). The segment `*param` is not of the
form `{name}`, so `Register` files the route `/*param` under its static
branch, with an empty capture name; the child key it uses is the reserved key
of the dynamic child, so `Load` resolves the path `/xyz`, whose segment is
not `*param`, to that route and binds the segment under the empty name. -/
theorem C10_reserved_key_literal :
    isDynamic "*param".toList = false ∧
    ∃ rr,
      Register NewRouteRegistry "/*param".toList "GET".toList (some 1) = some (rr, none) ∧
      Load rr "/xyz".toList "GET".toList
        = (some 1, some [("".toList, "xyz".toList)], true) :=
  ⟨rfl, _, rfl, rfl⟩

/-- The capture name of a dynamic slot is fixed when the slot is created: if
the position `pre` has no dynamic child and a pattern with `{x}` at that
position is registered, then after any later `Register` calls (among them
routes with `{y}` at the same position) the dynamic child at that position
still has the capture name `x`, and every walk of `Load` that reaches it for
a segment that is not the key of a child (the branch `Parameter match`) binds
the segment under `x`, and changes the binding of no other name `y`. The
segment `*param` is the key of that child itself and is not covered. -/
theorem slot_capture_name_fixed (rr0 rr1 rr2 : RouteRegistry) (p m : GoString)
    (o : Option RouteOptionsRef) (e : Option RegisterError)
    (pre rest : List GoString) (x : GoString) (calls done : List RegisterCall)
    (hfresh : nodeAt rr0.root (pre.map segmentKey ++ [paramSlot]) = none)
    (hseg : segmentsOf p = pre ++ ('{' :: (x ++ ['}'])) :: rest)
    (h1 : Register rr0 p m o = some (rr1, e))
    (hlater : RegisterAll rr1 calls = some (rr2, done)) :
    ∃ t, nodeAt rr2.root (pre.map segmentKey ++ [paramSlot]) = some t ∧ t.paramKey = x ∧
      ∀ n v tail params, nodeAt rr2.root (pre.map segmentKey) = some n →
        n.child v = none →
        loadWalk (v :: tail) n params = loadWalk tail t (GoMap.set params x v) ∧
        ∀ y, y ≠ x → GoMap.get (GoMap.set params x v) y = GoMap.get params y := by
  have hp : p ≠ [] := by
    intro hp
    subst hp
    have h0 : segmentsOf [] = [[]] := rfl
    rw [h0] at hseg
    cases pre with
    | nil => simp at hseg
    | cons a pre2 =>
      simp only [List.cons_append, List.cons.injEq] at hseg
      have := congrArg List.length hseg.2
      simp at this
      omega
  have hw := Register_walk _ _ _ _ _ _ hp h1
  rw [hseg] at hw
  obtain ⟨t1, ht1, hk1⟩ :=
    registerWalk_creates_slot _ _ _ pre rest _ _ _ _ (isDynamic_braces x) hfresh hw
  rw [inner_braces] at hk1
  obtain ⟨t, ht, hk⟩ := RegisterAll_paramKey calls _ _ _ hlater _ t1 ht1
  refine ⟨t, ht, hk.trans hk1, ?_⟩
  intro n v tail params hn hv
  obtain ⟨n2, hn2, hslot⟩ := nodeAt_snoc_some _ _ _ _ ht
  rw [hn] at hn2
  simp only [Option.some.injEq] at hn2
  subst hn2
  refine ⟨?_, fun y hy => GoMap.get_set_other _ _ _ _ (Ne.symm hy)⟩
  rw [loadWalk_param_step n t v tail params hv hslot, hk.trans hk1]

/-- Example: `/a/{x}` registered on a new registry, then `/a/{y}/b`; the
dynamic child below `a` keeps the name `x`, and `/a/v/b` binds `x`. -/
theorem slot_capture_name_fixed_example :
    ∃ rr1 rr2 done,
      Register NewRouteRegistry "/a/{x}".toList "GET".toList (some 1) = some (rr1, none) ∧
      RegisterAll rr1 [⟨"/a/{y}/b".toList, "GET".toList, some 2⟩] = some (rr2, done) ∧
      Load rr2 "/a/v/b".toList "GET".toList = (some 2, some [("x".toList, "v".toList)], true) ∧
      ∃ t, nodeAt rr2.root (["a".toList].map segmentKey ++ [paramSlot]) = some t ∧
        t.paramKey = "x".toList ∧
        ∀ n v tail params, nodeAt rr2.root (["a".toList].map segmentKey) = some n →
          n.child v = none →
          loadWalk (v :: tail) n params = loadWalk tail t (GoMap.set params "x".toList v) ∧
          ∀ y, y ≠ "x".toList →
            GoMap.get (GoMap.set params "x".toList v) y = GoMap.get params y :=
  ⟨_, _, _, rfl, rfl, rfl,
    slot_capture_name_fixed NewRouteRegistry _ _ "/a/{x}".toList "GET".toList (some 1) none
      ["a".toList] [] "x".toList [⟨"/a/{y}/b".toList, "GET".toList, some 2⟩] _
      rfl rfl rfl rfl⟩

/-- C11 (the code at the failing input). `/a/{x}` is registered for GET, then
`/a/{y}/b`: the dynamic child below `a` keeps the capture name `x`, and
`/a/v/b` binds `x`. The paths `/a/*param` and `/a/*param/b` are resolved
through that same child, which `Load` finds under the key `*param` in its
first test (`Static match`), and nothing is bound for the segment: neither
under `x` nor under `y`. -/
theorem C11_reserved_key_through_slot :
    ∃ rr done,
      RegisterAll NewRouteRegistry
        [⟨"/a/{x}".toList, "GET".toList, some 1⟩, ⟨"/a/{y}/b".toList, "GET".toList, some 2⟩]
        = some (rr, done) ∧
      done.length = 2 ∧
      (∃ n t, nodeAt rr.root ["a".toList] = some n ∧ n.child paramSlot = some t ∧
        n.child "*param".toList = some t ∧ t.paramKey = "x".toList) ∧
      Load rr "/a/v".toList "GET".toList = (some 1, some [("x".toList, "v".toList)], true) ∧
      Load rr "/a/v/b".toList "GET".toList = (some 2, some [("x".toList, "v".toList)], true) ∧
      Load rr "/a/*param".toList "GET".toList = (some 1, some [], true) ∧
      Load rr "/a/*param/b".toList "GET".toList = (some 2, some [], true) :=
  ⟨_, _, rfl, rfl, ⟨_, _, rfl, rfl, rfl, rfl⟩, rfl, rfl, rfl, rfl⟩

/-- C12 (as stated, refuted). `/a/{x}` is registered for GET, then `/a/{y}`
for POST at the same depth; `Load("/a/v", GET)`, a path of the route
registered first, still binds the segment under `x`, and `y` is unbound. -/
theorem C12_counterexample :
    ∃ rr done,
      RegisterAll NewRouteRegistry
        [⟨"/a/{x}".toList, "GET".toList, some 1⟩, ⟨"/a/{y}".toList, "POST".toList, some 2⟩]
        = some (rr, done) ∧
      done.length = 2 ∧
      Load rr "/a/v".toList "GET".toList = (some 1, some [("x".toList, "v".toList)], true) ∧
      GoMap.get [("x".toList, "v".toList)] "y".toList = none :=
  ⟨_, _, rfl, rfl, rfl, rfl⟩

/-- C12 (amended). When a route with `{y}` is registered at a trie position
that already has a dynamic child, the route is filed under that child and the
capture name of the child is kept (`Register` writes `paramKey` only when it
creates the child): a walk of `Load` through it afterwards binds the segment
under the name the child was created with. -/
theorem C12_capture_name_kept (rr rr2 : RouteRegistry) (p m : GoString)
    (o : Option RouteOptionsRef) (e : Option RegisterError)
    (pre rest : List GoString) (y : GoString) (t : node)
    (hslot : nodeAt rr.root (pre.map segmentKey ++ [paramSlot]) = some t)
    (hseg : segmentsOf p = pre ++ ('{' :: (y ++ ['}'])) :: rest)
    (h : Register rr p m o = some (rr2, e)) :
    ((segmentsOf p).map segmentKey).take (pre.length + 1)
        = pre.map segmentKey ++ [paramSlot] ∧
    ∃ t2, nodeAt rr2.root (pre.map segmentKey ++ [paramSlot]) = some t2 ∧
      t2.paramKey = t.paramKey ∧
      ∀ n v tail params, nodeAt rr2.root (pre.map segmentKey) = some n →
        n.child v = none →
        loadWalk (v :: tail) n params = loadWalk tail t2 (GoMap.set params t.paramKey v) := by
  refine ⟨?_, ?_⟩
  · rw [hseg, List.map_append, List.map_cons, segmentKey_of_dynamic _ (isDynamic_braces y)]
    have hl : (pre.map segmentKey).length = pre.length := by simp
    rw [List.take_append_eq_append_take, hl]
    simp
  · obtain ⟨t2, ht2, hk2⟩ := Register_paramKey _ _ _ _ _ _ h _ t hslot
    refine ⟨t2, ht2, hk2, ?_⟩
    intro n v tail params hn hv
    obtain ⟨n2, hn2, hc⟩ := nodeAt_snoc_some _ _ _ _ ht2
    rw [hn] at hn2
    simp only [Option.some.injEq] at hn2
    subst hn2
    rw [loadWalk_param_step n t2 v tail params hv hc, hk2]

/-- C12 witness: `/a/{y}` is registered for POST on the registry that holds
`/a/{x}` for GET; the dynamic child below `a` keeps the name `x`. -/
theorem C12_capture_name_kept_witness :
    Register NewRouteRegistry "/a/{x}".toList "GET".toList (some 1)
      = some (⟨node.mk [("a".toList, node.mk
          [(paramSlot, node.mk [] [("GET".toList, some 1)] true "x".toList)] [] false [])]
          [] false []⟩, none) ∧
    ∃ rr2,
      Register ⟨node.mk [("a".toList, node.mk
          [(paramSlot, node.mk [] [("GET".toList, some 1)] true "x".toList)] [] false [])]
          [] false []⟩ "/a/{y}".toList "POST".toList (some 2) = some (rr2, none) ∧
      ∃ t2, nodeAt rr2.root (["a".toList].map segmentKey ++ [paramSlot]) = some t2 ∧
        t2.paramKey = "x".toList ∧
        ∀ n v tail params, nodeAt rr2.root (["a".toList].map segmentKey) = some n →
          n.child v = none →
          loadWalk (v :: tail) n params
            = loadWalk tail t2 (GoMap.set params "x".toList v) := by
  refine ⟨rfl, _, rfl, ?_⟩
  exact (C12_capture_name_kept
    ⟨node.mk [("a".toList, node.mk
      [(paramSlot, node.mk [] [("GET".toList, some 1)] true "x".toList)] [] false [])]
      [] false []⟩ _ "/a/{y}".toList "POST".toList (some 2) none
    ["a".toList] [] "y".toList
    (node.mk [] [("GET".toList, some 1)] true "x".toList) rfl rfl rfl).2

/-- C13. For every middleware list, every `k` below its length and every
request the registry resolves: if each of the middleware before `k` calls its
continuation exactly once and `middleware[k]` never calls it, `ServeHTTP`
returns, and the calls it made are exactly the entries of middleware
`0, ..., k` in that order: no later middleware is entered and the handler is
not called. -/
theorem C13_chain_stops_at_k (rtr : Router) (r : Request) (k : Nat)
    (hk : k < rtr.middleware.length)
    (hres : (Load rtr.registry r.Path r.Method).2.2 = true)
    (honce : ∀ i mw c, i < k → rtr.middleware[i]? = some mw →
      (mw.Invoke c).countP Step.isNext = 1)
    (hnever : ∀ mw c, rtr.middleware[k]? = some mw →
      (mw.Invoke c).countP Step.isNext = 0) :
    ∃ trace, rtr.ServeHTTP r = some trace ∧
      calls trace = (List.range (k + 1)).map Event.invoke := by
  rw [ServeHTTP_found rtr r hres]
  obtain ⟨tr, htr, hc⟩ :=
    next_until_never rtr.middleware
      ⟨r, (Load rtr.registry r.Path r.Method).1, (Load rtr.registry r.Path r.Method).2.1⟩
      k hk (fun mw h => hnever mw _ h) k 0 rtr.middleware.length ⟨0, []⟩
      (by omega) (by omega) rfl (fun j mw _ hjk h => honce j mw _ hjk h)
  refine ⟨tr, by rw [htr]; simp, ?_⟩
  rw [hc, List.range_eq_range']

/-- C13 witness: three middleware, the first logging (one call of `next`),
the second answering 403 without calling `next`; the third and the handler
are not reached. -/
theorem C13_chain_stops_at_k_witness :
    ∃ heap rtr rb,
      (NewRouter "/api/v1".toList).GET [] "/resources/".toList 7 = some (heap, rtr, rb) ∧
      ∃ trace,
        (((rtr.UseLogging none).use ⟨fun _ => [Step.effect (Effect.respond 403)]⟩).UseLogging
            none).ServeHTTP ⟨"GET".toList, "/api/v1/resources".toList⟩ = some trace ∧
        calls trace = [Event.invoke 0, Event.invoke 1] := by
  refine ⟨_, _, _, rfl, ?_⟩
  exact C13_chain_stops_at_k _ ⟨"GET".toList, "/api/v1/resources".toList⟩ 1
    (by decide) rfl
    (fun i mw c hi hmw => by
      have h0 : i = 0 := by omega
      subst h0
      have e : some (loggingMiddleware none) = some mw := hmw
      cases e
      rfl)
    (fun mw c hmw => by
      have e : some (⟨fun _ => [Step.effect (Effect.respond 403)]⟩ : Middleware) = some mw :=
        hmw
      cases e
      rfl)

/-- C14. For every router whose middleware were added by a sequence `us` of
`Use*` calls (`UseLogging`, `UseCompression`, `UseAuthentication`,
`UseAuthorization`, in any number and order) and every request the registry
resolves: the middleware list holds the values the calls added, in call
order, and if every one of them calls its continuation exactly once on this
request, `ServeHTTP` returns, and the calls it made are the entries of the
middleware, once each in the order they were added, followed by one call of
the handler of the resolved route. -/
theorem C14_chain_runs_in_order (rtr0 : Router) (env : Env) (us : List UseCall) (r : Request)
    (h0 : rtr0.middleware = [])
    (hres : (Load rtr0.registry r.Path r.Method).2.2 = true)
    (honce : ∀ mw, mw ∈ (rtr0.useCalls env us).middleware →
      (mw.Invoke ⟨r, (Load rtr0.registry r.Path r.Method).1,
        (Load rtr0.registry r.Path r.Method).2.1⟩).countP Step.isNext = 1) :
    (rtr0.useCalls env us).middleware = us.map (UseCall.added env) ∧
    ∃ trace, (rtr0.useCalls env us).ServeHTTP r = some trace ∧
      calls trace = (List.range us.length).map Event.invoke ++
        [Event.handler ⟨r, (Load rtr0.registry r.Path r.Method).1,
          (Load rtr0.registry r.Path r.Method).2.1⟩] := by
  obtain ⟨hm, hreg⟩ := useCalls_middleware env us rtr0
  rw [h0, List.nil_append] at hm
  refine ⟨hm, ?_⟩
  rw [ServeHTTP_found _ r (by rw [hreg]; exact hres), hreg]
  obtain ⟨tr, htr, hc⟩ :=
    next_all_once (rtr0.useCalls env us).middleware
      ⟨r, (Load rtr0.registry r.Path r.Method).1, (Load rtr0.registry r.Path r.Method).2.1⟩
      (rtr0.useCalls env us).middleware.length 0 (rtr0.useCalls env us).middleware.length
      ⟨0, []⟩ (by omega) (by omega) rfl
      (fun j mw _ h => honce mw (List.getElem?_mem h))
  refine ⟨tr, by rw [htr]; simp, ?_⟩
  rw [hc, List.range_eq_range', hm, List.length_map]

/-- C14 witness: on a router with one route, `UseLogging`, `UseCompression`,
`UseAuthentication` and `UseAuthorization` are called in this order; the
request accepts gzip and carries a bearer token that `Validate` accepts, the
route requires no role, scope or permission. The four middleware are entered
in that order, then the handler is called. -/
theorem C14_chain_runs_in_order_witness :
    ∃ heap rtr rb,
      (NewRouter "/api/v1".toList).GET [] "/resources/".toList 7 = some (heap, rtr, rb) ∧
      ∃ trace,
        ((((rtr.UseLogging none).UseCompression
              ⟨asciiEqualFold, heap, 0, none, ⟨"Bearer t".toList, none, [], []⟩,
                "gzip".toList, false⟩ none).UseAuthentication
              ⟨asciiEqualFold, heap, 0, none, ⟨"Bearer t".toList, none, [], []⟩,
                "gzip".toList, false⟩
              (some ⟨some (fun _ => true), none, none, none⟩)).UseAuthorization
              ⟨asciiEqualFold, heap, 0, none, ⟨"Bearer t".toList, none, [], []⟩,
                "gzip".toList, false⟩
              (some ⟨[], [], [], none, none, none⟩)).ServeHTTP
            ⟨"GET".toList, "/api/v1/resources".toList⟩ = some trace ∧
        calls trace = [Event.invoke 0, Event.invoke 1, Event.invoke 2, Event.invoke 3,
          Event.handler ⟨⟨"GET".toList, "/api/v1/resources".toList⟩, some 0, some []⟩] := by
  refine ⟨_, _, _, rfl, ?_⟩
  exact (C14_chain_runs_in_order
    (((NewRouter "/api/v1".toList).GET [] "/resources/".toList 7).get rfl).2.1
    ⟨asciiEqualFold, [⟨"GET".toList, "/api/v1/resources/".toList, 7, false, [], [], []⟩], 0,
      none, ⟨"Bearer t".toList, none, [], []⟩, "gzip".toList, false⟩
    [UseCall.UseLogging none, UseCall.UseCompression none,
      UseCall.UseAuthentication (some ⟨some (fun _ => true), none, none, none⟩),
      UseCall.UseAuthorization (some ⟨[], [], [], none, none, none⟩)]
    ⟨"GET".toList, "/api/v1/resources".toList⟩ rfl rfl
    (fun mw hmw => by
      have h2 : mw ∈ [UseCall.UseLogging none, UseCall.UseCompression none,
          UseCall.UseAuthentication (some ⟨some (fun _ => true), none, none, none⟩),
          UseCall.UseAuthorization (some ⟨[], [], [], none, none, none⟩)].map
            (UseCall.added ⟨asciiEqualFold,
              [⟨"GET".toList, "/api/v1/resources/".toList, 7, false, [], [], []⟩], 0,
              none, ⟨"Bearer t".toList, none, [], []⟩, "gzip".toList, false⟩) := hmw
      simp only [List.map_cons, List.map_nil, List.mem_cons, List.mem_singleton,
        List.not_mem_nil, or_false] at h2
      rcases h2 with h2 | h2 | h2 | h2 <;> subst h2 <;> rfl)).2

/-- C15. For every router, whatever middleware it has, and every request
whose path and method the registry does not resolve: all `ServeHTTP` does is
write the not-found response; no middleware is entered and no handler is
called. -/
theorem C15_not_found_skips_chain (rtr : Router) (r : Request)
    (h : (Load rtr.registry r.Path r.Method).2.2 = false) :
    rtr.ServeHTTP r = some [Event.effect (Effect.respond 404)] ∧
      ∀ trace, rtr.ServeHTTP r = some trace → calls trace = [] := by
  have hs := ServeHTTP_not_found rtr r h
  refine ⟨hs, ?_⟩
  intro trace ht
  rw [hs] at ht
  simp only [Option.some.injEq] at ht
  subst ht
  rfl

/-- C15 witness: a router with a logging middleware and the route
`/resources/` for GET; a POST to the same path is not resolved. -/
theorem C15_not_found_skips_chain_witness :
    ∃ heap rtr rb,
      (NewRouter "/api/v1".toList).GET [] "/resources/".toList 7 = some (heap, rtr, rb) ∧
      (rtr.UseLogging none).ServeHTTP ⟨"POST".toList, "/api/v1/resources".toList⟩
        = some [Event.effect (Effect.respond 404)] ∧
      ∀ trace, (rtr.UseLogging none).ServeHTTP ⟨"POST".toList, "/api/v1/resources".toList⟩
        = some trace → calls trace = [] := by
  refine ⟨_, _, _, rfl, ?_⟩
  exact C15_not_found_skips_chain _ ⟨"POST".toList, "/api/v1/resources".toList⟩ rfl

/-- C16 (the code at the failing input). On `NewRouter("/api/v1")` with no
middleware and `GET("/resources/{resourceId}", h)` registered (`h` is the
handler 7, its record has address 0), the request `GET
/api/v1/resources/*param` (id = `*param`) calls the handler once, with the
options of the registration but with empty params: `Param("resourceId")`
returns `("", false)`, not `("*param", true)`. For id = `8` the context is
as claimed. -/
theorem C16_reserved_key_id :
    ∃ heap rtr rb,
      (NewRouter "/api/v1".toList).GET [] "/resources/{resourceId}".toList 7
        = some (heap, rtr, rb) ∧
      rtr.middleware.length = 0 ∧
      rb.Options = some 0 ∧
      heap[0]? = some ⟨"GET".toList, "/api/v1/resources/{resourceId}/".toList, 7, false,
        [], [], []⟩ ∧
      rtr.ServeHTTP ⟨"GET".toList, "/api/v1/resources/*param".toList⟩
        = some [Event.handler
            ⟨⟨"GET".toList, "/api/v1/resources/*param".toList⟩, some 0, some []⟩] ∧
      RouteContext.Param
          ⟨⟨"GET".toList, "/api/v1/resources/*param".toList⟩, some 0, some []⟩
          "resourceId".toList = ([], false) ∧
      rtr.ServeHTTP ⟨"GET".toList, "/api/v1/resources/8".toList⟩
        = some [Event.handler
            ⟨⟨"GET".toList, "/api/v1/resources/8".toList⟩, some 0,
              some [("resourceId".toList, "8".toList)]⟩] ∧
      RouteContext.Param
          ⟨⟨"GET".toList, "/api/v1/resources/8".toList⟩, some 0,
            some [("resourceId".toList, "8".toList)]⟩
          "resourceId".toList = ("8".toList, true) :=
  ⟨_, _, _, rfl, rfl, rfl, rfl, rfl, rfl, rfl, rfl⟩

/-- C17 (the code at the failing input). `GET("/a", 7)` is registered on a
new router, then `GET("/a", 8)`: inside the second call `Register` returns
the already-exists error, which `registerRoute` drops. The call returns a
builder all the same, the very builder a successful registration (of `/b`)
returns in the same state, and its record, at address 1, is not in the
registry: `Load` still returns the record 0 of the first registration. -/
theorem C17_duplicate_not_surfaced :
    ∃ heap1 rtr1 rb1,
      (NewRouter "/".toList).GET [] "/a".toList 7 = some (heap1, rtr1, rb1) ∧
      Register rtr1.registry (normalizeRoute "/a".toList rtr1.pfx) "GET".toList
          (some heap1.length)
        = some (rtr1.registry,
            some (RegisterError.alreadyExists "GET".toList "/a/".toList)) ∧
      ∃ heap2 rtr2 rb2,
        rtr1.GET heap1 "/a".toList 8 = some (heap2, rtr2, rb2) ∧
        rb2.Options = some 1 ∧ rb2.Pattern = [] ∧
        heap2[1]? = some ⟨"GET".toList, "/a/".toList, 8, false, [], [], []⟩ ∧
        Load rtr2.registry "/a/".toList "GET".toList = (some 0, some [], true) ∧
        ∃ heap3 rtr3 rb3,
          rtr1.GET heap1 "/b".toList 8 = some (heap3, rtr3, rb3) ∧
          rb3.Options = rb2.Options ∧ rb3.Pattern = rb2.Pattern ∧
          Load rtr3.registry "/b/".toList "GET".toList = (some 1, some [], true) :=
  ⟨_, _, _, rfl, rfl, _, _, _, rfl, rfl, rfl, rfl, rfl, _, _, _, rfl, rfl, rfl, rfl⟩

/-- C18. For every prefix and every pattern `p` that neither starts nor ends
with `/`, `normalizeRoute(p, prefix) = normalizeRoute("/" + p + "/", prefix)`.
On a router created with prefix `/api/v1`, the patterns `resources` and
`/resources/` both normalize to `/api/v1/resources/`, and after `resources`
is registered for GET the `Register` call made for `/resources/` returns
the already-exists error. -/
theorem C18_wrapped_pattern_same_route (p pre : GoString)
    (hs : strings.HasPrefix p ['/'] = false) (he : strings.HasSuffix p ['/'] = false) :
    normalizeRoute p pre = normalizeRoute ('/' :: (p ++ ['/'])) pre ∧
    normalizeRoute "resources".toList (NewRouter "/api/v1".toList).pfx
      = "/api/v1/resources/".toList ∧
    normalizeRoute "/resources/".toList (NewRouter "/api/v1".toList).pfx
      = "/api/v1/resources/".toList ∧
    ∃ heap rtr rb,
      (NewRouter "/api/v1".toList).GET [] "resources".toList 7 = some (heap, rtr, rb) ∧
      Register rtr.registry (normalizeRoute "/resources/".toList rtr.pfx) "GET".toList
          (some heap.length)
        = some (rtr.registry,
            some (RegisterError.alreadyExists "GET".toList "/api/v1/resources/".toList)) :=
  ⟨normalizeRoute_wrap p pre hs he, rfl, rfl, _, _, _, rfl, rfl⟩

/-- C18 witness: the pattern `resources` under the prefix `/api/v1/`. -/
theorem C18_wrapped_pattern_same_route_witness :
    normalizeRoute "resources".toList "/api/v1/".toList
      = normalizeRoute ('/' :: ("resources".toList ++ ['/'])) "/api/v1/".toList :=
  (C18_wrapped_pattern_same_route "resources".toList "/api/v1/".toList rfl rfl).1

/-- For a route registered through the router for a (method, pattern) pair
that `Register` accepts: the returned builder and the registry hold the same
pointer, `Load` of the normalized pattern and method returns it, and after
`AllowAnonymous`, `RequireRoles`, `RequireScopes` or `RequirePermission` on
the builder the record it points to shows the change (the flag set, the
roles, scopes or permissions added). -/
theorem builder_shares_record (rtr rtr1 : Router) (heap heap1 : Heap)
    (method pattern : GoString) (handler : HandlerFunc) (rb : RouteBuilder)
    (xs : List GoString) (resource : GoString)
    (hreach : Reachable rtr.registry)
    (hnew : ∃ reg, Register rtr.registry (normalizeRoute pattern rtr.pfx) method
      (some heap.length) = some (reg, none))
    (hreg : rtr.registerRoute heap method pattern handler = some (heap1, rtr1, rb)) :
    ∃ a params, rb.Options = some a ∧
      heap1[a]? = some ⟨method, normalizeRoute pattern rtr.pfx, handler, false, [], [], []⟩ ∧
      Load rtr1.registry (normalizeRoute pattern rtr.pfx) method
        = (some a, some params, true) ∧
      (∃ h2 r2, rb.AllowAnonymous heap1 = some (h2, rb) ∧ h2[a]? = some r2 ∧
        r2.AllowAnonymous = true) ∧
      (∃ h2 r2, rb.RequireRoles heap1 xs = some (h2, rb) ∧ h2[a]? = some r2 ∧
        r2.Roles = xs) ∧
      (∃ h2 r2, rb.RequireScopes heap1 xs = some (h2, rb) ∧ h2[a]? = some r2 ∧
        r2.Scopes = xs) ∧
      (∃ h2 r2, rb.RequirePermission heap1 resource xs = some (h2, rb) ∧
        h2[a]? = some r2 ∧ r2.Permissions = xs) := by
  obtain ⟨reg, hnew⟩ := hnew
  simp only [Router.registerRoute, hnew, Option.some.injEq, Prod.mk.injEq] at hreg
  obtain ⟨hheap, hrtr, hrb⟩ := hreg
  subst hheap; subst hrtr; subst hrb
  obtain ⟨params, hload⟩ := Load_after_Register _ _ hreach _ _ _ hnew
  have hrec : (heap ++ [(⟨method, normalizeRoute pattern rtr.pfx, handler, false, [], [], []⟩
      : RouteOptions)])[heap.length]? = some ⟨method, normalizeRoute pattern rtr.pfx, handler,
        false, [], [], []⟩ := List.getElem?_concat_length _ _
  obtain ⟨⟨h1, hh1, hr1⟩, ⟨h2, hh2, hr2⟩, ⟨h3, hh3, hr3⟩, ⟨h4, hh4, hr4⟩⟩ :=
    builder_operations ⟨[], some heap.length⟩ _ heap.length _ xs resource rfl hrec
  exact ⟨heap.length, params, rfl, hrec, hload,
    ⟨h4, _, hh4, hr4, rfl⟩, ⟨h1, _, hh1, hr1, by simp⟩, ⟨h2, _, hh2, hr2, by simp⟩,
    ⟨h3, _, hh3, hr3, by simp⟩⟩

/-- Example: `GET("/resources/", 7)` on `NewRouter("/api/v1")`, then the
builder operations with the list `["admin"]`. -/
theorem builder_shares_record_example :
    ∃ heap1 rtr1 rb,
      (NewRouter "/api/v1".toList).registerRoute [] "GET".toList "/resources/".toList 7
        = some (heap1, rtr1, rb) ∧
      ∃ a params, rb.Options = some a ∧
        heap1[a]? = some ⟨"GET".toList,
          normalizeRoute "/resources/".toList (NewRouter "/api/v1".toList).pfx, 7, false,
          [], [], []⟩ ∧
        Load rtr1.registry
          (normalizeRoute "/resources/".toList (NewRouter "/api/v1".toList).pfx) "GET".toList
          = (some a, some params, true) ∧
        (∃ h2 r2, rb.AllowAnonymous heap1 = some (h2, rb) ∧ h2[a]? = some r2 ∧
          r2.AllowAnonymous = true) ∧
        (∃ h2 r2, rb.RequireRoles heap1 ["admin".toList] = some (h2, rb) ∧
          h2[a]? = some r2 ∧ r2.Roles = ["admin".toList]) ∧
        (∃ h2 r2, rb.RequireScopes heap1 ["admin".toList] = some (h2, rb) ∧
          h2[a]? = some r2 ∧ r2.Scopes = ["admin".toList]) ∧
        (∃ h2 r2, rb.RequirePermission heap1 "res".toList ["admin".toList] = some (h2, rb) ∧
          h2[a]? = some r2 ∧ r2.Permissions = ["admin".toList]) := by
  refine ⟨_, _, _, rfl, ?_⟩
  exact builder_shares_record (NewRouter "/api/v1".toList) _ [] _ "GET".toList
    "/resources/".toList 7 _ ["admin".toList] "res".toList ⟨[], [], rfl⟩ ⟨_, rfl⟩ rfl

/-- C19 (the code at the failing input). `GET("/a/{x}", 7)` is registered on
a new router, then `GET("/a/{y}", 8)`, a (method, pattern) pair not
registered before. `Register` files both patterns at the same node and
returns the already-exists error for the second, which `registerRoute`
drops: the builder returned points to the new record 1, the registry still
holds record 0. After `RequireRoles("admin")` on that builder, `Load` of the
normalized pattern `/a/{y}/` returns record 0, which shows no role. -/
theorem C19_builder_record_not_registered :
    ∃ heap1 rtr1 rb1,
      (NewRouter "/".toList).GET [] "/a/{x}".toList 7 = some (heap1, rtr1, rb1) ∧
      Register rtr1.registry (normalizeRoute "/a/{y}".toList rtr1.pfx) "GET".toList
          (some heap1.length)
        = some (rtr1.registry,
            some (RegisterError.alreadyExists "GET".toList "/a/{y}/".toList)) ∧
      ∃ heap2 rtr2 rb2,
        rtr1.GET heap1 "/a/{y}".toList 8 = some (heap2, rtr2, rb2) ∧
        rb2.Options = some 1 ∧
        ∃ heap3,
          rb2.RequireRoles heap2 ["admin".toList] = some (heap3, rb2) ∧
          heap3[1]? = some ⟨"GET".toList, "/a/{y}/".toList, 8, false,
            ["admin".toList], [], []⟩ ∧
          Load rtr2.registry "/a/{y}/".toList "GET".toList
            = (some 0, some [("x".toList, "{y}".toList)], true) ∧
          heap3[0]? = some ⟨"GET".toList, "/a/{x}/".toList, 7, false, [], [], []⟩ :=
  ⟨_, _, _, rfl, rfl, _, _, _, rfl, rfl, _, rfl, rfl, rfl, rfl⟩

/-- C20. For every builder whose `Options` points to a record, and every
argument list `xs`: `RequireRoles(xs)`, `RequireScopes(xs)` and
`RequirePermission(resource, xs)` leave in `Roles`, `Scopes` and
`Permissions` respectively the previous list followed by `xs` in order,
`AllowAnonymous` sets the flag to true, no other field of the record is
changed, and each operation returns the builder it was called on. -/
theorem C20_builder_operations (rb : RouteBuilder) (heap : Heap) (a : RouteOptionsRef)
    (r : RouteOptions) (xs : List GoString) (resource : GoString)
    (ha : rb.Options = some a) (hr : heap[a]? = some r) :
    (∃ h2, rb.RequireRoles heap xs = some (h2, rb) ∧
      h2[a]? = some { r with Roles := r.Roles ++ xs }) ∧
    (∃ h2, rb.RequireScopes heap xs = some (h2, rb) ∧
      h2[a]? = some { r with Scopes := r.Scopes ++ xs }) ∧
    (∃ h2, rb.RequirePermission heap resource xs = some (h2, rb) ∧
      h2[a]? = some { r with Permissions := r.Permissions ++ xs }) ∧
    (∃ h2, rb.AllowAnonymous heap = some (h2, rb) ∧
      h2[a]? = some { r with AllowAnonymous := true }) :=
  builder_operations rb heap a r xs resource ha hr

/-- C20 witness: a record with the role `a`; `RequireRoles(["b", "c"])`
leaves the roles `a, b, c`. -/
theorem C20_builder_operations_witness :
    ∃ h2, (⟨[], some 0⟩ : RouteBuilder).RequireRoles
        [⟨"GET".toList, "/x/".toList, 7, false, ["a".toList], [], []⟩]
        ["b".toList, "c".toList] = some (h2, ⟨[], some 0⟩) ∧
      h2[0]? = some ⟨"GET".toList, "/x/".toList, 7, false,
        ["a".toList] ++ ["b".toList, "c".toList], [], []⟩ :=
  (C20_builder_operations ⟨[], some 0⟩
    [⟨"GET".toList, "/x/".toList, 7, false, ["a".toList], [], []⟩] 0
    ⟨"GET".toList, "/x/".toList, 7, false, ["a".toList], [], []⟩
    ["b".toList, "c".toList] [] rfl rfl).1

/-- C21. For every route string and every prefix string, the result of
`normalizeRoute(route, prefix)` starts with `/` and ends with `/`. -/
theorem C21_normalized_starts_and_ends_with_slash (route pre : GoString) :
    strings.HasPrefix (normalizeRoute route pre) ['/'] = true ∧
    strings.HasSuffix (normalizeRoute route pre) ['/'] = true :=
  ⟨(HasPrefix_slash_iff _).mpr (normalizeRoute_slashes route pre).1,
    (HasSuffix_slash_iff _).mpr (normalizeRoute_slashes route pre).2⟩

/-- C22 (the code at the failing input). `normalizeRoute("a///b", "/")` is
`/a//b/`, which contains two consecutive slashes: `strings.ReplaceAll`
replaces the first two of the three slashes by one and passes on, so one
pass leaves `//`. The same happens through the router: the pattern stored
by `GET("a///b", h)` on `NewRouter("/")` is `/a//b/`. -/
theorem C22_doubled_slash_left :
    normalizeRoute "a///b".toList "/".toList = "/a//b/".toList ∧
    "/a//b/".toList = "/a".toList ++ (['/', '/'] ++ "b/".toList) ∧
    ∃ heap rtr rb,
      (NewRouter "/".toList).GET [] "a///b".toList 7 = some (heap, rtr, rb) ∧
      heap[0]? = some ⟨"GET".toList, "/a//b/".toList, 7, false, [], [], []⟩ :=
  ⟨rfl, rfl, _, _, _, rfl, rfl⟩

/-- C23 (the code at the failing input). The router created by
`NewRouter("/api/v1")` has the prefix `/api/v1/`; the pattern
`/api/v1/resources` begins with that prefix, yet it normalizes to
`/api/v1/api/v1/resources/`: the test `strings.HasPrefix(route, prefix)` is
made after the leading slash of the pattern was trimmed, against a prefix
that still has its own. -/
theorem C23_prefix_prepended_twice :
    (NewRouter "/api/v1".toList).pfx = "/api/v1/".toList ∧
    strings.HasPrefix "/api/v1/resources".toList "/api/v1".toList = true ∧
    strings.HasPrefix (strings.TrimLeft "/api/v1/resources".toList ['/'])
      (strings.TrimRight (NewRouter "/api/v1".toList).pfx ['/']) = false ∧
    normalizeRoute "/api/v1/resources".toList (NewRouter "/api/v1".toList).pfx
      = "/api/v1/api/v1/resources/".toList :=
  ⟨rfl, rfl, rfl, rfl⟩

/-- C24 (the code at the failing input). `NewRouter("a///b")` has the
normalized prefix `/a//b/` (the doubled slash of C22); the pattern stored for
`GET("x", h)`, the one given to the registry, is `/a/b/x/`, which does not
begin with that prefix. -/
theorem C24_stored_pattern_without_prefix :
    (NewRouter "a///b".toList).pfx = "/a//b/".toList ∧
    ∃ heap rtr rb,
      (NewRouter "a///b".toList).GET [] "x".toList 7 = some (heap, rtr, rb) ∧
      heap[0]? = some ⟨"GET".toList, "/a/b/x/".toList, 7, false, [], [], []⟩ ∧
      Load rtr.registry "/a/b/x/".toList "GET".toList = (some 0, some [], true) ∧
      strings.HasPrefix "/a/b/x/".toList (NewRouter "a///b".toList).pfx = false :=
  ⟨rfl, _, _, _, rfl, rfl, rfl, rfl⟩

/-- C25. On a route whose record has `AllowAnonymous = true`, for every
request (any `Authorization` header, any session cookie), every clock and
every configuration of the middleware, the body of the authentication
middleware is the single step `next(c)`: the continuation is called exactly
once, no 401 is written and no configured validator is called. -/
theorem C25_anonymous_route_passes (m : authenticationMiddleware) (heap : Heap) (now : Int)
    (c : RouteContext) (r : Credentials) (ro : RouteOptions)
    (hrec : c.record heap = some ro) (hanon : ro.AllowAnonymous = true) :
    authenticationMiddleware.Invoke m heap now c r = some [Step.next] ∧
    ∀ steps, authenticationMiddleware.Invoke m heap now c r = some steps →
      steps.countP Step.isNext = 1 ∧
      Step.effect (Effect.respond 401) ∉ steps ∧
      ∀ fn args, Step.effect (Effect.call fn args) ∉ steps := by
  have h : authenticationMiddleware.Invoke m heap now c r = some [Step.next] := by
    simp [authenticationMiddleware.Invoke, hrec, hanon]
  refine ⟨h, ?_⟩
  intro steps hs
  rw [h] at hs
  cases hs
  refine ⟨rfl, by simp, ?_⟩
  intro fn args
  simp

/-- C25 witness: a route marked by `RouteBuilder.AllowAnonymous`, a request
with a bearer token that `Validate` rejects and a session cookie. -/
theorem C25_anonymous_route_passes_witness :
    ∃ heap rtr rb heap2 rb2,
      (NewRouter "/".toList).GET [] "/public".toList 7 = some (heap, rtr, rb) ∧
      rb.AllowAnonymous heap = some (heap2, rb2) ∧
      authenticationMiddleware.Invoke ⟨some ⟨some (fun _ => false), none, none, none⟩⟩ heap2 0
          ⟨⟨"GET".toList, "/public".toList⟩, some 0, some []⟩
          ⟨"Bearer bad".toList, some "sid".toList, [], []⟩
        = some [Step.next] := by
  refine ⟨_, _, _, _, _, rfl, rfl, ?_⟩
  exact (C25_anonymous_route_passes ⟨some ⟨some (fun _ => false), none, none, none⟩⟩
    [⟨"GET".toList, "/public/".toList, 7, true, [], [], []⟩] 0
    ⟨⟨"GET".toList, "/public".toList⟩, some 0, some []⟩
    ⟨"Bearer bad".toList, some "sid".toList, [], []⟩
    ⟨"GET".toList, "/public/".toList, 7, true, [], [], []⟩ rfl rfl).1

/-- C26. Resolution never backtracks: for every registry, path and method, if
at depth `i` of the walk the current node has a child keyed by the segment
of the path, the rest of the walk is the walk below that child, whatever the
dynamic child of the node holds; when the walk below that child fails,
`Load` returns `(nil, nil, false)`. -/
theorem C26_no_backtracking (rr : RouteRegistry) (path m : GoString) (i : Nat)
    (seg : GoString) (n c : node) (ps : RouteParams)
    (hseg : (segmentsOf path)[i]? = some seg)
    (hwalk : loadWalk ((segmentsOf path).take i) rr.root [] = some (n, ps))
    (hlit : n.child seg = some c) :
    loadWalk (segmentsOf path) rr.root []
        = loadWalk ((segmentsOf path).drop (i + 1)) c ps ∧
      (loadWalk ((segmentsOf path).drop (i + 1)) c ps = none →
        Load rr path m = (none, none, false)) := by
  have h1 : loadWalk (segmentsOf path) rr.root []
      = loadWalk ((segmentsOf path).drop (i + 1)) c ps := by
    rw [loadWalk_split _ i seg rr.root hseg, hwalk]
    simp [loadWalk, hlit]
  exact ⟨h1, fun h => Load_of_walk_none rr path m (by rw [h1]; exact h)⟩

/-- C26 witness: `/a/b/c` and `/a/{x}/d` registered for GET. On the path
`/a/b/d` the node of `a`, reached at depth 1, has the child `b`, which `Load`
follows although only the dynamic child leads on to `d`: not found, while
`/a/z/d` is found. -/
theorem C26_no_backtracking_witness :
    ∃ done,
      RegisterAll NewRouteRegistry
        [⟨"/a/b/c".toList, "GET".toList, some 1⟩, ⟨"/a/{x}/d".toList, "GET".toList, some 2⟩]
        = some (⟨node.mk [("a".toList, node.mk
        [("b".toList, node.mk [("c".toList, node.mk [] [("GET".toList, some 1)] false [])]
          [] false []),
        (paramSlot, node.mk [("d".toList, node.mk [] [("GET".toList, some 2)] false [])]
          [] true "x".toList)] [] false [])] [] false []⟩, done) ∧
      done.length = 2 ∧
      Load ⟨node.mk [("a".toList, node.mk
        [("b".toList, node.mk [("c".toList, node.mk [] [("GET".toList, some 1)] false [])]
          [] false []),
        (paramSlot, node.mk [("d".toList, node.mk [] [("GET".toList, some 2)] false [])]
          [] true "x".toList)] [] false [])] [] false []⟩
        "/a/z/d".toList "GET".toList = (some 2, some [("x".toList, "z".toList)], true) ∧
      Load ⟨node.mk [("a".toList, node.mk
        [("b".toList, node.mk [("c".toList, node.mk [] [("GET".toList, some 1)] false [])]
          [] false []),
        (paramSlot, node.mk [("d".toList, node.mk [] [("GET".toList, some 2)] false [])]
          [] true "x".toList)] [] false [])] [] false []⟩
        "/a/b/d".toList "GET".toList = (none, none, false) := by
  refine ⟨_, rfl, rfl, rfl, ?_⟩
  exact (C26_no_backtracking
    ⟨node.mk [("a".toList, node.mk
        [("b".toList, node.mk [("c".toList, node.mk [] [("GET".toList, some 1)] false [])]
          [] false []),
        (paramSlot, node.mk [("d".toList, node.mk [] [("GET".toList, some 2)] false [])]
          [] true "x".toList)] [] false [])] [] false []⟩
    "/a/b/d".toList "GET".toList 1 "b".toList
    (node.mk [("b".toList, node.mk [("c".toList, node.mk [] [("GET".toList, some 1)] false [])]
        [] false []),
      (paramSlot, node.mk [("d".toList, node.mk [] [("GET".toList, some 2)] false [])]
        [] true "x".toList)] [] false [])
    (node.mk [("c".toList, node.mk [] [("GET".toList, some 1)] false [])] [] false [])
    [] rfl rfl rfl).2 rfl

/-- C27. For every middleware list in which each middleware calls its
continuation at most once, and every request the registry resolves: what
`ServeHTTP` does with its shared cursor is what the index-passing chain
`chain(0)` does, event for event, hence the same sequence of middleware and
handler invocations. -/
theorem C27_shared_cursor_refines_chain (rtr : Router) (r : Request)
    (hres : (Load rtr.registry r.Path r.Method).2.2 = true)
    (hms : ∀ mw c, mw ∈ rtr.middleware → (mw.Invoke c).countP Step.isNext ≤ 1) :
    rtr.ServeHTTP r =
      some (chain
        ⟨r, (Load rtr.registry r.Path r.Method).1, (Load rtr.registry r.Path r.Method).2.1⟩
        rtr.middleware 0 []) ∧
    ∀ trace, rtr.ServeHTTP r = some trace →
      calls trace = calls (chain
        ⟨r, (Load rtr.registry r.Path r.Method).1, (Load rtr.registry r.Path r.Method).2.1⟩
        rtr.middleware 0 []) := by
  have h1 : rtr.ServeHTTP r =
      some (chain
        ⟨r, (Load rtr.registry r.Path r.Method).1, (Load rtr.registry r.Path r.Method).2.1⟩
        rtr.middleware 0 []) := by
    rw [ServeHTTP_found rtr r hres]
    obtain ⟨idx, hidx⟩ :=
      next_eq_chain rtr.middleware
        ⟨r, (Load rtr.registry r.Path r.Method).1, (Load rtr.registry r.Path r.Method).2.1⟩
        (fun mw h => hms mw _ h) rtr.middleware.length 0 rtr.middleware.length ⟨0, []⟩
        (by omega) (by omega) rfl
    rw [hidx]
    rfl
  refine ⟨h1, ?_⟩
  intro trace ht
  rw [h1] at ht
  simp only [Option.some.injEq] at ht
  rw [← ht]

/-- C27 witness: a logging middleware (one call of `next`) followed by one
that answers 403 without calling `next`, on a router with one route. -/
theorem C27_shared_cursor_refines_chain_witness :
    ∃ heap rtr rb,
      (NewRouter "/api/v1".toList).GET [] "/resources/".toList 7 = some (heap, rtr, rb) ∧
      ((rtr.UseLogging none).use ⟨fun _ => [Step.effect (Effect.respond 403)]⟩).ServeHTTP
          ⟨"GET".toList, "/api/v1/resources".toList⟩
        = some (chain ⟨⟨"GET".toList, "/api/v1/resources".toList⟩, some 0, some []⟩
            [loggingMiddleware none, ⟨fun _ => [Step.effect (Effect.respond 403)]⟩] 0 []) := by
  refine ⟨_, _, _, rfl, ?_⟩
  exact (C27_shared_cursor_refines_chain
    (((((NewRouter "/api/v1".toList).GET [] "/resources/".toList 7).get rfl).2.1.UseLogging
      none).use ⟨fun _ => [Step.effect (Effect.respond 403)]⟩)
    ⟨"GET".toList, "/api/v1/resources".toList⟩ rfl
    (fun mw c hmw => by
      have h2 : mw = loggingMiddleware none ∨
          mw = ⟨fun _ => [Step.effect (Effect.respond 403)]⟩ := by
        have h3 : mw ∈ [loggingMiddleware none,
            (⟨fun _ => [Step.effect (Effect.respond 403)]⟩ : Middleware)] := hmw
        simpa using h3
      rcases h2 with h2 | h2
      · subst h2; simp [loggingMiddleware, List.countP_cons, Step.isNext]
      · subst h2; simp [List.countP_cons, Step.isNext])).1

/-- C28. The body of the authorization middleware, whenever it returns one:
it holds the call `next(c)` (then exactly once, as its last step) if and
only if the roles check, the scopes check and the permissions check all
return true; when a check returns false the body ends with the 403 response
after the calls of the checks made so far, whatever the later checks would
do (they are not evaluated, even where they would panic). -/
theorem C28_authorization_gate (EqualFold : GoString → GoString → Bool)
    (m : authorizationMiddleware) (heap : Heap)
    (c : RouteContext) (user : Option ClaimsPrincipal) :
    (∀ e1, m.checkRoles heap c user = some (false, e1) →
      m.Invoke EqualFold heap c user = some (e1.map Step.effect ++ [Step.effect (Effect.respond 403)])) ∧
    (∀ e1 e2, m.checkRoles heap c user = some (true, e1) →
      m.checkScopes heap c user = some (false, e2) →
      m.Invoke EqualFold heap c user =
        some ((e1 ++ e2).map Step.effect ++ [Step.effect (Effect.respond 403)])) ∧
    (∀ e1 e2 e3, m.checkRoles heap c user = some (true, e1) →
      m.checkScopes heap c user = some (true, e2) →
      m.checkPermission EqualFold heap c user = some (false, e3) →
      m.Invoke EqualFold heap c user =
        some ((e1 ++ e2 ++ e3).map Step.effect ++ [Step.effect (Effect.respond 403)])) ∧
    (∀ e1 e2 e3, m.checkRoles heap c user = some (true, e1) →
      m.checkScopes heap c user = some (true, e2) →
      m.checkPermission EqualFold heap c user = some (true, e3) →
      m.Invoke EqualFold heap c user = some ((e1 ++ e2 ++ e3).map Step.effect ++ [Step.next])) ∧
    (∀ steps, m.Invoke EqualFold heap c user = some steps →
      steps.countP Step.isNext ≤ 1 ∧
      (steps.countP Step.isNext = 1 ↔
        (∃ e1, m.checkRoles heap c user = some (true, e1)) ∧
        (∃ e2, m.checkScopes heap c user = some (true, e2)) ∧
        (∃ e3, m.checkPermission EqualFold heap c user = some (true, e3))) ∧
      (steps.countP Step.isNext = 0 → Step.effect (Effect.respond 403) ∈ steps)) := by
  refine ⟨?_, ?_, ?_, ?_, ?_⟩
  · intro e1 h1
    simp [authorizationMiddleware.Invoke, h1, RouteContext.Forbidden]
  · intro e1 e2 h1 h2
    simp [authorizationMiddleware.Invoke, h1, h2, RouteContext.Forbidden]
  · intro e1 e2 e3 h1 h2 h3
    simp [authorizationMiddleware.Invoke, h1, h2, h3, RouteContext.Forbidden]
  · intro e1 e2 e3 h1 h2 h3
    simp [authorizationMiddleware.Invoke, h1, h2, h3]
  · intro steps hs
    unfold authorizationMiddleware.Invoke at hs
    cases h1 : m.checkRoles heap c user with
    | none => simp [h1] at hs
    | some r1 =>
      obtain ⟨b1, e1⟩ := r1
      cases b1 with
      | false =>
        simp only [h1, Option.some.injEq] at hs
        subst hs
        exact gate_denied e1 _ (fun h => by obtain ⟨⟨e, he⟩, _⟩ := h; simp at he)
      | true =>
        cases h2 : m.checkScopes heap c user with
        | none => simp [h1, h2] at hs
        | some r2 =>
          obtain ⟨b2, e2⟩ := r2
          cases b2 with
          | false =>
            simp only [h1, h2, Option.some.injEq] at hs
            subst hs
            exact gate_denied (e1 ++ e2) _
              (fun h => by obtain ⟨_, ⟨e, he⟩, _⟩ := h; simp at he)
          | true =>
            cases h3 : m.checkPermission EqualFold heap c user with
            | none => simp [h1, h2, h3] at hs
            | some r3 =>
              obtain ⟨b3, e3⟩ := r3
              cases b3 with
              | false =>
                simp only [h1, h2, h3, Option.some.injEq] at hs
                subst hs
                exact gate_denied (e1 ++ e2 ++ e3) _
                  (fun h => by obtain ⟨_, _, ⟨e, he⟩⟩ := h; simp at he)
              | true =>
                simp only [h1, h2, h3, Option.some.injEq] at hs
                subst hs
                exact gate_passed (e1 ++ e2 ++ e3) _ ⟨⟨e1, rfl⟩, ⟨e2, rfl⟩, ⟨e3, rfl⟩⟩

/-- C28 witness: the route requires the role `admin`, the user has the role
`user`; the scopes check would panic (`CheckScopes` set, `CheckRoles` nil)
and is not reached: the body is the 403 response alone. -/
theorem C28_authorization_gate_witness :
    authorizationMiddleware.checkScopes ⟨some ⟨[], [], [], none, some (fun _ _ => true), none⟩⟩
        [⟨"GET".toList, "/x/".toList, 7, false, ["admin".toList], [], []⟩]
        ⟨⟨"GET".toList, "/x".toList⟩, some 0, some []⟩ (some ⟨["user".toList], []⟩) = none ∧
    authorizationMiddleware.Invoke ⟨some ⟨[], [], [], none, some (fun _ _ => true), none⟩⟩
        asciiEqualFold [⟨"GET".toList, "/x/".toList, 7, false, ["admin".toList], [], []⟩]
        ⟨⟨"GET".toList, "/x".toList⟩, some 0, some []⟩ (some ⟨["user".toList], []⟩)
      = some [Step.effect (Effect.respond 403)] :=
  ⟨rfl, (C28_authorization_gate asciiEqualFold ⟨some ⟨[], [], [], none, some (fun _ _ => true), none⟩⟩
    [⟨"GET".toList, "/x/".toList, 7, false, ["admin".toList], [], []⟩]
    ⟨⟨"GET".toList, "/x".toList⟩, some 0, some []⟩ (some ⟨["user".toList], []⟩)).1 [] rfl⟩

/-- C29. With no custom `CheckRoles` configured: on a route that requires no
roles the roles check passes (for any user, a nil one included); for a user
`u` it returns, without calling any configured function, true if and only if
the route requires no roles or some role required by the route is one of the
roles of `u`; a user with no roles is denied wherever a role is required. -/
theorem C29_default_roles_check (o : AuthorizationOptions) (heap : Heap) (c : RouteContext)
    (ro : RouteOptions) (hrec : c.record heap = some ro) (hnil : o.CheckRoles = none) :
    (ro.Roles = [] → ∀ user,
      authorizationMiddleware.checkRoles ⟨some o⟩ heap c user = some (true, [])) ∧
    ∀ u : ClaimsPrincipal, ∃ b,
      authorizationMiddleware.checkRoles ⟨some o⟩ heap c (some u) = some (b, []) ∧
      (b = true ↔ ro.Roles = [] ∨ ∃ role, role ∈ ro.Roles ∧ role ∈ u.Roles) ∧
      (u.Roles = [] → ro.Roles ≠ [] → b = false) := by
  constructor
  · intro hro user
    simp [authorizationMiddleware.checkRoles, hrec, hnil, hro]
  · intro u
    by_cases hro : ro.Roles = []
    · exact ⟨true, by simp [authorizationMiddleware.checkRoles, hrec, hnil, hro],
        by simp [hro], fun _ h => absurd hro h⟩
    · by_cases hu : u.Roles = []
      · refine ⟨false, by simp [authorizationMiddleware.checkRoles, hrec, hnil, hro, hu],
          ?_, fun _ _ => rfl⟩
        simp [hro, hu]
      · refine ⟨anyMatch ro.Roles u.Roles,
          by simp [authorizationMiddleware.checkRoles, hrec, hnil, hro, hu], ?_, fun h => absurd h hu⟩
        rw [anyMatch_iff]
        simp [hro]

/-- C29 witness: the route requires `admin` or `ops`; a user with the roles
`dev` and `ops` passes, a user with no roles is denied. -/
theorem C29_default_roles_check_witness :
    authorizationMiddleware.checkRoles ⟨some ⟨[], [], [], none, none, none⟩⟩
        [⟨"GET".toList, "/x/".toList, 7, false, ["admin".toList, "ops".toList], [], []⟩]
        ⟨⟨"GET".toList, "/x".toList⟩, some 0, some []⟩
        (some ⟨["dev".toList, "ops".toList], []⟩) = some (true, []) ∧
    ∃ b, authorizationMiddleware.checkRoles ⟨some ⟨[], [], [], none, none, none⟩⟩
        [⟨"GET".toList, "/x/".toList, 7, false, ["admin".toList, "ops".toList], [], []⟩]
        ⟨⟨"GET".toList, "/x".toList⟩, some 0, some []⟩ (some ⟨[], []⟩) = some (b, []) ∧
      (b = true ↔ ["admin".toList, "ops".toList] = [] ∨
        ∃ role, role ∈ ["admin".toList, "ops".toList] ∧ role ∈ ([] : List GoString)) ∧
      (([] : List GoString) = [] → ["admin".toList, "ops".toList] ≠ [] → b = false) :=
  ⟨rfl, (C29_default_roles_check ⟨[], [], [], none, none, none⟩
    [⟨"GET".toList, "/x/".toList, 7, false, ["admin".toList, "ops".toList], [], []⟩]
    ⟨⟨"GET".toList, "/x".toList⟩, some 0, some []⟩
    ⟨"GET".toList, "/x/".toList, 7, false, ["admin".toList, "ops".toList], [], []⟩
    rfl rfl).2 ⟨[], []⟩⟩

/-- C30. The scopes check with `CheckScopes` configured to accept everything:
where `CheckRoles` rejects everything the check returns false, having called
`CheckRoles` on the scopes of the route, and where `CheckRoles` is not set
the check panics; `CheckScopes` is called in neither case. -/
theorem C30_scopes_check_calls_CheckRoles :
    authorizationMiddleware.checkScopes
        ⟨some ⟨[], [], [], some (fun _ _ => false), some (fun _ _ => true), none⟩⟩
        [⟨"GET".toList, "/x/".toList, 7, false, [], ["read".toList], []⟩]
        ⟨⟨"GET".toList, "/x".toList⟩, some 0, some []⟩ (some ⟨[], ["read".toList]⟩)
      = some (false, [Effect.call "CheckRoles".toList ["read".toList]]) ∧
    authorizationMiddleware.checkScopes
        ⟨some ⟨[], [], [], none, some (fun _ _ => true), none⟩⟩
        [⟨"GET".toList, "/x/".toList, 7, false, [], ["read".toList], []⟩]
        ⟨⟨"GET".toList, "/x".toList⟩, some 0, some []⟩ (some ⟨[], ["read".toList]⟩)
      = none :=
  ⟨rfl, rfl⟩

/-- C31. For every replacements map and every list of permission slices
(and whatever `strings.EqualFold` folds),
`interpolatePermissions` returns a list (it does not panic): `vals` being the
interpolated values of all input permissions, slices in argument order and
items in slice order, the result has no duplicates, holds exactly the values
of `vals`, and lists them by first occurrence (`v` stands before `w` in the
result only if `v` occurs in `vals` with no `w` ahead of it). -/
theorem C31_interpolated_unique_in_order (EqualFold : GoString → GoString → Bool)
    (replacements : GoMap GoString)
    (permissions : List (List GoString)) :
    ∃ vals result,
      permissions.flatten.map (interpolatePermission EqualFold replacements) = vals.map some ∧
      interpolatePermissions EqualFold replacements permissions = some result ∧
      result.Nodup ∧
      (∀ v, v ∈ result ↔ v ∈ vals) ∧
      result.Pairwise (fun v w => ∃ a b, vals = a ++ v :: b ∧ w ∉ a) := by
  obtain ⟨u2, h2, -⟩ := interpolateSlices_eq EqualFold replacements permissions [] []
    (fun v => by simp [GoMap.get])
  refine ⟨permissions.flatten.map (fun p => (interpolatePermission EqualFold replacements p).getD []),
    firstSeen [] (permissions.flatten.map (fun p => (interpolatePermission EqualFold replacements p).getD [])),
    map_interpolatePermission EqualFold replacements _, ?_, firstSeen_nodup _ _ List.nodup_nil, ?_, ?_⟩
  · simp only [interpolatePermissions, h2]
  · intro v
    rw [mem_firstSeen]
    simp
  · exact firstSeen_ordered _ _ [] [] rfl (fun v => Iff.rfl) List.Pairwise.nil

/-- C32. For a permission `pre{k}post` in which `pre`, `k` and `post` hold
no brace, with `EqualFold` the library function `strings.EqualFold` (equality
ignoring letter case; the statement holds whatever it folds): when the map
has a key `key` equal to `k` ignoring case, with value `v`, and no other key
of the map equals `k` ignoring case, `interpolatePermission` returns
`pre ++ v ++ post`; when no key of the map equals `k` ignoring case it
returns `pre ++ k ++ post`. -/
theorem C32_placeholder_replaced (EqualFold : GoString → GoString → Bool)
    (replacements : GoMap GoString) (pre k post : GoString)
    (hpre : '{' ∉ pre ∧ '}' ∉ pre) (hk : '{' ∉ k ∧ '}' ∉ k)
    (hpost : '{' ∉ post ∧ '}' ∉ post) :
    (∀ key v, GoMap.get replacements key = some v → EqualFold key k = true →
      (∀ key2 v2, (key2, v2) ∈ replacements → EqualFold key2 k = true → key2 = key) →
      interpolatePermission EqualFold replacements (pre ++ '{' :: (k ++ '}' :: post)) =
        some (pre ++ v ++ post)) ∧
    ((∀ key2 v2, (key2, v2) ∈ replacements → EqualFold key2 k = false) →
      interpolatePermission EqualFold replacements (pre ++ '{' :: (k ++ '}' :: post)) =
        some (pre ++ k ++ post)) := by
  constructor
  · intro key v hget hfold huniq
    rw [interpolatePermission_one EqualFold replacements pre k post hpre hk hpost,
      replaced_of_unique EqualFold k key v replacements hget hfold huniq]
  · intro hnone
    rw [interpolatePermission_one EqualFold replacements pre k post hpre hk hpost,
      replaced_of_none EqualFold k replacements hnone]

/-- C32 witness, on ASCII text: `tenants:{TenantId}:read` with the map
`{tenantid: "42", id: "7"}` becomes `tenants:42:read`; with the map
`{id: "7"}` it becomes `tenants:TenantId:read`. -/
theorem C32_placeholder_replaced_witness :
    interpolatePermission asciiEqualFold
        [("tenantid".toList, "42".toList), ("id".toList, "7".toList)]
        "tenants:{TenantId}:read".toList = some "tenants:42:read".toList ∧
    interpolatePermission asciiEqualFold [("id".toList, "7".toList)]
        "tenants:{TenantId}:read".toList = some "tenants:TenantId:read".toList :=
  ⟨(C32_placeholder_replaced asciiEqualFold [("tenantid".toList, "42".toList), ("id".toList, "7".toList)]
      "tenants:".toList "TenantId".toList ":read".toList
      (by decide) (by decide) (by decide)).1 "tenantid".toList "42".toList rfl (by decide)
      (by
        intro key2 v2 hm hf
        simp only [List.mem_cons, Prod.mk.injEq, List.mem_singleton, List.not_mem_nil,
          or_false] at hm
        rcases hm with ⟨h1, -⟩ | ⟨h1, -⟩
        · exact h1
        · subst h1; exact absurd hf (by decide)),
   (C32_placeholder_replaced asciiEqualFold [("id".toList, "7".toList)]
      "tenants:".toList "TenantId".toList ":read".toList
      (by decide) (by decide) (by decide)).2
      (by
        intro key2 v2 hm
        simp only [List.mem_singleton, Prod.mk.injEq] at hm
        obtain ⟨h1, -⟩ := hm
        subst h1; decide)⟩

/-- C33. On a route that does not allow anonymous access, for a request whose
`Authorization` header is `Bearer ` followed by `token`, with `Validate`
configured: the body of the authentication middleware is the call
`Validate(token)` followed by `next(c)` when it returns true and by the 401
response when it returns false. So the continuation is called (once) if and
only if `Validate(token)` is true, and the session cookie is not used,
whatever it is: no other configured function is called and no cookie is
set. -/
theorem C33_bearer_token_decides (m : authenticationMiddleware) (heap : Heap) (now : Int)
    (c : RouteContext) (r : Credentials) (ro : RouteOptions) (o : AuthenticationOptions)
    (f : GoString → Bool) (token : GoString)
    (hrec : c.record heap = some ro) (hanon : ro.AllowAnonymous = false)
    (hauth : r.Authorization = "Bearer ".toList ++ token)
    (hopt : m.options = some o) (hval : o.Validate = some f) :
    authenticationMiddleware.Invoke m heap now c r =
      some [Step.effect (Effect.call "Validate".toList [token]),
        if f token = true then Step.next else Step.effect (Effect.respond 401)] ∧
    ∀ steps, authenticationMiddleware.Invoke m heap now c r = some steps →
      (steps.countP Step.isNext = 1 ↔ f token = true) ∧
      (f token = false →
        steps.countP Step.isNext = 0 ∧ Step.effect (Effect.respond 401) ∈ steps) ∧
      (∀ fn args, Step.effect (Effect.call fn args) ∈ steps →
        fn = "Validate".toList ∧ args = [token]) ∧
      (∀ value maxAge, Step.effect (Effect.setCookie value maxAge) ∉ steps) := by
  have h := Invoke_bearer m heap now c r ro o f token hrec hanon hauth hopt hval
  refine ⟨h, ?_⟩
  intro steps hs
  rw [h] at hs
  simp only [Option.some.injEq] at hs
  subst hs
  cases hf : f token <;> simp [List.countP_cons, Step.isNext]

/-- C33 witness: `Validate` accepts only the token `good`; the request
carries `Bearer bad` and a session cookie that every session function would
accept. The body is the call of `Validate` and the 401 response. -/
theorem C33_bearer_token_decides_witness :
    authenticationMiddleware.Invoke
        ⟨some ⟨some (fun t => t == "good".toList), some (fun _ => (true, false)),
          some (fun _ => (some ⟨"ip".toList, "ua".toList, 0⟩, false)), none⟩⟩
        [⟨"GET".toList, "/x/".toList, 7, false, [], [], []⟩] 0
        ⟨⟨"GET".toList, "/x".toList⟩, some 0, some []⟩
        ⟨"Bearer bad".toList, some "sid".toList, "ip".toList, "ua".toList⟩
      = some [Step.effect (Effect.call "Validate".toList ["bad".toList]),
          Step.effect (Effect.respond 401)] ∧
    authenticationMiddleware.Invoke
        ⟨some ⟨some (fun t => t == "good".toList), some (fun _ => (true, false)),
          some (fun _ => (some ⟨"ip".toList, "ua".toList, 0⟩, false)), none⟩⟩
        [⟨"GET".toList, "/x/".toList, 7, false, [], [], []⟩] 0
        ⟨⟨"GET".toList, "/x".toList⟩, some 0, some []⟩
        ⟨[], some "sid".toList, "ip".toList, "ua".toList⟩
      = some [Step.effect (Effect.call "ValidateSession".toList ["sid".toList]),
          Step.effect (Effect.call "GetSessionDetails".toList ["sid".toList]),
          Step.effect (Effect.setCookie "sid".toList 3600), Step.next] :=
  ⟨(C33_bearer_token_decides
      ⟨some ⟨some (fun t => t == "good".toList), some (fun _ => (true, false)),
        some (fun _ => (some ⟨"ip".toList, "ua".toList, 0⟩, false)), none⟩⟩
      [⟨"GET".toList, "/x/".toList, 7, false, [], [], []⟩] 0
      ⟨⟨"GET".toList, "/x".toList⟩, some 0, some []⟩
      ⟨"Bearer bad".toList, some "sid".toList, "ip".toList, "ua".toList⟩
      ⟨"GET".toList, "/x/".toList, 7, false, [], [], []⟩
      ⟨some (fun t => t == "good".toList), some (fun _ => (true, false)),
        some (fun _ => (some ⟨"ip".toList, "ua".toList, 0⟩, false)), none⟩
      (fun t => t == "good".toList) "bad".toList rfl rfl rfl rfl rfl).1, rfl⟩

/-- C34. In a registry a program can hold, once `Register(p, m, o)` has
returned no error, every further sequence of `Register` calls (whether they
succeed or fail) runs to its end and afterwards `Load(p, m)`, called with the
text of the pattern as the path, still returns `o` with found = true; every
node that was there is still there under the same child keys, with the same
capture name and the options it held. -/
theorem C34_registration_permanent (rr rr1 : RouteRegistry) (hr : Reachable rr)
    (p m : GoString) (o : RouteOptionsRef)
    (h1 : Register rr p m (some o) = some (rr1, none)) (calls : List RegisterCall) :
    ∃ rr2 done, RegisterAll rr1 calls = some (rr2, done) ∧
      (∃ params, Load rr2 p m = (some o, some params, true)) ∧
      ∀ ks t, nodeAt rr1.root ks = some t →
        ∃ t2, nodeAt rr2.root ks = some t2 ∧ t2.paramKey = t.paramKey ∧
          ∀ m0 o0, t.optionsAt m0 = some o0 → t2.optionsAt m0 = some o0 := by
  obtain ⟨rr2, done, h2⟩ := RegisterAll_total calls rr1
  refine ⟨rr2, done, h2, ?_, ?_⟩
  · obtain ⟨t, ht, hto⟩ := Register_stored _ _ _ _ _ h1
    obtain ⟨t2, ht2, hto2⟩ := RegisterAll_mono calls rr1 rr2 done h2 _ t m o ht hto
    have hk1 : NoDynamicKeys rr1.root :=
      Register_noDynamicKeys _ _ _ _ _ _ (Reachable_noDynamicKeys rr hr) h1
    have hk2 : NoDynamicKeys rr2.root := RegisterAll_noDynamicKeys calls rr1 rr2 done hk1 h2
    obtain ⟨ps, hps, -, -⟩ := loadWalk_self _ _ t2 [] hk2 ht2
    exact ⟨ps, Load_of_walk _ p m t2 ps o hps hto2⟩
  · intro ks t ht
    obtain ⟨t2, ht2, hpk⟩ := RegisterAll_paramKey calls rr1 rr2 done h2 ks t ht
    refine ⟨t2, ht2, hpk, ?_⟩
    intro m0 o0 hto
    obtain ⟨t3, ht3, hto3⟩ := RegisterAll_mono calls rr1 rr2 done h2 ks t m0 o0 ht hto
    rw [ht2] at ht3
    simp only [Option.some.injEq] at ht3
    rw [ht3]
    exact hto3

/-- C34 witness: `/a/{x}` registered for GET, then `/a/b` (succeeds),
`/a/{y}` (duplicate) and the empty pattern (rejected): `Load("/a/{x}", GET)`
still returns the first record. -/
theorem C34_registration_permanent_witness :
    ∃ rr2 done,
      RegisterAll ((Register NewRouteRegistry "/a/{x}".toList "GET".toList (some 0)).get rfl).1
          [⟨"/a/b".toList, "GET".toList, some 1⟩, ⟨"/a/{y}".toList, "GET".toList, some 2⟩,
            ⟨[], "GET".toList, some 3⟩] = some (rr2, done) ∧
      ∃ params, Load rr2 "/a/{x}".toList "GET".toList = (some 0, some params, true) := by
  obtain ⟨rr2, done, h, hl, -⟩ :=
    C34_registration_permanent NewRouteRegistry
      ((Register NewRouteRegistry "/a/{x}".toList "GET".toList (some 0)).get rfl).1
      ⟨[], [], rfl⟩ "/a/{x}".toList "GET".toList 0 rfl
      [⟨"/a/b".toList, "GET".toList, some 1⟩, ⟨"/a/{y}".toList, "GET".toList, some 2⟩,
        ⟨[], "GET".toList, some 3⟩]
  exact ⟨rr2, done, h, hl⟩

/-- C35. A `Register` call that returns an error (the empty-pattern error or
the duplicate error, there is no other) returns the registry it was given:
no node, capture name or options differ, and `Load` returns the same result
as before for every path and method. -/
theorem C35_failed_register_changes_nothing (rr rr2 : RouteRegistry) (p m : GoString)
    (o : Option RouteOptionsRef) (e : RegisterError)
    (h : Register rr p m o = some (rr2, some e)) :
    rr2 = rr ∧
    (e = RegisterError.emptyPattern ∨ e = RegisterError.alreadyExists m p) ∧
    ∀ path m2, Load rr2 path m2 = Load rr path m2 := by
  obtain ⟨h1, h2⟩ := Register_error_unchanged rr rr2 p m o e h
  exact ⟨h1, h2, fun path m2 => by rw [h1]⟩

/-- C35 witness: `/a/{x}/c` is registered for GET; registering `/a/{y}/c`
for GET again returns the duplicate error and the same registry. -/
theorem C35_failed_register_changes_nothing_witness :
    ∃ rr2, Register ((Register NewRouteRegistry "/a/{x}/c".toList "GET".toList
        (some 0)).get rfl).1 "/a/{y}/c".toList "GET".toList (some 1)
      = some (rr2, some (RegisterError.alreadyExists "GET".toList "/a/{y}/c".toList)) ∧
      rr2 = ((Register NewRouteRegistry "/a/{x}/c".toList "GET".toList (some 0)).get rfl).1 :=
  ⟨_, rfl, (C35_failed_register_changes_nothing
    ((Register NewRouteRegistry "/a/{x}/c".toList "GET".toList (some 0)).get rfl).1 _
    "/a/{y}/c".toList "GET".toList (some 1)
    (RegisterError.alreadyExists "GET".toList "/a/{y}/c".toList) rfl).1⟩

/-- C36. For every router and request, whatever the middleware do (any
number of calls of `next` in each body): `ServeHTTP` returns, the positions
of the middleware it enters are strictly increasing in the order they are
entered, so each middleware is entered at most once, and each position is
one of the list. -/
theorem C36_each_middleware_at_most_once (rtr : Router) (r : Request) :
    ∃ trace, rtr.ServeHTTP r = some trace ∧
      (invoked trace).Pairwise (fun i j => i < j) ∧
      (∀ i, (invoked trace).count i ≤ 1) ∧
      ∀ i, i ∈ invoked trace → i < rtr.middleware.length := by
  cases hres : (Load rtr.registry r.Path r.Method).2.2 with
  | false =>
    refine ⟨_, ServeHTTP_not_found rtr r hres, ?_, ?_, ?_⟩ <;> simp [invoked]
  | true =>
    obtain ⟨st2, h2, -⟩ := next_total rtr.middleware
      ⟨r, (Load rtr.registry r.Path r.Method).1, (Load rtr.registry r.Path r.Method).2.1⟩
      rtr.middleware.length ⟨0, []⟩ (by simp)
    obtain ⟨tr, ht, -, hb, hp⟩ := next_advances _ _ _ _ _ h2
    simp only [List.nil_append] at ht
    have hcover : ∀ i, i ∈ invoked st2.trace → i < rtr.middleware.length := by
      intro i hi
      rw [ht] at hi
      exact (hb i hi).2.2
    refine ⟨st2.trace, by rw [ServeHTTP_found rtr r hres, h2]; rfl, ?_, ?_, hcover⟩
    · rw [ht]; exact hp
    · intro i
      rw [ht]
      exact List.nodup_iff_count_le_one.mp
        (hp.imp (fun h => Nat.ne_of_lt h)) i

/-- C37. `Register` is total: for every registry, pattern, method and
options it returns, with a nil error, the empty-pattern error or the
duplicate error, and never panics. The slice `segment[1 : len(segment)-1]`
is taken only of a segment that starts with `{` and ends with `}`; such a
segment has length at least 2, so the slice is within bounds. Of the segments
`{`, `}`, `}{` and `{}` only the last is a capture segment, with the empty
name. -/
theorem C37_register_total (rr : RouteRegistry) (p m : GoString)
    (o : Option RouteOptionsRef) :
    (∃ rr2 e, Register rr p m o = some (rr2, e) ∧
      (e = none ∨ e = some RegisterError.emptyPattern ∨
        e = some (RegisterError.alreadyExists m p))) ∧
    (∀ segment : GoString, isDynamic segment = true →
      2 ≤ segment.length ∧
      slice segment 1 ((segment.length : Int) - 1) =
        some ((segment.drop 1).take (segment.length - 2))) ∧
    isDynamic ['{'] = false ∧ isDynamic ['}'] = false ∧ isDynamic ['}', '{'] = false ∧
    isDynamic ['{', '}'] = true ∧ slice ['{', '}'] 1 ((['{', '}'].length : Int) - 1) = some [] := by
  refine ⟨?_, fun segment h => ⟨length_of_isDynamic segment h, slice_of_isDynamic segment h⟩,
    by decide, by decide, by decide, by decide, by decide⟩
  obtain ⟨rr2, e, h⟩ := Register_total rr p m o
  refine ⟨rr2, e, h, ?_⟩
  cases e with
  | none => exact Or.inl rfl
  | some e =>
    rcases (Register_error_unchanged rr rr2 p m o e h).2 with h2 | h2
    · exact Or.inr (Or.inl (by rw [h2]))
    · exact Or.inr (Or.inr (by rw [h2]))

/-- C37 witness: `Register` returns for the pattern `/{/}/{}/}{`, and the
slice of the capture segment `{id}` is `id`. -/
theorem C37_register_total_witness :
    (∃ rr2 e, Register NewRouteRegistry
        ['/', '{', '/', '}', '/', '{', '}', '/', '}', '{'] "GET".toList (some 0)
        = some (rr2, e) ∧
      (e = none ∨ e = some RegisterError.emptyPattern ∨
        e = some (RegisterError.alreadyExists "GET".toList
          ['/', '{', '/', '}', '/', '{', '}', '/', '}', '{']))) ∧
    2 ≤ ['{', 'i', 'd', '}'].length ∧
    slice ['{', 'i', 'd', '}'] 1 ((['{', 'i', 'd', '}'].length : Int) - 1) = some ['i', 'd'] :=
  ⟨(C37_register_total NewRouteRegistry
      ['/', '{', '/', '}', '/', '{', '}', '/', '}', '{'] "GET".toList (some 0)).1,
    (C37_register_total NewRouteRegistry [] [] none).2.1 ['{', 'i', 'd', '}'] (by decide)⟩

end Mux
